import Mathlib

/-!
# XShare: collector, value records and shared container

A shallow embedding of `GC.c`, `stored_object.c` and `shared_table.c`.

Conventions of the embedding

* Addresses returned by `malloc` are natural numbers taken from a counter (`GC.brk`), so a
  freed address is never handed out again.  Address 0 is NULL and is never allocated.
* The collector's doubly linked list is the list `GC.objs` of (address, object) pairs, head
  first.  An address that is not in the list is freed memory.
* Every allocation request consumes one entry of `GC.oom` (`false` = the request fails); the
  empty list means that every further request succeeds.
* A read through a dangling pointer that decides control flow has no defined result: the
  functions that perform one return `none`.  A reference-count update through a dangling
  pointer changes no live object and is dropped.
* `assert` does not change control flow (a build with `NDEBUG`); the asserted condition of
  `gc_release` is the separate predicate `gc_release_assert`.
* The sweep of `gc_collect` is given twice: `sweep` is the list and the counts that the loop
  leaves when it runs to its end, and `sweep_trace` lists, in order, the steps of that run
  that fail the assertion of `gc_release`, write to freed memory, or read a field that was
  never written.
* The `atomic_int` reference count is a `CInt`: a 32-bit integer on which `+` and `-` wrap
  around, as `atomic_fetch_add` and `atomic_fetch_sub` do.
* `double` values are `Double`: NaN, the two infinities, or a finite dyadic `m / 2^e`;
  a product and the conversion of an integer are rounded to the nearest double
  (`Double.round`), that is, expressions of type `double` are evaluated in `double`
  (`FLT_EVAL_METHOD` 0, as on x86-64).
* `ensure_capacity` reports what it left behind (`Ensured`).  After a call that left the
  key array of a container in freed memory there is no state to continue from:
  `shared_table_set` has no result there.
* Locks are not modelled: every function runs alone.
* Of the interpreter only what the marshaler reads and writes is modelled (`LuaState`,
  `LuaValue`, and the stack of the running C function as a list of values, top first); a
  call into a script function (`lua_call`) ends the modelled run of a binding function.
  Native functions have no upvalues, and the stack has room for every push.
-/

namespace XShare

/-! ## C doubles -/

/-- A C `double`: not-a-number, minus infinity, plus infinity, or the finite value `m / 2^e`. -/
inductive Double where
  | nan
  | ninf
  | pinf
  | fin (m : Int) (e : Nat)
  deriving DecidableEq, Repr

namespace Double

/-- The C operator `<` on doubles (false as soon as an operand is NaN). -/
def lt : Double → Double → Bool
  | nan, _ => false
  | _, nan => false
  | ninf, ninf => false
  | ninf, _ => true
  | _, ninf => false
  | pinf, _ => false
  | fin _ _, pinf => true
  | fin m e, fin n f => decide (m * 2 ^ f < n * 2 ^ e)

/-- The C operator `>` on doubles. -/
def gt (a b : Double) : Bool := lt b a

/-- The C operator `>=` on doubles (false as soon as an operand is NaN). -/
def ge : Double → Double → Bool
  | nan, _ => false
  | _, nan => false
  | _, ninf => true
  | ninf, _ => false
  | pinf, _ => true
  | fin _ _, pinf => false
  | fin m e, fin n f => decide (n * 2 ^ e ≤ m * 2 ^ f)

/-- The number of binary digits of `a`, counted in at most `fuel` halvings. -/
def bit_length_aux : Nat → Nat → Nat
  | 0, _ => 0
  | fuel + 1, a => if a = 0 then 0 else bit_length_aux fuel (a / 2) + 1

/-- The number of binary digits of `a`: `2^(b - 1) ≤ a < 2^b` for `a ≠ 0`, and `0` for `0`. -/
def bit_length (a : Nat) : Nat := bit_length_aux a a

/-- The double nearest to `m / 2^e`, as IEEE 754 arithmetic in the default rounding mode
delivers it: 53 significant binary digits, the unit in the last place not below `2^-1074`,
a tie resolved to the even significand, infinity from `2^1024` on.  With `b` the number of
binary digits of `|m|` the unit in the last place is `2^q`, `q = max (b - e - 53) (-1074)`,
and the significand is `|m| / 2^(e + q)` rounded to an integer.  A value written with a
significand below `2^53` and `e ≤ 1074` is a double already and is returned as written. -/
def round (m : Int) (e : Nat) : Double :=
  if m.natAbs < 2 ^ 53 ∧ e ≤ 1074 then fin m e
  else
    let q : Int := max ((bit_length m.natAbs : Int) - e - 53) (-1074)
    let s : Int := e + q
    let sig : Nat :=
      if s ≤ 0 then m.natAbs * 2 ^ (-s).toNat
      else
        let n := m.natAbs / 2 ^ s.toNat
        let r := m.natAbs % 2 ^ s.toNat
        if 2 ^ s.toNat < 2 * r ∨ (2 * r = 2 ^ s.toNat ∧ n % 2 = 1) then n + 1 else n
    if 971 < q ∨ (q = 971 ∧ 2 ^ 53 ≤ sig) then (if m < 0 then ninf else pinf)
    else if 0 ≤ q then fin ((if m < 0 then -1 else 1) * sig * 2 ^ q.toNat) 0
    else fin ((if m < 0 then -1 else 1) * sig) (-q).toNat

/-- Conversion of a non-negative integer (`int`, `size_t`) to `double`: exact below `2^53`,
rounded to the nearest double from there on. -/
def ofNat (n : Nat) : Double := round n 0

/-- The sign of a double that is not NaN: `-1`, `0` or `1`. -/
def sign : Double → Int
  | nan => 0
  | ninf => -1
  | pinf => 1
  | fin m _ => if m < 0 then -1 else if m = 0 then 0 else 1

/-- The C operator `*` on doubles: the exact product of finite operands, rounded to the
nearest double. -/
def mul : Double → Double → Double
  | nan, _ => nan
  | _, nan => nan
  | fin m e, fin n f => round (m * n) (e + f)
  | a, b =>
    if sign a * sign b = 0 then nan
    else if sign a * sign b < 0 then ninf else pinf

end Double

/-! ## The C type `int` -/

/-- The integer a 32-bit two's complement `int` holds when arithmetic has produced the
mathematical value `n`: `n` reduced modulo `2^32` into the range `-2^31 .. 2^31 - 1`. -/
def wrap_int (n : Int) : Int := (n + 2147483648) % 4294967296 - 2147483648

/-- A value of the C type `int`, and of `atomic_int`: an integer in `-2^31 .. 2^31 - 1`. -/
structure CInt where
  val : Int
  range : -2147483648 ≤ val ∧ val < 2147483648
  deriving DecidableEq

/-- The `int` left by arithmetic with the mathematical result `n`: silent wrap-around, as
`atomic_fetch_add` and `atomic_fetch_sub` on an `atomic_int` do. -/
def CInt.wrap (n : Int) : CInt := ⟨wrap_int n, by unfold wrap_int; omega⟩

instance : Repr CInt := ⟨fun c n => reprPrec c.val n⟩

instance (n : Nat) : OfNat CInt n := ⟨CInt.wrap n⟩

instance : Add CInt := ⟨fun a b => CInt.wrap (a.val + b.val)⟩

instance : Sub CInt := ⟨fun a b => CInt.wrap (a.val - b.val)⟩

instance : Neg CInt := ⟨fun a => CInt.wrap (-a.val)⟩

instance : LT CInt := ⟨fun a b => a.val < b.val⟩

instance : LE CInt := ⟨fun a b => a.val ≤ b.val⟩

instance (a b : CInt) : Decidable (a < b) := inferInstanceAs (Decidable (a.val < b.val))

instance (a b : CInt) : Decidable (a ≤ b) := inferInstanceAs (Decidable (a.val ≤ b.val))

/-! ## Value records (`stored_object.h`) -/

/-- The kind tags of `StoredType`, in declaration order. -/
inductive StoredType where
  | STORED_NIL
  | STORED_BOOLEAN
  | STORED_NUMBER
  | STORED_INTEGER
  | STORED_STRING
  | STORED_LIGHTUSERDATA
  | STORED_CFUNCTION
  | STORED_FUNCTION
  | STORED_TABLE_COPY
  | STORED_SHARED_TABLE
  deriving DecidableEq, Repr

/-- The integer value of an enumerator of `StoredType`. -/
def StoredType.ord : StoredType → Nat
  | STORED_NIL => 0
  | STORED_BOOLEAN => 1
  | STORED_NUMBER => 2
  | STORED_INTEGER => 3
  | STORED_STRING => 4
  | STORED_LIGHTUSERDATA => 5
  | STORED_CFUNCTION => 6
  | STORED_FUNCTION => 7
  | STORED_TABLE_COPY => 8
  | STORED_SHARED_TABLE => 9

/-- The block `FunctionData`: `addr` is the address of the block, `upvalue_count` is the
length of `upvalues`, a `none` upvalue is the NULL left in the environment slot. -/
structure FunctionData where
  addr : Nat
  bytecode : List Nat
  env_upvalue_pos : Nat
  upvalues : List (Option Nat)
  deriving DecidableEq, Repr

/-- The block `TableCopy`: `addr` is the address of the block, `entries` lists the pairs
`(keys[i], vals[i])` for `i < size`. -/
structure TableCopy where
  addr : Nat
  entries : List (Nat × Nat)
  capacity : Nat
  deriving DecidableEq, Repr

/-- The fields `type`, `data` and `string_len` of a `StoredObject`: the tag selects the live
member of the union.  Bytes are numbers below 256, pointers are addresses, `string_len` is the
length of `string_val`. -/
inductive StoredObject where
  | nil
  | boolean (boolean_val : Bool)
  | number (number_val : Double)
  | integer (integer_val : Int)
  | string (string_val : List Nat)
  | lightuserdata (lightuserdata_val : Nat)
  | cfunction (cfunction_val : Nat)
  | function (func_data : Option FunctionData)
  | table_copy (table_copy : Option TableCopy)
  | shared_table (shared_table : Nat)
  deriving DecidableEq, Repr

/-- The field `type` of a value record. -/
def StoredObject.type : StoredObject → StoredType
  | nil => .STORED_NIL
  | boolean _ => .STORED_BOOLEAN
  | number _ => .STORED_NUMBER
  | integer _ => .STORED_INTEGER
  | string _ => .STORED_STRING
  | lightuserdata _ => .STORED_LIGHTUSERDATA
  | cfunction _ => .STORED_CFUNCTION
  | function _ => .STORED_FUNCTION
  | table_copy _ => .STORED_TABLE_COPY
  | shared_table _ => .STORED_SHARED_TABLE

/-! ## Shared containers (`shared_table.h`) -/

/-- The payload of a `SharedTable`: `entries` lists the pairs `(entries.keys[i],
entries.vals[i])` for `i < entries.size`, `cap` is `entries.cap`, `metatable` is `none` for
NULL. -/
structure SharedTable where
  entries : List (Nat × Nat)
  cap : Nat
  metatable : Option Nat
  deriving DecidableEq, Repr

/-! ## Managed objects and the collector (`GC.h`) -/

/-- The destructor hook of an object header.  `alloc_object` does not initialise the field;
`unset` stands for that state and is treated as NULL. -/
inductive Dtor where
  | unset
  | shared_table_dtor
  | stored_dtor
  deriving DecidableEq, Repr

/-- The user data that follows an object header.  `raw` is memory that the creator has not
initialised yet. -/
inductive Payload where
  | raw
  | table (t : SharedTable)
  | stored (s : StoredObject)
  deriving DecidableEq, Repr

/-- A managed object: the header `GCObject` (without the list links, which are the position
in `GC.objs`; `strongSize` is the length of `strongRefs`) followed by its user data. -/
structure GCObject where
  refCount : CInt
  mark : Nat
  strongCapacity : Nat
  strongRefs : List Nat
  dtor : Dtor
  data : Payload
  deriving DecidableEq, Repr

/-- The collector `GC` together with the memory it manages and the allocator. -/
structure GC where
  objs : List (Nat × GCObject)
  count : Nat
  enabled : Bool
  step : Double
  lastCleanup : Nat
  brk : Nat
  oom : List Bool
  deriving DecidableEq, Repr

/-- The addresses of the objects in the global list, head first. -/
def GC.ids (gc : GC) : List Nat := gc.objs.map Prod.fst

/-- The object stored at an address of the global list. -/
def GC.obj (gc : GC) (a : Nat) : Option GCObject := gc.objs.lookup a

/-- One allocation request (`malloc`, `calloc`, `realloc`): whether it succeeds, and the
allocator afterwards. -/
def GC.malloc (gc : GC) : Bool × GC :=
  match gc.oom with
  | [] => (true, gc)
  | b :: rest => (b, { gc with oom := rest })

/-- The initial state of the singleton returned by `gc_instance`. -/
def gc_instance : GC :=
  { objs := [], count := 0, enabled := true, step := .fin 2 0, lastCleanup := 100,
    brk := 1, oom := [] }

/-- Apply `f` to the object at address `a` (every other object is left alone; nothing happens
when `a` is not a live address). -/
def updObj (objs : List (Nat × GCObject)) (a : Nat) (f : GCObject → GCObject) :
    List (Nat × GCObject) :=
  objs.map (fun p => if p.1 = a then (p.1, f p.2) else p)

/-- The function `ensure_strong_capacity`: the object afterwards, or `none` when the buffer
had to grow and `realloc` failed (`ok = false`). -/
def ensure_strong_capacity (ok : Bool) (obj : GCObject) (needed : Nat) : Option GCObject :=
  if needed ≤ obj.strongCapacity then some obj
  else
    let newCap := if obj.strongCapacity * 2 < needed then needed else obj.strongCapacity * 2
    if ok then some { obj with strongCapacity := newCap } else none

/-- The function `alloc_object`: a new object with `refCount = 1`, colour white, an empty
edge buffer of capacity 4, linked at the tail of the list. -/
def alloc_object (gc : GC) : GC × Option Nat :=
  let (ok1, gc1) := gc.malloc
  if !ok1 then (gc1, none)
  else
    let (ok2, gc2) := gc1.malloc
    if !ok2 then (gc2, none)
    else
      let a := gc2.brk
      let obj : GCObject :=
        { refCount := 1, mark := 0, strongCapacity := 4, strongRefs := [],
          dtor := .unset, data := .raw }
      ({ gc2 with objs := gc2.objs ++ [(a, obj)], count := gc2.count + 1, brk := a + 1 },
        some a)

/-- The function `gc_retain`: `atomic_fetch_add(&obj->refCount, 1)`, which wraps from
`INT_MAX` to `INT_MIN`. -/
def gc_retain (gc : GC) (obj : Nat) : GC :=
  { gc with objs := updObj gc.objs obj (fun o => { o with refCount := o.refCount + 1 }) }

/-- The function `gc_release` with the assertion compiled out: the count is decremented
whatever its value (`atomic_fetch_sub(&obj->refCount, 1)`, which wraps from `INT_MIN` to
`INT_MAX`). -/
def gc_release (gc : GC) (obj : Nat) : GC :=
  { gc with objs := updObj gc.objs obj (fun o => { o with refCount := o.refCount - 1 }) }

/-- The condition `old > 0` asserted by `gc_release`, evaluated before the decrement. -/
def gc_release_assert (gc : GC) (obj : Nat) : Bool :=
  match gc.obj obj with
  | some o => decide (o.refCount > 0)
  | none => false

/-- The function `gc_add_reference` for non-NULL arguments: `dst` is appended to the edges
of `src`; when the buffer cannot grow the edge is dropped.  `none` when `src` is not a live
object. -/
def gc_add_reference (gc : GC) (src dst : Nat) : Option GC :=
  match gc.obj src with
  | none => none
  | some o =>
    let (ok, gc1) :=
      if o.strongRefs.length + 1 ≤ o.strongCapacity then (true, gc) else gc.malloc
    match ensure_strong_capacity ok o (o.strongRefs.length + 1) with
    | none => some gc1
    | some o1 =>
      some { gc1 with
        objs := updObj gc1.objs src (fun _ => { o1 with strongRefs := o1.strongRefs ++ [dst] }) }

/-- The removal loop of `gc_remove_reference`: the first entry equal to `dst` is overwritten
with the last entry and the size is decremented. -/
def remove_first (refs : List Nat) (dst : Nat) : List Nat :=
  match refs.indexOf? dst with
  | none => refs
  | some i => (refs.set i (refs.getLastD dst)).dropLast

/-- The function `gc_remove_reference` for non-NULL arguments, with the shrink of the
buffer to half its capacity.  `none` when `src` is not a live object. -/
def gc_remove_reference (gc : GC) (src dst : Nat) : Option GC :=
  match gc.obj src with
  | none => none
  | some o =>
    let refs := remove_first o.strongRefs dst
    if refs.length * 3 < o.strongCapacity ∧ o.strongCapacity > 4 then
      let newCap := if o.strongCapacity / 2 < 4 then 4 else o.strongCapacity / 2
      let (ok, gc1) := gc.malloc
      some { gc1 with
        objs := updObj gc1.objs src (fun o =>
          { o with strongRefs := refs,
                   strongCapacity := if ok then newCap else o.strongCapacity }) }
    else
      some { gc with objs := updObj gc.objs src (fun o => { o with strongRefs := refs }) }

/-! ### Destructors -/

/-- The pointers released by `shared_table_dtor`, in order: key and value of every entry,
then the metatable. -/
def shared_table_dtor (t : SharedTable) : List Nat :=
  (t.entries.map (fun e => [e.1, e.2])).flatten ++ t.metatable.toList

/-- The pointers released by `stored_dtor`, in order. -/
def stored_dtor : StoredObject → List Nat
  | .function (some f) => f.upvalues.filterMap id
  | .table_copy (some tc) => (tc.entries.map (fun e => [e.1, e.2])).flatten
  | .shared_table st => [st]
  | _ => []

/-- The pointers released by the destructor of an object.  A record whose payload is still
uninitialised is given the default branch of `stored_dtor`, which releases nothing; the
`switch` reads an indeterminate `type` there, which `dtor_faults` records. -/
def run_dtor (o : GCObject) : List Nat :=
  match o.dtor, o.data with
  | .shared_table_dtor, .table t => shared_table_dtor t
  | .stored_dtor, .stored s => stored_dtor s
  | _, _ => []

/-! ### `gc_collect` -/

/-- The statement `grey[greySize++] = obj`; `none` when the write is past the end of the
array of `cap` slots. -/
def grey_push (cap : Nat) (grey : List Nat) (a : Nat) : Option (List Nat) :=
  if grey.length < cap then some (grey ++ [a]) else none

/-- First loop of `gc_collect`: every object becomes white, and every object with
`refCount > 1` is pushed and becomes grey. -/
def mark_roots (cap : Nat) :
    List (Nat × GCObject) → List Nat → Option (List (Nat × GCObject) × List Nat)
  | [], grey => some ([], grey)
  | (a, o) :: rest, grey =>
    if o.refCount > 1 then
      match grey_push cap grey a with
      | none => none
      | some grey1 =>
        match mark_roots cap rest grey1 with
        | none => none
        | some (rest1, grey2) => some ((a, { o with mark := 1 }) :: rest1, grey2)
    else
      match mark_roots cap rest grey with
      | none => none
      | some (rest1, grey1) => some ((a, { o with mark := 0 }) :: rest1, grey1)

/-- Inner loop of the propagation: every white target of the edges `refs` becomes grey and
is pushed.  `none` when a target is not a live object or the push overflows.  An edge is never
NULL (`gc_add_reference` ignores a NULL target), so the test `ref &&` is always passed. -/
def scan_refs (cap : Nat) :
    List Nat → List (Nat × GCObject) → List Nat → Option (List (Nat × GCObject) × List Nat)
  | [], objs, grey => some (objs, grey)
  | r :: rs, objs, grey =>
    match objs.lookup r with
    | none => none
    | some o =>
      if o.mark = 0 then
        match grey_push cap grey r with
        | none => none
        | some grey1 => scan_refs cap rs (updObj objs r (fun o => { o with mark := 1 })) grey1
      else scan_refs cap rs objs grey

/-- Second loop of `gc_collect`, from index `i` of the worklist; the loop runs at most `fuel`
more times. -/
def propagate (cap : Nat) :
    Nat → Nat → List (Nat × GCObject) → List Nat → Option (List (Nat × GCObject))
  | fuel, i, objs, grey =>
    match grey[i]? with
    | none => some objs
    | some cur =>
      match fuel with
      | 0 => none
      | fuel1 + 1 =>
        match objs.lookup cur with
        | none => none
        | some o =>
          match scan_refs cap o.strongRefs objs grey with
          | none => none
          | some (objs1, grey1) =>
            propagate cap fuel1 (i + 1) (updObj objs1 cur (fun o => { o with mark := 2 })) grey1

/-- The effect of one destructor call: each released pointer loses one reference. -/
def release_all (gc : GC) (ptrs : List Nat) : GC :=
  ptrs.foldl gc_release gc

/-- Third loop of `gc_collect` over the addresses of the list as it was when the loop
started: a white object is unlinked, its destructor runs, it is freed and `count` is
decremented. -/
def sweep : List Nat → GC → GC
  | [], gc => gc
  | a :: rest, gc =>
    match gc.obj a with
    | none => sweep rest gc
    | some o =>
      if o.mark = 0 then
        let gc1 := { gc with objs := gc.objs.filter (fun p => p.1 ≠ a) }
        let gc2 := release_all gc1 (run_dtor o)
        sweep rest { gc2 with count := gc2.count - 1 }
      else sweep rest gc

/-- The function `gc_collect`.  The result is `none` when the run has no defined outcome
(a dangling edge is followed or the worklist overflows). -/
def gc_collect (gc : GC) : Option GC :=
  let objCount := gc.count
  if objCount = 0 then some gc
  else
    let (ok, gc1) := gc.malloc
    if !ok then some gc1
    else
      match mark_roots objCount gc1.objs [] with
      | none => none
      | some (objs1, grey) =>
        match propagate objCount objCount 0 objs1 grey with
        | none => none
        | some objs2 =>
          let gc3 := sweep (objs2.map Prod.fst) { gc1 with objs := objs2 }
          some { gc3 with lastCleanup := gc3.count }

/-! ### What the sweep does on the way

`sweep` gives the list and the counts that the third loop leaves behind when it runs to its
end.  Three kinds of step of that loop have no defined or no intended behaviour in C; `sweep`
passes over them, and `sweep_trace` records them. -/

/-- A step of a destructor call that C does not define or that the code itself rules out.
`assert_release obj`: `gc_release(obj)` on an object of the list whose count is not positive,
so `assert(old > 0)` fails (the program aborts unless built with `NDEBUG`).
`freed_release obj`: `gc_release(obj)` through a pointer to an object that is no longer in the
list, because it was freed earlier: `atomic_fetch_sub` writes to freed memory.
`raw_dtor obj`: `stored_dtor` on a record whose `type` field has never been written: the
`switch` reads an indeterminate value. -/
inductive Fault where
  | assert_release (obj : Nat)
  | freed_release (obj : Nat)
  | raw_dtor (obj : Nat)
  deriving DecidableEq, Repr

/-- The faults of the calls `gc_release(p)` for the pointers `ptrs`, in order, in the state
`gc`. -/
def release_trace : GC → List Nat → List Fault
  | _, [] => []
  | gc, p :: ps =>
    (match gc.obj p with
      | none => [Fault.freed_release p]
      | some _ => if gc_release_assert gc p then [] else [Fault.assert_release p])
      ++ release_trace (gc_release gc p) ps

/-- The fault of entering the destructor of the object `o` at address `a`. -/
def dtor_faults (a : Nat) (o : GCObject) : List Fault :=
  match o.dtor, o.data with
  | .stored_dtor, .raw => [Fault.raw_dtor a]
  | _, _ => []

/-- The loop of `sweep` together with the faults of its destructor calls, in order.  The
destructor of an object runs after the object has been unlinked and before it is freed, so
its releases are traced in the state that still holds the object. -/
def sweep_trace : List Nat → GC → GC × List Fault
  | [], gc => (gc, [])
  | a :: rest, gc =>
    match gc.obj a with
    | none => sweep_trace rest gc
    | some o =>
      if o.mark = 0 then
        let gc1 := { gc with objs := gc.objs.filter (fun p => p.1 ≠ a) }
        let gc2 := release_all gc1 (run_dtor o)
        let r := sweep_trace rest { gc2 with count := gc2.count - 1 }
        (r.1, dtor_faults a o ++ release_trace gc (run_dtor o) ++ r.2)
      else sweep_trace rest gc

/-- The faults of the sweep of a call of `gc_collect`, in order (`none` where `gc_collect` has
no result; no fault when the function returns before the sweep). -/
def gc_collect_faults (gc : GC) : Option (List Fault) :=
  let objCount := gc.count
  if objCount = 0 then some []
  else
    let (ok, gc1) := gc.malloc
    if !ok then some []
    else
      match mark_roots objCount gc1.objs [] with
      | none => none
      | some (objs1, grey) =>
        match propagate objCount objCount 0 objs1 grey with
        | none => none
        | some objs2 => some (sweep_trace (objs2.map Prod.fst) { gc1 with objs := objs2 }).2

/-- The trigger test of `gc_create`: `enabled && count >= step * lastCleanup`. -/
def gc_trigger (gc : GC) : Bool :=
  gc.enabled && Double.ge (Double.ofNat gc.count) (Double.mul gc.step (Double.ofNat gc.lastCleanup))

/-- The function `gc_create`: the collector afterwards and the new object (`none` for NULL);
no result at all when the triggered collection has none. -/
def gc_create (gc : GC) : Option (GC × Option Nat) :=
  if gc_trigger gc then
    match gc_collect gc with
    | none => none
    | some gc1 => some (alloc_object gc1)
  else some (alloc_object gc)

/-- The function `gc_pause`. -/
def gc_pause (gc : GC) : GC := { gc with enabled := false }

/-- The function `gc_resume`. -/
def gc_resume (gc : GC) : GC := { gc with enabled := true }

/-- The function `gc_enabled`. -/
def gc_enabled (gc : GC) : Bool := gc.enabled

/-- The literal `1.01` as a double: `4548635623644201 / 2^52`. -/
def Double.c1_01 : Double := .fin 4548635623644201 52

/-- The function `gc_set_step`. -/
def gc_set_step (gc : GC) (step : Double) : GC :=
  if Double.gt step (.fin 1 0) then { gc with step := step }
  else { gc with step := Double.c1_01 }

/-- The function `gc_get_step`. -/
def gc_get_step (gc : GC) : Double := gc.step

/-- The function `gc_count`. -/
def gc_count (gc : GC) : Nat := gc.count

/-! ## `stored_compare` -/

/-- The function `memcmp` on the first `n` bytes: zero when they agree, otherwise the
difference of the first pair of bytes that differ. -/
def memcmp : List Nat → List Nat → Nat → Int
  | a :: as, b :: bs, n + 1 => if a = b then memcmp as bs n else (a : Int) - (b : Int)
  | _, _, _ => 0

/-- The comparison `(pa < pb) ? -1 : (pa > pb) ? 1 : 0` of two addresses. -/
def ptr_compare (pa pb : Nat) : Int := if pa < pb then -1 else if pa > pb then 1 else 0

/-- The address held in `data.func_data` (0 for NULL). -/
def func_data_addr : Option FunctionData → Nat
  | none => 0
  | some f => f.addr

/-- The address held in `data.table_copy` (0 for NULL). -/
def table_copy_addr : Option TableCopy → Nat
  | none => 0
  | some tc => tc.addr

/-- The function `stored_compare`. -/
def stored_compare (a b : StoredObject) : Int :=
  if a.type ≠ b.type then (if a.type.ord < b.type.ord then -1 else 1)
  else
    match a, b with
    | .nil, _ => 0
    | .boolean x, .boolean y => if x = y then 0 else if x then 1 else -1
    | .number x, .number y => if Double.lt x y then -1 else if Double.gt x y then 1 else 0
    | .integer x, .integer y => if x < y then -1 else if x > y then 1 else 0
    | .string x, .string y =>
      let min := if x.length < y.length then x.length else y.length
      let cmp := memcmp x y min
      if cmp ≠ 0 then cmp
      else if x.length < y.length then -1 else if x.length > y.length then 1 else 0
    | .lightuserdata x, .lightuserdata y => ptr_compare x y
    | .cfunction x, .cfunction y => ptr_compare x y
    | .function f, .function g => ptr_compare (func_data_addr f) (func_data_addr g)
    | .shared_table x, .shared_table y => ptr_compare x y
    | .table_copy x, .table_copy y => ptr_compare (table_copy_addr x) (table_copy_addr y)
    | _, _ => 0

/-! ## The shared container (`shared_table.c`) -/

/-- The value record stored at an address (`none` when the address is not a live, initialised
value record). -/
def getStored (gc : GC) (a : Nat) : Option StoredObject :=
  match gc.obj a with
  | some o => match o.data with
    | .stored s => some s
    | _ => none
  | none => none

/-- The container stored at an address (`none` when the address is not a live container). -/
def getTable (gc : GC) (a : Nat) : Option SharedTable :=
  match gc.obj a with
  | some o => match o.data with
    | .table t => some t
    | _ => none
  | none => none

/-- Overwrite the payload of the container at address `a`. -/
def setTable (gc : GC) (a : Nat) (t : SharedTable) : GC :=
  { gc with objs := updObj gc.objs a (fun o => { o with data := .table t }) }

/-- The loop of `find_key_index` over the key slots from index `i` on: the index of the first
key that compares equal to `key`, `some none` for `-1`.  `key` is what the key pointer points
to (`none` when it does not point to a value record); there is no result when a comparison
reads through a pointer that does not point to a value record. -/
def find_key_from (gc : GC) (key : Option StoredObject) : List Nat → Nat → Option (Option Nat)
  | [], _ => some none
  | k :: ks, i =>
    match getStored gc k, key with
    | some s, some x =>
      if stored_compare s x = 0 then some (some i) else find_key_from gc key ks (i + 1)
    | _, _ => none

/-- The function `find_key_index`. -/
def find_key_index (gc : GC) (tbl : SharedTable) (key : Option StoredObject) :
    Option (Option Nat) :=
  find_key_from gc key (tbl.entries.map Prod.fst) 0

/-- The loop `while (newcap < needed) newcap *= 2` of `ensure_capacity`. -/
def grow_cap (needed : Nat) : Nat → Nat → Nat
  | 0, newcap => newcap
  | fuel + 1, newcap => if newcap < needed then grow_cap needed fuel (newcap * 2) else newcap

/-- What a call of `ensure_capacity` leaves behind.  `ok tbl`: it returned 1 and the
container is `tbl`, with room for the entries needed.  `unchanged`: it returned 0 and the
container is as it was (the first `realloc` failed, or the second failed while there was no
key array yet).  `keys_freed`: it returned 0 after the second `realloc` failed; the key array
has been through `realloc` and then `free`, and `entries.keys` still holds its old address,
so the container has `size` keys in freed memory. -/
inductive Ensured where
  | ok (tbl : SharedTable)
  | unchanged
  | keys_freed
  deriving DecidableEq, Repr

/-- The function `ensure_capacity`: the collector afterwards and what the call left behind. -/
def ensure_capacity (gc : GC) (tbl : SharedTable) (needed : Nat) : GC × Ensured :=
  if needed ≤ tbl.cap then (gc, .ok tbl)
  else
    let newcap := grow_cap needed needed (if tbl.cap ≠ 0 then tbl.cap * 2 else 4)
    let (ok1, gc1) := gc.malloc
    if !ok1 then (gc1, .unchanged)
    else
      let (ok2, gc2) := gc1.malloc
      if !ok2 then (gc2, if tbl.cap = 0 then .unchanged else .keys_freed)
      else (gc2, .ok { tbl with cap := newcap })

/-- The function `shared_table_create`. -/
def shared_table_create (gc : GC) : Option (GC × Option Nat) :=
  match gc_create gc with
  | none => none
  | some (gc1, none) => some (gc1, none)
  | some (gc1, some a) =>
    some ({ gc1 with objs := updObj gc1.objs a (fun o =>
              { o with dtor := .shared_table_dtor,
                       data := .table { entries := [], cap := 0, metatable := none } }) },
          some a)

/-- The function `shared_table_set`: the collector afterwards and the returned flag.  When
`ensure_capacity` has left the keys in freed memory the call returns 0 as well, but every
later access to the container reads that memory: there is no state to continue from, and
the result is `none`. -/
def shared_table_set (gc : GC) (tbl key val : Nat) : Option (GC × Bool) :=
  match getTable gc tbl with
  | none => none
  | some t =>
    match find_key_index gc t (getStored gc key) with
    | none => none
    | some (some idx) =>
      match t.entries[idx]? with
      | none => none
      | some (oldk, oldv) =>
        let gc1 := gc_release gc oldv
        let gc2 := setTable gc1 tbl { t with entries := t.entries.set idx (oldk, val) }
        match gc_add_reference gc2 tbl val with
        | none => none
        | some gc3 => some (gc3, true)
    | some none =>
      match ensure_capacity gc t (t.entries.length + 1) with
      | (_, .keys_freed) => none
      | (gc1, .unchanged) => some (gc1, false)
      | (gc1, .ok t1) =>
        let gc2 := setTable gc1 tbl { t1 with entries := t1.entries ++ [(key, val)] }
        match gc_add_reference gc2 tbl key with
        | none => none
        | some gc3 =>
          match gc_add_reference gc3 tbl val with
          | none => none
          | some gc4 => some (gc4, true)

/-- The function `shared_table_get`: the value pointer, `some none` for NULL.  `key` is what
the key pointer points to. -/
def shared_table_get (gc : GC) (tbl : Nat) (key : Option StoredObject) :
    Option (Option Nat) :=
  match getTable gc tbl with
  | none => none
  | some t =>
    match find_key_index gc t key with
    | none => none
    | some none => some none
    | some (some idx) =>
      match t.entries[idx]? with
      | none => none
      | some (_, v) => some (some v)

/-- The function `shared_table_delete`.  `key` is what the key pointer points to. -/
def shared_table_delete (gc : GC) (tbl : Nat) (key : Option StoredObject) : Option GC :=
  match getTable gc tbl with
  | none => none
  | some t =>
    match find_key_index gc t key with
    | none => none
    | some none => some gc
    | some (some idx) =>
      match t.entries[idx]?, t.entries.getLast? with
      | some (oldk, oldv), some last =>
        let gc1 := gc_release (gc_release gc oldk) oldv
        some (setTable gc1 tbl { t with entries := (t.entries.set idx last).dropLast })
      | _, _ => none

/-- The function `shared_table_size`. -/
def shared_table_size (gc : GC) (tbl : Nat) : Option Nat :=
  (getTable gc tbl).map (fun t => t.entries.length)

/-- First loop of `shared_table_length`: the largest positive Integer key, as a `size_t`. -/
def max_int_key (gc : GC) : List Nat → Nat → Option Nat
  | [], max => some max
  | k :: ks, max =>
    match getStored gc k with
    | none => none
    | some (.integer n) =>
      if n > 0 then (if n.toNat > max then max_int_key gc ks n.toNat else max_int_key gc ks max)
      else max_int_key gc ks max
    | some _ => max_int_key gc ks max

/-- Second loop of `shared_table_length`, `for (i = ...; i <= max; i++)` with the running
length `len`; the loop runs at most `fuel` more times. -/
def length_loop (gc : GC) (keys : List Nat) (max : Nat) : Nat → Nat → Nat → Option Nat
  | 0, _, len => some len
  | fuel + 1, i, len =>
    if i ≤ max then
      match find_key_from gc (some (.integer i)) keys 0 with
      | none => none
      | some none => some len
      | some (some _) => length_loop gc keys max fuel (i + 1) (len + 1)
    else some len

/-- The function `shared_table_length`. -/
def shared_table_length (gc : GC) (tbl : Nat) : Option Nat :=
  match getTable gc tbl with
  | none => none
  | some t =>
    match max_int_key gc (t.entries.map Prod.fst) 0 with
    | none => none
    | some max => length_loop gc (t.entries.map Prod.fst) max max 1 0

/-- The function `shared_table_next`; `key = none` is the NULL key, `key = some x` a key
pointer with `x` what it points to; the result `some none` is the pair of NULLs. -/
def shared_table_next (gc : GC) (tbl : Nat) (key : Option (Option StoredObject)) :
    Option (Option (Nat × Nat)) :=
  match getTable gc tbl with
  | none => none
  | some t =>
    if t.entries.length = 0 then some none
    else
      match key with
      | none => some t.entries[0]?
      | some k =>
        match find_key_index gc t k with
        | none => none
        | some none => some none
        | some (some start) =>
          if start + 1 < t.entries.length then some t.entries[start + 1]? else some none

/-- The function `shared_table_set_metatable`. -/
def shared_table_set_metatable (gc : GC) (tbl : Nat) (mt : Option Nat) : Option GC :=
  match getTable gc tbl with
  | none => none
  | some t =>
    let gc1 := match t.metatable with
      | some old => gc_release gc old
      | none => gc
    let gc2 := setTable gc1 tbl { t with metatable := mt }
    match mt with
    | some m => gc_add_reference gc2 tbl m
    | none => some gc2

/-- The function `shared_table_get_metatable`. -/
def shared_table_get_metatable (gc : GC) (tbl : Nat) : Option (Option Nat) :=
  (getTable gc tbl).map (fun t => t.metatable)

/-! ## The host interpreter, as far as the marshaler looks at it -/

/-- A value on the interpreter stack.  `function` and `table` carry the identity returned by
`lua_topointer`; `userdata (some st)` is a shared-container handle whose box points to `st`,
`userdata none` any other full userdata. -/
inductive LuaValue where
  | nil
  | boolean (b : Bool)
  | integer (n : Int)
  | number (d : Double)
  | string (s : List Nat)
  | lightuserdata (p : Nat)
  | cfunction (p : Nat)
  | function (ref : Nat)
  | table (ref : Nat)
  | userdata (st : Option Nat)
  | thread
  deriving DecidableEq, Repr

/-- A script function of the interpreter: the bytes `lua_dump` writes and the values of its
upvalues. -/
structure LuaClosure where
  bytecode : List Nat
  upvalues : List LuaValue
  deriving DecidableEq, Repr

/-- The part of an interpreter state the marshaler reads: the entries of each table in
`lua_next` order, the script functions, and the identity of the globals table. -/
structure LuaState where
  tables : List (Nat × List (LuaValue × LuaValue))
  closures : List (Nat × LuaClosure)
  globals : Nat
  deriving DecidableEq, Repr

/-- What a marshaling call hands back: a record, NULL, or a raised interpreter error
(`luaL_error` does not return). -/
inductive Created where
  | obj (sobj : Nat)
  | null
  | error
  deriving DecidableEq, Repr

/-- The function `find_visited`. -/
def find_visited : List (LuaValue × Nat) → LuaValue → Option Nat
  | [], _ => none
  | (p, obj) :: rest, ptr => if p = ptr then some obj else find_visited rest ptr

/-- Overwrite the payload of the record at address `a`. -/
def setStored (gc : GC) (a : Nat) (s : StoredObject) : GC :=
  { gc with objs := updObj gc.objs a (fun o => { o with data := .stored s }) }

/-- The function `stored_create_from_sharedtable`. -/
def stored_create_from_sharedtable (gc : GC) (st : Nat) : Option (GC × Option Nat) :=
  match gc_create gc with
  | none => none
  | some (gc1, none) => some (gc1, none)
  | some (gc1, some sobj) =>
    let gc2 : GC := { gc1 with objs := updObj gc1.objs sobj (fun o =>
      { o with dtor := .stored_dtor, data := .stored (.shared_table st) }) }
    match gc_add_reference gc2 sobj st with
    | none => none
    | some gc3 => some (gc3, some sobj)

/-! ### The stack of the running C function

The stack of the C function that is running is a list of values, top first.  The calls of
the interpreter API are modelled after the reference manual of the interpreter; a call that
the manual does not allow (an index that is not acceptable, `lua_next` on a value that is not
a table, a pop from an empty stack) has no defined result. -/

/-- The value at a stack index: positive indices count from the bottom, negative ones from
the top.  `some none` is an acceptable index above the top (no value there), `none` an index
that is not acceptable. -/
def stack_get (st : List LuaValue) (idx : Int) : Option (Option LuaValue) :=
  if 0 < idx then
    some (if idx.toNat ≤ st.length then st[st.length - idx.toNat]? else none)
  else if idx < 0 ∧ (-idx).toNat ≤ st.length then some st[(-idx).toNat - 1]?
  else none

/-- The call `lua_pushvalue(L, idx)`: a copy of the value at `idx` is pushed (nil when there
is no value at an acceptable index). -/
def lua_pushvalue (st : List LuaValue) (idx : Int) : Option (List LuaValue) :=
  match stack_get st idx with
  | none => none
  | some none => some (.nil :: st)
  | some (some v) => some (v :: st)

/-- The call `lua_pop(L, n)`. -/
def lua_pop (st : List LuaValue) (n : Nat) : Option (List LuaValue) :=
  if n ≤ st.length then some (st.drop n) else none

/-- The entry that follows the key `k` in the traversal of a table (`some none` after the
last entry); `none` when `k` is neither nil nor a key of the table. -/
def next_entry (es : List (LuaValue × LuaValue)) (k : LuaValue) :
    Option (Option (LuaValue × LuaValue)) :=
  if k = .nil then some es.head?
  else
    match es.findIdx? (fun e => decide (e.1 = k)) with
    | none => none
    | some i => some es[i + 1]?

/-- How a call `lua_next` ends: it pushes a pair (value on top) and returns non-zero, it
returns 0, or it raises the error for a key that is not in the table. -/
inductive NextResult where
  | pair (st : List LuaValue)
  | done (st : List LuaValue)
  | error
  deriving DecidableEq, Repr

/-- The call `lua_next(L, idx)`: the key on top is popped and the next pair of the table at
`idx` is pushed.  The index is resolved while the key is still on the stack. -/
def lua_next (L : LuaState) (st : List LuaValue) (idx : Int) : Option NextResult :=
  match st with
  | [] => none
  | k :: rest =>
    match stack_get st idx with
    | some (some (.table ref)) =>
      match next_entry ((L.tables.lookup ref).getD []) k with
      | none => some .error
      | some none => some (.done rest)
      | some (some e) => some (.pair (e.2 :: e.1 :: rest))
    | _ => none

/-- The value `lua_getupvalue(L, -1, i)` pushes for the function `f` on top of the stack;
`none` when it pushes nothing (`f` is not a script function with at least `i` upvalues). -/
def upvalue_of (L : LuaState) (f : LuaValue) (i : Nat) : Option LuaValue :=
  match f with
  | .function ref =>
    ((L.closures.lookup ref).getD { bytecode := [], upvalues := [] }).upvalues[i - 1]?
  | _ => none

/-- What a call of `stored_create_impl` leaves behind: the collector, the stack, the visited
list its caller now sees (`none` when `*visited` points into the frame of a call that has
returned), and the returned record. -/
structure Marshaled where
  gc : GC
  stack : List LuaValue
  visited : Option (List (LuaValue × Nat))
  result : Created
  deriving DecidableEq, Repr

/-- The label `fail` of `stored_create_impl`: release the record and return NULL. -/
def marshal_fail (gc : GC) (st : List LuaValue) (visited : Option (List (LuaValue × Nat)))
    (sobj : Nat) : Option Marshaled :=
  some { gc := gc_release gc sobj, stack := st, visited := visited, result := .null }

/-- How the upvalue loop of `stored_create_impl` ends: it finishes with the slots filled and
`env_upvalue_pos`, or the whole call ends. -/
inductive UpLoop where
  | done (gc : GC) (st : List LuaValue) (ups : List (Option Nat)) (env : Nat)
  | ended (m : Marshaled)
  deriving DecidableEq, Repr

/-- The upvalue loop of `stored_create_impl` for a script function: `k` iterations are left,
`i` is the loop variable, `ups` are the slots filled so far, `created` counts the marshaled
ones, `env` is `env_upvalue_pos`, and `vis1` is the visited list with the node of this call
in front. -/
def upvalue_loop (L : LuaState)
    (rec : GC → List LuaValue → Int → Option (List (LuaValue × Nat)) → Option Marshaled)
    (sobj : Nat) (vis1 : List (LuaValue × Nat)) :
    Nat → Nat → GC → List LuaValue → List (Option Nat) → Nat → Nat → Option UpLoop
  | 0, _, gc, st, ups, _, env => some (.done gc st ups env)
  | k + 1, i, gc, st, ups, created, env =>
    match st with
    | [] => none
    | f :: _ =>
      let st1 := match upvalue_of L f i with
        | some u => u :: st
        | none => st
      match st1 with
      | [] => none
      | top :: below =>
        if top = .table L.globals then
          upvalue_loop L rec sobj vis1 k (i + 1) gc below (ups ++ [none]) created (i % 256)
        else
          match rec gc st1 (-1) (some vis1) with
          | none => none
          | some m =>
            match m.result with
            | .error => some (.ended m)
            | .null =>
              match lua_pop m.stack 2 with
              | none => none
              | some st2 =>
                if (ups.take created).all Option.isSome then
                  (marshal_fail (release_all m.gc ((ups.take created).filterMap id)) st2 none
                    sobj).map .ended
                else none
            | .obj upval =>
              match lua_pop m.stack 1 with
              | none => none
              | some st2 =>
                match gc_add_reference m.gc sobj upval with
                | none => none
                | some gc2 =>
                  upvalue_loop L rec sobj vis1 k (i + 1) gc2 st2 (ups ++ [some upval])
                    (created + 1) env

/-- How the `lua_next` loop of `stored_create_impl` ends: `lua_next` returns 0, or the whole
call ends. -/
inductive TblLoop where
  | done (gc : GC) (st : List LuaValue)
  | ended (m : Marshaled)
  deriving DecidableEq, Repr

/-- The `lua_next` loop of `stored_create_impl` for a table, run with the index `idx` the
call was given; `tc` is the block `TableCopy` as filled so far and `vis1` the visited list
with the node of this call in front.  The loop runs at most `n` more times (no result when
that is not enough). -/
def table_loop (L : LuaState)
    (rec : GC → List LuaValue → Int → Option (List (LuaValue × Nat)) → Option Marshaled)
    (sobj : Nat) (idx : Int) (vis1 : List (LuaValue × Nat)) :
    Nat → GC → List LuaValue → TableCopy → Option TblLoop
  | 0, _, _, _ => none
  | n + 1, gc, st, tc =>
    match lua_next L st idx with
    | none => none
    | some .error =>
      some (.ended { gc := gc, stack := st, visited := none, result := .error })
    | some (.done st1) => some (.done gc st1)
    | some (.pair st1) =>
      match rec gc st1 (-2) (some vis1) with
      | none => none
      | some mk =>
        if mk.result = .error then some (.ended mk)
        else
          match rec mk.gc mk.stack (-1) mk.visited with
          | none => none
          | some mv =>
            if mv.result = .error then some (.ended mv)
            else
              match lua_pop mv.stack 1 with
              | none => none
              | some st2 =>
                match mk.result, mv.result with
                | .obj key, .obj val =>
                  let grow := decide (tc.entries.length ≥ tc.capacity)
                  let (ok1, gc3) := if grow then mv.gc.malloc else (true, mv.gc)
                  let (ok2, gc4) := if grow then gc3.malloc else (true, gc3)
                  if !(ok1 && ok2) then
                    (marshal_fail (gc_release (gc_release gc4 key) val) st2 none sobj).map
                      .ended
                  else
                    let tc1 : TableCopy :=
                      { tc with entries := tc.entries ++ [(key, val)],
                                capacity := if grow then tc.capacity * 2 else tc.capacity }
                    let gc5 := setStored gc4 sobj (.table_copy (some tc1))
                    match gc_add_reference gc5 sobj key with
                    | none => none
                    | some gc6 =>
                      match gc_add_reference gc6 sobj val with
                      | none => none
                      | some gc7 => table_loop L rec sobj idx vis1 n gc7 st2 tc1
                | .obj key, _ =>
                  (marshal_fail (gc_release mv.gc key) st2 none sobj).map .ended
                | _, .obj val =>
                  (marshal_fail (gc_release mv.gc val) st2 none sobj).map .ended
                | _, _ => (marshal_fail mv.gc st2 none sobj).map .ended

/-- A bound on the number of iterations of a `lua_next` loop: one more than there are table
entries in the interpreter. -/
def next_fuel (L : LuaState) : Nat := (L.tables.map fun t => t.2.length).sum + 1

/-- The function `stored_create_impl` on the stack `st` with the index `idx`; `fuel` bounds
the depth of the recursion (no result when it is used up).  Of the interpreter calls,
`lua_getinfo(L, ">u", ...)` pops the function it is given and succeeds, and `lua_dump` fails
when the value on top is not a script function and otherwise makes one allocation request
through `writer`, failing only when that request fails. -/
def stored_create_impl (L : LuaState) :
    Nat → GC → List LuaValue → Int → Option (List (LuaValue × Nat)) → Option Marshaled
  | 0, _, _, _, _ => none
  | fuel + 1, gc, st, idx, visited =>
    match stack_get st idx with
    | none => none
    | some slot =>
      match (match slot with
        | some (.function ref) =>
          (match visited with
            | none => none
            | some vis => some (find_visited vis (.function ref)))
        | _ => some none) with
      | none => none
      | some (some found) =>
        some { gc := gc, stack := st, visited := visited, result := .obj found }
      | some none =>
        match gc_create gc with
        | none => none
        | some (gc1, none) =>
          some { gc := gc1, stack := st, visited := visited, result := .null }
        | some (gc1, some sobj) =>
          let gc2 : GC :=
            { gc1 with objs := updObj gc1.objs sobj (fun o => { o with dtor := .stored_dtor }) }
          match slot with
          | none => marshal_fail gc2 st visited sobj
          | some .nil =>
            some { gc := setStored gc2 sobj .nil, stack := st, visited := visited,
                   result := .obj sobj }
          | some (.boolean b) =>
            some { gc := setStored gc2 sobj (.boolean b), stack := st, visited := visited,
                   result := .obj sobj }
          | some (.integer n) =>
            some { gc := setStored gc2 sobj (.integer n), stack := st, visited := visited,
                   result := .obj sobj }
          | some (.number d) =>
            some { gc := setStored gc2 sobj (.number d), stack := st, visited := visited,
                   result := .obj sobj }
          | some (.string s) =>
            let (ok, gc3) := gc2.malloc
            if !ok then marshal_fail gc3 st visited sobj
            else
              some { gc := setStored gc3 sobj (.string s), stack := st, visited := visited,
                     result := .obj sobj }
          | some (.lightuserdata p) =>
            some { gc := setStored gc2 sobj (.lightuserdata p), stack := st,
                   visited := visited, result := .obj sobj }
          | some (.cfunction p) =>
            some { gc := setStored gc2 sobj (.cfunction p), stack := st, visited := visited,
                   result := .obj sobj }
          | some (.function ref) =>
            match visited, lua_pop st 1 with
            | some vis, some st2 =>
              let nup :=
                ((L.closures.lookup ref).getD { bytecode := [], upvalues := [] }).upvalues.length
              let vis1 := (LuaValue.function ref, sobj) :: vis
              let (ok1, gc3) := gc2.malloc
              if !ok1 then marshal_fail gc3 st2 none sobj
              else
                let fdata := gc3.brk
                let gc4 : GC := { gc3 with brk := gc3.brk + 1 }
                match lua_pushvalue st2 idx with
                | none => none
                | some st3 =>
                  match st3.head? with
                  | some (.function ref1) =>
                    let (ok2, gc5) := gc4.malloc
                    if !ok2 then marshal_fail gc5 st2 none sobj
                    else
                      match upvalue_loop L (stored_create_impl L fuel) sobj vis1
                          nup 1 gc5 st3 [] 0 0 with
                      | none => none
                      | some (.ended m) => some m
                      | some (.done gc6 st4 ups env) =>
                        match lua_pop st4 1 with
                        | none => none
                        | some st5 =>
                          some { gc := setStored gc6 sobj (.function (some
                                   { addr := fdata,
                                     bytecode := ((L.closures.lookup ref1).getD
                                       { bytecode := [], upvalues := [] }).bytecode,
                                     env_upvalue_pos := env, upvalues := ups })),
                                 stack := st5, visited := some vis, result := .obj sobj }
                  | _ => marshal_fail gc4 st2 none sobj
            | _, _ => none
          | some (.table ref) =>
            match visited with
            | none => none
            | some vis =>
              match find_visited vis (.table ref) with
              | some found =>
                some { gc := gc2, stack := st, visited := visited, result := .obj found }
              | none =>
                let gc3 := setStored gc2 sobj (.table_copy none)
                let vis1 := (LuaValue.table ref, sobj) :: vis
                let (ok1, gc4) := gc3.malloc
                if !ok1 then marshal_fail gc4 st none sobj
                else
                  let tcaddr := gc4.brk
                  let gc5 : GC := { gc4 with brk := gc4.brk + 1 }
                  let (ok2, gc6) := gc5.malloc
                  let (ok3, gc7) := gc6.malloc
                  let tc : TableCopy := { addr := tcaddr, entries := [], capacity := 4 }
                  let gc8 := setStored gc7 sobj (.table_copy (some tc))
                  if !(ok2 && ok3) then marshal_fail gc8 st none sobj
                  else
                    match table_loop L (stored_create_impl L fuel) sobj idx vis1
                        (next_fuel L) gc8 (.nil :: st) tc with
                    | none => none
                    | some (.ended m) => some m
                    | some (.done gc9 st1) =>
                      some { gc := gc9, stack := st1, visited := some vis, result := .obj sobj }
          | some (.userdata (some stp)) =>
            match stored_create_from_sharedtable gc2 stp with
            | none => none
            | some (gc3, none) =>
              some { gc := gc3, stack := st, visited := visited, result := .null }
            | some (gc3, some r) =>
              some { gc := gc3, stack := st, visited := visited, result := .obj r }
          | some (.userdata none) =>
            some { gc := gc2, stack := st, visited := visited, result := .error }
          | some .thread => marshal_fail gc2 st visited sobj

/-- The function `stored_create` on the stack `st` with the index `index`.  The recursion of
`stored_create_impl` only descends into tables and script functions that are not on the
visited list, so its depth is at most their number plus one. -/
def stored_create (L : LuaState) (gc : GC) (st : List LuaValue) (index : Int) :
    Option Marshaled :=
  stored_create_impl L (L.tables.length + L.closures.length + 2) gc st index (some [])

/-- The call `stored_create(L, 1)` on a stack that holds just the value `v`: the collector
afterwards and the returned record. -/
def marshal_value (L : LuaState) (gc : GC) (v : LuaValue) : Option (GC × Created) :=
  (stored_create L gc [v] 1).map fun m => (m.gc, m.result)

/-! ## The interpreter binding (`shared_table.c`, `XShare.c`)

A binding function is given its arguments as a list, first argument first; they are the
stack of the call, bottom first. -/

/-- How a binding function ends: it returns, it raises an interpreter error, or it hands
over to a script function stored in the metatable (`lua_call`, not modelled further). -/
inductive HostResult where
  | ok
  | error
  | called (f : Nat)
  deriving DecidableEq, Repr

/-- The function `check_shared_table`: the container the handle at `idx` points to, `none`
when `luaL_checkudata` raises an error. -/
def check_shared_table (st : List LuaValue) (idx : Int) : Option Nat :=
  match stack_get st idx with
  | some (some (.userdata (some tbl))) => some tbl
  | _ => none

/-- Release the record of a marshaling result unless it is NULL. -/
def release_created (gc : GC) : Created → GC
  | .obj a => gc_release gc a
  | _ => gc

/-- The common tail of `l_shared_table_rawset` and `l_shared_table_newindex`: delete when
the value record is Nil, set otherwise, then release both records. -/
def store_entry (gc : GC) (tbl key val : Nat) : Option (GC × HostResult) :=
  match getStored gc val with
  | none => none
  | some .nil =>
    match shared_table_delete gc tbl (getStored gc key) with
    | none => none
    | some gc1 => some (gc_release (gc_release gc1 key) val, .ok)
  | some _ =>
    match shared_table_set gc tbl key val with
    | none => none
    | some (gc1, false) => some (gc_release (gc_release gc1 key) val, .error)
    | some (gc1, true) => some (gc_release (gc_release gc1 key) val, .ok)

/-- Marshal the key at index `ik` and then the value at index `iv`, as the binding functions
do before they touch the container: the collector and the stack afterwards, and both records
or the way the function ends when one is missing. -/
def marshal_pair (L : LuaState) (gc : GC) (st : List LuaValue) (ik iv : Int) :
    Option (GC × List LuaValue × (Nat × Nat ⊕ HostResult)) :=
  match stored_create L gc st ik with
  | none => none
  | some mk =>
    if mk.result = .error then some (mk.gc, mk.stack, .inr .error)
    else
      match stored_create L mk.gc mk.stack iv with
      | none => none
      | some mv =>
        if mv.result = .error then some (mv.gc, mv.stack, .inr .error)
        else
          match mk.result, mv.result with
          | .obj key, .obj val => some (mv.gc, mv.stack, .inl (key, val))
          | rk, rv =>
            some (release_created (release_created mv.gc rk) rv, mv.stack, .inr .error)

/-- The function `l_shared_table_rawset`. -/
def l_shared_table_rawset (L : LuaState) (gc : GC) (args : List LuaValue) :
    Option (GC × HostResult) :=
  match check_shared_table args.reverse 1 with
  | none => some (gc, .error)
  | some tbl =>
    match marshal_pair L gc args.reverse 2 3 with
    | none => none
    | some (gc1, _, .inr r) => some (gc1, r)
    | some (gc1, _, .inl (key, val)) => store_entry gc1 tbl key val

/-- The function `l_shared_table_newindex`. -/
def l_shared_table_newindex (L : LuaState) (gc : GC) (args : List LuaValue) :
    Option (GC × HostResult) :=
  match check_shared_table args.reverse 1 with
  | none => some (gc, .error)
  | some tbl =>
    match marshal_pair L gc args.reverse 2 3 with
    | none => none
    | some (gc1, _, .inr r) => some (gc1, r)
    | some (gc1, st1, .inl (key, val)) =>
      match shared_table_get_metatable gc1 tbl with
      | none => none
      | some none => store_entry gc1 tbl key val
      | some (some mt) =>
        match getStored gc1 mt with
        | none => none
        | some (.shared_table mttbl) =>
          match stored_create L gc1 st1 2 with
          | none => none
          | some m =>
            match m.result with
            | .error => some (m.gc, .error)
            | .null => store_entry m.gc tbl key val
            | .obj mtkey =>
              match shared_table_get m.gc mttbl (getStored m.gc mtkey) with
              | none => none
              | some none => store_entry m.gc tbl key val
              | some (some mtfunc) =>
                match getStored m.gc mtfunc with
                | none => none
                | some (.function _) =>
                  some (gc_release (gc_release m.gc key) val, .called mtfunc)
                | some _ => store_entry m.gc tbl key val
        | some _ => store_entry gc1 tbl key val

/-- The loop of `l_shared_table_new` over the entries of the initial table at index 1, run
at most `n` more times (no result when that is not enough). -/
def fill_table (L : LuaState) (tbl : Nat) :
    Nat → GC → List LuaValue → Option (GC × HostResult)
  | 0, _, _ => none
  | n + 1, gc, st =>
    match lua_next L st 1 with
    | none => none
    | some .error => some (gc, .error)
    | some (.done _) => some (gc, .ok)
    | some (.pair st1) =>
      match marshal_pair L gc st1 (-2) (-1) with
      | none => none
      | some (gc1, _, .inr r) => some (gc1, r)
      | some (gc1, st2, .inl (key, val)) =>
        match shared_table_set gc1 tbl key val with
        | none => none
        | some (gc2, false) => some (gc_release (gc_release gc2 key) val, .error)
        | some (gc2, true) =>
          match lua_pop st2 1 with
          | none => none
          | some st3 => fill_table L tbl n (gc_release (gc_release gc2 key) val) st3

/-- The function `l_shared_table_new`.  The new handle is pushed above the arguments before
index 1 is looked at.  The result carries the container the new handle points to. -/
def l_shared_table_new (L : LuaState) (gc : GC) (args : List LuaValue) :
    Option (GC × HostResult × Option Nat) :=
  match shared_table_create gc with
  | none => none
  | some (gc1, none) => some (gc1, .error, none)
  | some (gc1, some stp) =>
    let st := LuaValue.userdata (some stp) :: args.reverse
    let gc2 := gc_retain gc1 stp
    match stack_get st 1 with
    | some (some .nil) => some (gc2, .ok, some stp)
    | some (some (.table _)) =>
      match fill_table L stp (next_fuel L) gc2 (.nil :: st) with
      | none => none
      | some (gc3, r) => some (gc3, r, some stp)
    | _ => some (gc2, .error, some stp)

/-- The loop of `l_shared_table_setmetatable` over the entries of the native table at
index 2, run at most `n` more times (no result when that is not enough): an entry whose key
or value cannot be marshaled is skipped. -/
def fill_metatable (L : LuaState) (mtbl : Nat) :
    Nat → GC → List LuaValue → Option (GC × HostResult)
  | 0, _, _ => none
  | n + 1, gc, st =>
    match lua_next L st 2 with
    | none => none
    | some .error => some (gc, .error)
    | some (.done _) => some (gc, .ok)
    | some (.pair st1) =>
      match stored_create L gc st1 (-2) with
      | none => none
      | some mk =>
        if mk.result = .error then some (mk.gc, .error)
        else
          match stored_create L mk.gc mk.stack (-1) with
          | none => none
          | some mv =>
            if mv.result = .error then some (mv.gc, .error)
            else
              match lua_pop mv.stack 1 with
              | none => none
              | some st2 =>
                match mk.result, mv.result with
                | .obj key, .obj val =>
                  match shared_table_set mv.gc mtbl key val with
                  | none => none
                  | some (gc3, false) => some (gc_release (gc_release gc3 key) val, .error)
                  | some (gc3, true) =>
                    fill_metatable L mtbl n (gc_release (gc_release gc3 key) val) st2
                | rk, rv =>
                  fill_metatable L mtbl n (release_created (release_created mv.gc rk) rv) st2

/-- The tail of `l_shared_table_setmetatable`: install the record `mt` (`none` for NULL) and
release it. -/
def install_metatable (gc : GC) (tbl : Nat) (mt : Option Nat) : Option (GC × HostResult) :=
  match shared_table_set_metatable gc tbl mt with
  | none => none
  | some gc1 =>
    match mt with
    | some m => some (gc_release gc1 m, .ok)
    | none => some (gc1, .ok)

/-- The function `l_shared_table_setmetatable`. -/
def l_shared_table_setmetatable (L : LuaState) (gc : GC) (args : List LuaValue) :
    Option (GC × HostResult) :=
  match check_shared_table args.reverse 1 with
  | none => some (gc, .error)
  | some tbl =>
    match stack_get args.reverse 2 with
    | some (some .nil) => install_metatable gc tbl none
    | some (some (.table _)) =>
      match shared_table_create gc with
      | none => none
      | some (gc1, none) => some (gc1, .error)
      | some (gc1, some mtbl) =>
        match fill_metatable L mtbl (next_fuel L) gc1 (.nil :: args.reverse) with
        | none => none
        | some (gc2, .ok) =>
          match stored_create_from_sharedtable gc2 mtbl with
          | none => none
          | some (gc3, mt) => install_metatable (gc_release gc3 mtbl) tbl mt
        | some (gc2, r) => some (gc2, r)
    | some (some (.userdata (some mtbl))) =>
      match stored_create_from_sharedtable gc mtbl with
      | none => none
      | some (gc1, mt) => install_metatable gc1 tbl mt
    | _ => some (gc, .error)

/-- The function `l_shared_table_getmetatable` on the container `tbl`: the collector
afterwards and the container the new handle points to (`none` when nil is pushed). -/
def l_shared_table_getmetatable (gc : GC) (tbl : Nat) : Option (GC × Option Nat) :=
  match shared_table_get_metatable gc tbl with
  | none => none
  | some none => some (gc, none)
  | some (some mt) =>
    match getStored gc mt with
    | none => none
    | some (.shared_table st) => some (gc_retain gc st, some st)
    | some _ => some (gc, none)

/-- The function `l_shared_table_gc` for a handle whose box points to `st`. -/
def l_shared_table_gc (gc : GC) (st : Nat) : GC := gc_release gc st

/-- The function `l_gc_collect`. -/
def l_gc_collect (gc : GC) : Option GC := gc_collect gc

/-! ## Specification vocabulary for the collector -/

/-- An edge of the object graph: `b` is an entry of the edge buffer of the live object `a`. -/
def Edge (gc : GC) (a b : Nat) : Prop := ∃ o, gc.obj a = some o ∧ b ∈ o.strongRefs

/-- Reachability in zero or more edge steps. -/
def Reach (gc : GC) : Nat → Nat → Prop := Relation.ReflTransGen (Edge gc)

/-- A root of `gc_collect`: a live object with `refCount > 1`. -/
def IsRoot (gc : GC) (a : Nat) : Prop := ∃ o, gc.obj a = some o ∧ o.refCount > 1

/-- Reachable from some root. -/
def Live (gc : GC) (a : Nat) : Prop := ∃ r, IsRoot gc r ∧ Reach gc r a

/-- Every edge target is an object of the global list. -/
def EdgesClosed (gc : GC) : Prop := ∀ p ∈ gc.objs, ∀ b ∈ p.2.strongRefs, b ∈ gc.ids

instance (gc : GC) : Decidable (EdgesClosed gc) := by
  unfold EdgesClosed; infer_instance

/-- Project every object of a list through `f`, keeping the addresses. -/
def proj {α : Type} (f : GCObject → α) (objs : List (Nat × GCObject)) : List (Nat × α) :=
  objs.map (fun p => (p.1, f p.2))

/-- The object with its colour reset to white. -/
def unmark (o : GCObject) : GCObject := { o with mark := 0 }

/-- The object with its reference count reset to zero. -/
def norc (o : GCObject) : GCObject := { o with refCount := 0 }

/-- The colour an object has after the first loop of `gc_collect`. -/
def paint (o : GCObject) : GCObject := { o with mark := if o.refCount > 1 then 1 else 0 }

/-- The addresses of the objects with `refCount > 1`, in list order. -/
def rootIds (objs : List (Nat × GCObject)) : List Nat :=
  (objs.filter (fun p => decide (p.2.refCount > 1))).map Prod.fst

/-- The loop invariant of the propagation loop of `gc_collect` at worklist index `i`. -/
structure MarkInv (gc : GC) (objs : List (Nat × GCObject)) (grey : List Nat) (i : Nat) :
    Prop where
  same : proj unmark objs = proj unmark gc.objs
  nodup : grey.Nodup
  le : i ≤ grey.length
  marks : ∀ k a, grey[k]? = some a →
    (objs.lookup a).map (fun o => o.mark) = some (if k < i then 2 else 1)
  white : ∀ a o, objs.lookup a = some o → o.mark ≠ 0 → a ∈ grey
  live : ∀ a ∈ grey, Live gc a
  closed : ∀ k a, k < i → grey[k]? = some a → ∀ b, Edge gc a b → b ∈ grey
  roots : ∀ r, IsRoot gc r → r ∈ grey



/-- The relation between the collector before (`gc`) and after (`gc'`) a collection that ran
to the end: the survivors are the live objects, in their old order, black, and unchanged except
for colour and reference count; `count` and `lastCleanup` are the new length of the list. -/
structure Collected (gc gc' : GC) : Prop where
  mem : ∀ a, a ∈ gc'.ids ↔ (a ∈ gc.ids ∧ Live gc a)
  sub : gc'.ids.Sublist gc.ids
  obj : ∀ a o', gc'.obj a = some o' →
    ∃ o, gc.obj a = some o ∧ norc (unmark o') = norc (unmark o) ∧ o'.mark = 2
  count : gc'.count = gc'.objs.length
  last : gc'.lastCleanup = gc'.count
  enabled : gc'.enabled = gc.enabled
  step : gc'.step = gc.step
  brk : gc'.brk = gc.brk

/-! ## Scenarios -/

/-- An interpreter state without tables or script functions. -/
def L0 : LuaState := { tables := [], closures := [], globals := 0 }

/-- A collector with three objects: object 2 has one external holder and an edge to object 3;
object 1 has neither a holder nor an incoming edge. -/
def demo_gc : GC :=
  { objs :=
      [(1, { refCount := 1, mark := 0, strongCapacity := 4, strongRefs := [],
             dtor := .unset, data := .raw }),
       (2, { refCount := 2, mark := 0, strongCapacity := 4, strongRefs := [3],
             dtor := .unset, data := .raw }),
       (3, { refCount := 1, mark := 0, strongCapacity := 4, strongRefs := [],
             dtor := .unset, data := .raw })],
    count := 3, enabled := true, step := .fin 2 0, lastCleanup := 100, brk := 4, oom := [] }

/-- Whether container `a` stores, as a value, a SharedRef record for container `b`. -/
def stores_ref (gc : GC) (a b : Nat) : Bool :=
  match getTable gc a with
  | some t => t.entries.any (fun e => decide (getStored gc e.2 = some (.shared_table b)))
  | none => false

/-- The host program `a = table(nil); b = table(nil); a.x = b; b.y = a`, followed by the
finalisation of both handles.  Container `a` is object 1 and container `b` is object 2. -/
def cycle_run : Option GC :=
  (l_shared_table_new L0 gc_instance [.nil]).bind fun r1 =>
  (l_shared_table_new L0 r1.1 [.nil]).bind fun r2 =>
  (l_shared_table_newindex L0 r2.1
      [.userdata (some 1), .string [120], .userdata (some 2)]).bind fun r3 =>
  (l_shared_table_newindex L0 r3.1
      [.userdata (some 2), .string [121], .userdata (some 1)]).bind fun r4 =>
  some (l_shared_table_gc (l_shared_table_gc r4.1 1) 2)

/-- The collector after `cycle_run`. -/
def cycle_gc : GC := cycle_run.getD gc_instance

/-- The collector after `cycle_run`, with an allocator whose next request fails. -/
def cycle_gc_oom : GC := { cycle_gc with oom := [false] }

/-- The host program `t = table(nil); gc.collect()`: container `t` is object 1 and its handle
stays alive. -/
def held_run : Option GC :=
  (l_shared_table_new L0 gc_instance [.nil]).bind fun r1 => l_gc_collect r1.1

/-- The collector after `held_run`. -/
def held_gc : GC := held_run.getD gc_instance

/-- The host program `t = table(nil); u = table(nil); setmetatable(u, t)`, then the finalisation
of the handle of `u` and `gc.collect()`.  Container `t` is object 1, container `u` is object 2,
the SharedRef record that is the metatable of `u` is object 3; the handle of `t` stays
alive. -/
def handle_run : Option GC :=
  (l_shared_table_new L0 gc_instance [.nil]).bind fun r1 =>
  (l_shared_table_new L0 r1.1 [.nil]).bind fun r2 =>
  (l_shared_table_setmetatable L0 r2.1 [.userdata (some 2), .userdata (some 1)]).bind fun r3 =>
  l_gc_collect (l_shared_table_gc r3.1 2)

/-- The collector of `handle_run` just before the handle of `u` is finalised. -/
def handle_before_run : Option GC :=
  (l_shared_table_new L0 gc_instance [.nil]).bind fun r1 =>
  (l_shared_table_new L0 r1.1 [.nil]).bind fun r2 =>
  (l_shared_table_setmetatable L0 r2.1
      [.userdata (some 2), .userdata (some 1)]).bind fun r3 => some r3.1

/-- The host program `t = table(nil); rawset(t, "k", 42)`: container `t` is object 1, the key
record is object 2 and the value record is object 3. -/
def set_run : Option GC :=
  (l_shared_table_new L0 gc_instance [.nil]).bind fun r1 =>
  (l_shared_table_rawset L0 r1.1
      [.userdata (some 1), .string [107], .integer 42]).bind fun r2 => some r2.1

/-- The collector after `set_run`. -/
def set_gc : GC := set_run.getD gc_instance

/-- The host program `t = table(nil); rawset(t, 1.0, "a"); rawset(t, 2.0, "b")`: container `t` is
object 1, the records of `1.0` and `"a"` are objects 2 and 3, those of `2.0` and `"b"` are
objects 4 and 5. -/
def floats_run : Option GC :=
  (l_shared_table_new L0 gc_instance [.nil]).bind fun r1 =>
  (l_shared_table_rawset L0 r1.1
      [.userdata (some 1), .number (.fin 1 0), .string [97]]).bind fun r2 =>
  (l_shared_table_rawset L0 r2.1
      [.userdata (some 1), .number (.fin 2 0), .string [98]]).bind fun r3 =>
  some r3.1

/-- The collector after `floats_run`. -/
def floats_gc : GC := floats_run.getD gc_instance

/-- An empty container (object 1) together with a record of Integer 1 (object 2) and a Nil
record (object 3), both as returned by `stored_create`. -/
def nil_value_run : Option GC :=
  (l_shared_table_new L0 gc_instance [.nil]).bind fun r1 =>
  (marshal_value L0 r1.1 (.integer 1)).bind fun r2 =>
  (marshal_value L0 r2.1 .nil).bind fun r3 => some r3.1

/-- The collector after `nil_value_run`. -/
def nil_value_gc : GC := nil_value_run.getD gc_instance

/-- The collector after `shared_table_set` on `nil_value_gc` with container 1, key record 2
and value record 3. -/
def nil_value_set_gc : GC := ((shared_table_set nil_value_gc 1 2 3).map Prod.fst).getD gc_instance

/-- The reference count of the object at an address. -/
def GC.refCount (gc : GC) (a : Nat) : Option CInt := (gc.obj a).map (fun o => o.refCount)

/-- The host program `t = table(nil); rawset(t, 1, "a"); rawset(t, 2, "b"); rawset(t, 4, "d")`:
container `t` is object 1. -/
def length_run : Option GC :=
  (l_shared_table_new L0 gc_instance [.nil]).bind fun r1 =>
  (l_shared_table_rawset L0 r1.1 [.userdata (some 1), .integer 1, .string [97]]).bind fun r2 =>
  (l_shared_table_rawset L0 r2.1 [.userdata (some 1), .integer 2, .string [98]]).bind fun r3 =>
  (l_shared_table_rawset L0 r3.1 [.userdata (some 1), .integer 4, .string [100]]).bind fun r4 =>
  some r4.1

/-- The collector after `length_run`. -/
def length_gc : GC := length_run.getD gc_instance

/-- The container of `length_gc`. -/
def length_tbl : SharedTable := (getTable length_gc 1).getD { entries := [], cap := 0, metatable := none }

/-! ## Specification vocabulary for reference counting -/

/-- One call on the object `o`: `gc_retain(o)` for `true`, `gc_release(o)` for `false`. -/
def ref_op (o : Nat) (gc : GC) (retain : Bool) : GC :=
  if retain then gc_retain gc o else gc_release gc o

/-- A sequence of `gc_retain(o)` / `gc_release(o)` calls, first call first. -/
def ref_ops (gc : GC) (o : Nat) (ops : List Bool) : GC := ops.foldl (ref_op o) gc

/-- The number of retains minus the number of releases of a sequence of calls. -/
def ref_depth : List Bool → Int
  | [] => 0
  | true :: rest => 1 + ref_depth rest
  | false :: rest => -1 + ref_depth rest

/-- Each release is preceded by an unmatched retain: no prefix of the sequence has more
releases than retains. -/
def WellNested (ops : List Bool) : Prop :=
  ∀ n ∈ List.range (ops.length + 1), 0 ≤ ref_depth (ops.take n)

instance (ops : List Bool) : Decidable (WellNested ops) := by
  unfold WellNested; infer_instance

/-- The count `c` stays within `int` along the sequence: after no prefix does `c` plus the
number of unmatched retains exceed `INT_MAX = 2^31 - 1`. -/
def CountFits (c : CInt) (ops : List Bool) : Prop :=
  ∀ n ∈ List.range (ops.length + 1), c.val + ref_depth (ops.take n) ≤ 2147483647

instance (c : CInt) (ops : List Bool) : Decidable (CountFits c ops) := by
  unfold CountFits; infer_instance

/-- A collector whose only object has the largest count an `atomic_int` holds, `INT_MAX`. -/
def int_max_gc : GC :=
  { objs := [(1, { refCount := 2147483647, mark := 0, strongCapacity := 4, strongRefs := [],
                   dtor := .unset, data := .raw })],
    count := 1, enabled := true, step := .fin 2 0, lastCleanup := 100, brk := 2, oom := [] }

/-! ## Scenarios for the comparison of value records -/

/-- The container `t` (object 1) of `t = table(nil)` and two calls
`stored_create_from_sharedtable(t)`: the collector afterwards and the two returned records. -/
def shared_ref_run : Option (GC × Option Nat × Option Nat) :=
  (l_shared_table_new L0 gc_instance [.nil]).bind fun r1 =>
  (stored_create_from_sharedtable r1.1 1).bind fun r2 =>
  (stored_create_from_sharedtable r2.1 1).bind fun r3 => some (r3.1, r2.2, r3.2)

/-- The collector after `shared_ref_run`. -/
def shared_ref_gc : GC := (shared_ref_run.map Prod.fst).getD gc_instance

/-- An empty container (object 1) together with a record of Integer 1 (object 2) and a record
of the string `"v"` (object 3), both as returned by `stored_create`. -/
def int_key_run : Option GC :=
  (l_shared_table_new L0 gc_instance [.nil]).bind fun r1 =>
  (marshal_value L0 r1.1 (.integer 1)).bind fun r2 =>
  (marshal_value L0 r2.1 (.string [118])).bind fun r3 => some r3.1

/-- The collector after `int_key_run`. -/
def int_key_gc : GC := int_key_run.getD gc_instance

/-- The collector after `shared_table_set` on `int_key_gc` with container 1, key record 2 and
value record 3. -/
def int_key_set_gc : GC := ((shared_table_set int_key_gc 1 2 3).map Prod.fst).getD gc_instance

/-! ## Indexed read (`l_shared_table_index`) -/

/-- How `l_shared_table_index` ends: it pushes the value record `val` (`stored_push`), it
hands over to the script function stored in the record `f` with the arguments `(self, key)`
(`lua_call`, not modelled further), it pushes nil, or it raises an interpreter error. -/
inductive IndexResult where
  | value (val : Nat)
  | called (f : Nat)
  | nil
  | error
  deriving DecidableEq, Repr

/-- The part of `l_shared_table_index` after a miss in the container itself: the lookup in
the metatable container, on the stack `st`. -/
def index_metatable (L : LuaState) (gc : GC) (st : List LuaValue) (tbl : Nat) :
    Option (GC × IndexResult) :=
  match shared_table_get_metatable gc tbl with
  | none => none
  | some none => some (gc, .nil)
  | some (some mt) =>
    match getStored gc mt with
    | none => none
    | some (.shared_table mttbl) =>
      match stored_create L gc st 2 with
      | none => none
      | some m =>
        match m.result with
        | .error => some (m.gc, .error)
        | .null => some (m.gc, .error)
        | .obj mtkey =>
          match shared_table_get m.gc mttbl (getStored m.gc mtkey) with
          | none => none
          | some mtval =>
            let gc2 := gc_release m.gc mtkey
            match mtval with
            | none => some (gc2, .nil)
            | some v =>
              match getStored gc2 v with
              | none => none
              | some (.function _) => some (gc2, .called v)
              | some _ => some (gc2, .value v)
    | some _ => some (gc, .nil)

/-- The function `l_shared_table_index`. -/
def l_shared_table_index (L : LuaState) (gc : GC) (args : List LuaValue) :
    Option (GC × IndexResult) :=
  match check_shared_table args.reverse 1 with
  | none => some (gc, .error)
  | some tbl =>
    match stored_create L gc args.reverse 2 with
    | none => none
    | some m =>
      match m.result with
      | .error => some (m.gc, .error)
      | .null => some (m.gc, .error)
      | .obj key =>
        match shared_table_get m.gc tbl (getStored m.gc key) with
        | none => none
        | some (some val) => some (gc_release m.gc key, .value val)
        | some none => index_metatable L (gc_release m.gc key) m.stack tbl

/-! ## Scenarios for the metatable dispatch -/

/-- An interpreter state with one script function (identity 1) that has no upvalues, such as
`function(self, k) return "default_" .. k end`. -/
def LF : LuaState :=
  { tables := [], closures := [(1, { bytecode := [27, 76, 117, 97], upvalues := [] })],
    globals := 0 }

/-- The string `"__index"`. -/
def str_index : List Nat := [95, 95, 105, 110, 100, 101, 120]

/-- The string `"__newindex"`. -/
def str_newindex : List Nat := [95, 95, 110, 101, 119, 105, 110, 100, 101, 120]

/-- The string `"missing"`. -/
def str_missing : List Nat := [109, 105, 115, 115, 105, 110, 103]

/-- The host program `t = table(nil); mt = table(nil); rawset(mt, name, f, 0);
setmetatable(t, mt)` with `f` the script function of `LF`: container `t` is object 1,
container `mt` is object 2.  The fourth argument of `rawset` lies above `f` on the stack of
the call; without it `stored_create` returns NULL for `f`. -/
def meta_run (name : List Nat) : Option GC :=
  (l_shared_table_new LF gc_instance [.nil]).bind fun r1 =>
  (l_shared_table_new LF r1.1 [.nil]).bind fun r2 =>
  (l_shared_table_rawset LF r2.1
    [.userdata (some 2), .string name, .function 1, .integer 0]).bind fun r3 =>
  (l_shared_table_setmetatable LF r3.1 [.userdata (some 1), .userdata (some 2)]).bind fun r4 =>
  some r4.1

/-- The collector after `meta_run name`. -/
def meta_gc (name : List Nat) : GC := (meta_run name).getD gc_instance

/-- The host program `t = table(nil); mt = table(nil); c = table(nil); c.missing = 7;
mt.__index = c; setmetatable(t, mt)`: container `t` is object 1, container `mt` is object 2,
container `c` is object 3. -/
def meta_ref_run : Option GC :=
  (l_shared_table_new L0 gc_instance [.nil]).bind fun r1 =>
  (l_shared_table_new L0 r1.1 [.nil]).bind fun r2 =>
  (l_shared_table_new L0 r2.1 [.nil]).bind fun r3 =>
  (l_shared_table_newindex L0 r3.1
    [.userdata (some 3), .string str_missing, .integer 7]).bind fun r4 =>
  (l_shared_table_newindex L0 r4.1
    [.userdata (some 2), .string str_index, .userdata (some 3)]).bind fun r5 =>
  (l_shared_table_setmetatable L0 r5.1 [.userdata (some 1), .userdata (some 2)]).bind fun r6 =>
  some r6.1

/-- The collector after `meta_ref_run`. -/
def meta_ref_gc : GC := meta_ref_run.getD gc_instance

/-- The collector after `t = table(nil)` in the interpreter state `LF`. -/
def one_table_gc : GC := ((l_shared_table_new LF gc_instance [.nil]).map Prod.fst).getD gc_instance

/-- The entries of the container at an address, keys and values replaced by the records they
point to. -/
def entries_of (gc : GC) (tbl : Nat) : Option (List (Option StoredObject × Option StoredObject)) :=
  (getTable gc tbl).map fun t => t.entries.map fun e => (getStored gc e.1, getStored gc e.2)

/-! ## Specification vocabulary for iteration -/

/-- The key records `a` and `b` are different keys: what they point to does not compare
equal. -/
def DiffKeys (gc : GC) (a b : Nat) : Prop :=
  ∀ x y, getStored gc a = some x → getStored gc b = some y → stored_compare x y ≠ 0

/-- Every key pointer of the entries points to a value record, and the keys are pairwise
different. -/
def KeysDistinct (gc : GC) (es : List (Nat × Nat)) : Prop :=
  (∀ e ∈ es, (getStored gc e.1).isSome) ∧ es.Pairwise (fun e f => DiffKeys gc e.1 f.1)

/-- The collector states in which the container `tbl` has been built from empty by calls of
`shared_table_set` and `shared_table_delete` that have a result.  That leaves out one call
the code can make: the `shared_table_set` in which `ensure_capacity` frees the key array
(`Ensured.keys_freed`), after which the container has its keys in freed memory.  Between two
calls anything may happen that leaves the container and the existing value records as they
are (`frame`: new records are created, counts change, other containers are written). -/
inductive Built (tbl : Nat) : GC → Prop where
  | empty (gc : GC) (t : SharedTable) :
      getTable gc tbl = some t → t.entries = [] → Built tbl gc
  | set (gc gc1 : GC) (key val : Nat) (r : Bool) :
      Built tbl gc → (getStored gc key).isSome →
      shared_table_set gc tbl key val = some (gc1, r) → Built tbl gc1
  | delete (gc gc1 : GC) (key : StoredObject) :
      Built tbl gc → shared_table_delete gc tbl (some key) = some gc1 → Built tbl gc1
  | frame (gc gc1 : GC) :
      Built tbl gc → getTable gc1 tbl = getTable gc tbl →
      (∀ a s, getStored gc a = some s → getStored gc1 a = some s) → Built tbl gc1

/-- Iteration with `shared_table_next`: start with the key pointer `key` (`none` for NULL),
pass back the returned key pointer until the pair of NULLs comes back, and collect the pairs
returned on the way.  At most `fuel` calls are made; there is no result when the last of
them still returns a pair. -/
def next_walk (gc : GC) (tbl : Nat) : Nat → Option Nat → Option (List (Nat × Nat))
  | 0, _ => none
  | fuel + 1, key =>
    match shared_table_next gc tbl (key.map (getStored gc)) with
    | none => none
    | some none => some []
    | some (some e) => (next_walk gc tbl fuel (some e.1)).map (fun rest => e :: rest)

/-- The collector states in which the container `tbl` has been built from empty by calls of
`shared_table_set` alone (calls with a result, as in `Built`), together with the key records
in the order in which they were first inserted: a call adds its key record at the end when it
returns 1 and the key was absent before (`shared_table_get` returned NULL). -/
inductive BuiltBySets (tbl : Nat) : GC → List Nat → Prop where
  | empty (gc : GC) (t : SharedTable) :
      getTable gc tbl = some t → t.entries = [] → BuiltBySets tbl gc []
  | set (gc gc1 : GC) (log : List Nat) (key val : Nat) (r : Bool) :
      BuiltBySets tbl gc log → (getStored gc key).isSome →
      shared_table_set gc tbl key val = some (gc1, r) →
      BuiltBySets tbl gc1
        (if r = true ∧ shared_table_get gc tbl (getStored gc key) = some none
          then log ++ [key] else log)
  | frame (gc gc1 : GC) (log : List Nat) :
      BuiltBySets tbl gc log → getTable gc1 tbl = getTable gc tbl →
      (∀ a s, getStored gc a = some s → getStored gc1 a = some s) → BuiltBySets tbl gc1 log

/-! ## Scenarios for iteration -/

/-- An empty container (object 1) and records of Integer 1, `"a"`, Integer 2, `"b"`,
Integer 3, `"c"` (objects 2 to 7), as returned by `shared_table_create` and `stored_create`. -/
def walk_run0 : Option GC :=
  (l_shared_table_new L0 gc_instance [.nil]).bind fun r1 =>
  (marshal_value L0 r1.1 (.integer 1)).bind fun r2 =>
  (marshal_value L0 r2.1 (.string [97])).bind fun r3 =>
  (marshal_value L0 r3.1 (.integer 2)).bind fun r4 =>
  (marshal_value L0 r4.1 (.string [98])).bind fun r5 =>
  (marshal_value L0 r5.1 (.integer 3)).bind fun r6 =>
  (marshal_value L0 r6.1 (.string [99])).bind fun r7 => some r7.1

/-- The collector after `walk_run0`. -/
def walk_gc0 : GC := walk_run0.getD gc_instance

/-- The collector after `shared_table_set(t, 1, "a")` on `walk_gc0`. -/
def walk_gc1 : GC := ((shared_table_set walk_gc0 1 2 3).map Prod.fst).getD gc_instance

/-- The collector after `shared_table_set(t, 2, "b")` on `walk_gc1`. -/
def walk_gc2 : GC := ((shared_table_set walk_gc1 1 4 5).map Prod.fst).getD gc_instance

/-- The collector after `shared_table_set(t, 3, "c")` on `walk_gc2`. -/
def walk_gc3 : GC := ((shared_table_set walk_gc2 1 6 7).map Prod.fst).getD gc_instance

/-- The collector after `shared_table_delete(t, 1)` on `walk_gc3`. -/
def walk_gc4 : GC := (shared_table_delete walk_gc3 1 (some (.integer 1))).getD gc_instance

/-- The container of `walk_gc3`. -/
def walk_tbl3 : SharedTable :=
  (getTable walk_gc3 1).getD { entries := [], cap := 0, metatable := none }

/-- The container of `walk_gc4`. -/
def walk_tbl4 : SharedTable :=
  (getTable walk_gc4 1).getD { entries := [], cap := 0, metatable := none }

/-! ## Specification vocabulary for the list of objects -/

/-- The representation invariant of the collector: the global list holds every object once,
`count` is its length, every edge target is in the list, and every address in use lies below
the next address the allocator hands out. -/
structure WellFormed (gc : GC) : Prop where
  nodup : gc.ids.Nodup
  count : gc.count = gc.objs.length
  closed : EdgesClosed gc
  fresh : ∀ a ∈ gc.ids, a < gc.brk

/-- The object `alloc_object` links into the list. -/
def new_object : GCObject :=
  { refCount := 1, mark := 0, strongCapacity := 4, strongRefs := [], dtor := .unset,
    data := .raw }


/-! ## Scenarios for the list of objects -/

/-- The collector `demo_gc` at a point where the next `gc_create` collects: `count = 3` has
reached `step * lastCleanup = 2 * 1`. -/
def due_gc : GC := { demo_gc with lastCleanup := 1 }

/-- The literal `1.1` as a double: `4953959590107546 / 2^52`, a little above 1.1. -/
def Double.c1_1 : Double := .fin 4953959590107546 52

/-- A collector with `count` objects, none with a holder or an edge, and `lastCleanup = 10`,
after `gc_set_step(gc, 1.1)`. -/
def tenth_gc (count : Nat) : GC :=
  gc_set_step
    { objs := (List.range count).map (fun i => (i + 1, new_object)), count := count,
      enabled := true, step := .fin 2 0, lastCleanup := 10, brk := count + 1, oom := [] }
    Double.c1_1

/-- The collector after `a = gc_create(); b = gc_create()` from the initial state: objects 1
and 2. -/
def run_gc2 : GC :=
  (((gc_create gc_instance).bind fun r1 => gc_create r1.1).map Prod.fst).getD gc_instance

/-- The objects linked by `n` successful calls of `alloc_object` from the address `b` on. -/
def news (b n : Nat) : List (Nat × GCObject) :=
  (List.range n).map fun i => (b + i, new_object)

/-- The edge buffer of the object at an address, in buffer order. -/
def GC.edges (gc : GC) (a : Nat) : Option (List Nat) := (gc.obj a).map fun o => o.strongRefs

/-- The result of `n` consecutive calls `gc_add_reference(a, b)`. -/
def add_n : Nat → GC → Nat → Nat → Option GC
  | 0, gc, _, _ => some gc
  | n + 1, gc, a, b => (add_n n gc a b).bind fun g => gc_add_reference g a b

/-- The result of `n` consecutive calls `gc_remove_reference(a, b)`. -/
def remove_n : Nat → GC → Nat → Nat → Option GC
  | 0, gc, _, _ => some gc
  | n + 1, gc, a, b => (remove_n n gc a b).bind fun g => gc_remove_reference g a b

/-! ## Scenarios for edges -/

/-- The collector `run_gc2` after four calls `gc_add_reference(a, b)`, which fill the edge
buffer of `a` (capacity 4), with an allocator whose next request fails. -/
def full_gc : GC := { (add_n 4 run_gc2 1 2).getD gc_instance with oom := [false] }

/-- The collector after `shared_table_set(t, 1, "b")` on `walk_gc1`, with the key record 4
replaced by the key record 2 of the entry that is already stored: an overwrite. -/
def overwrite_gc : GC := ((shared_table_set walk_gc1 1 2 5).map Prod.fst).getD gc_instance

/-! ## Scenarios for the frame of a write -/

/-- The host program `t = table(nil); rawset(t, 5, "x"); rawset(t, 1.0, "a");
rawset(t, 2.0, "b")`: container `t` is object 1, the records of `5` and `"x"` are objects 2 and
3, those of `1.0` and `"a"` are 4 and 5, those of `2.0` and `"b"` are 6 and 7. -/
def frame_run : Option GC :=
  (l_shared_table_new L0 gc_instance [.nil]).bind fun r1 =>
  (l_shared_table_rawset L0 r1.1 [.userdata (some 1), .integer 5, .string [120]]).bind fun r2 =>
  (l_shared_table_rawset L0 r2.1
      [.userdata (some 1), .number (.fin 1 0), .string [97]]).bind fun r3 =>
  (l_shared_table_rawset L0 r3.1
      [.userdata (some 1), .number (.fin 2 0), .string [98]]).bind fun r4 =>
  some r4.1

/-- The collector after `frame_run`. -/
def frame_gc : GC := frame_run.getD gc_instance


/-! ## Pushing a value record (`stored_push_impl`) -/

/-- An identity that no table and no script function of the interpreter has yet. -/
def LuaState.fresh (L : LuaState) : Nat :=
  (L.tables.map Prod.fst ++ L.closures.map Prod.fst).foldl max L.globals + 1

/-- The key under which a table files a value written with the key `k`: a float with an
exact integer value in the range of `lua_Integer` is converted to that integer. -/
def normal_key : LuaValue → LuaValue
  | .number (.fin m e) =>
    if m % 2 ^ e = 0 ∧ -(2 ^ 63) ≤ m / 2 ^ e ∧ m / 2 ^ e < 2 ^ 63 then .integer (m / 2 ^ e)
    else .number (.fin m e)
  | k => k

/-- The call `lua_settable` on the table `ref`, which has no metatable, with the key `k` and
the value `v`: the interpreter afterwards, `none` when the call raises an error (the key is
nil or NaN).  A nil value removes the entry; a new key is filed last. -/
def lua_settable (L : LuaState) (ref : Nat) (k v : LuaValue) : Option LuaState :=
  if k = .nil ∨ k = .number .nan then none
  else
    let key := normal_key k
    let upd : List (LuaValue × LuaValue) → List (LuaValue × LuaValue) := fun es =>
      if v = .nil then es.filter (fun e => decide (e.1 ≠ key))
      else if es.any (fun e => decide (e.1 = key)) then
        es.map (fun e => if e.1 = key then (e.1, v) else e)
      else es ++ [(key, v)]
    some { L with tables := L.tables.map (fun t => if t.1 = ref then (t.1, upd t.2) else t) }

/-- How `stored_push_impl` ends: it has pushed one value (the interpreter and the collector
afterwards, and the value), or an interpreter error was raised. -/
inductive Pushed where
  | value (L : LuaState) (gc : GC) (v : LuaValue)
  | error
  deriving DecidableEq, Repr

/-- The loop of `stored_push_impl` over the entries of a `TableCopy`, filling the new table
`ref`. -/
def push_entries (rec : LuaState → GC → Option Nat → Option Pushed) (ref : Nat) :
    List (Nat × Nat) → LuaState → GC → Option Pushed
  | [], L, gc => some (.value L gc (.table ref))
  | (key, val) :: rest, L, gc =>
    match rec L gc (some key) with
    | none => none
    | some .error => some .error
    | some (.value L1 gc1 k) =>
      match rec L1 gc1 (some val) with
      | none => none
      | some .error => some .error
      | some (.value L2 gc2 v) =>
        match lua_settable L2 ref k v with
        | none => some .error
        | some L3 => push_entries rec ref rest L3 gc2

/-- The loop of `stored_push_impl` over the upvalue slots of a `FunctionData`, from slot `i`
(1-based) on: the interpreter and the collector afterwards and the values set, in slot
order. -/
def push_upvalues (rec : LuaState → GC → Option Nat → Option Pushed) (env : Nat) :
    List (Option Nat) → Nat → LuaState → GC →
      Option (Option (LuaState × GC × List LuaValue))
  | [], _, L, gc => some (some (L, gc, []))
  | up :: rest, i, L, gc =>
    match (if i = env then some (Pushed.value L gc (.table L.globals)) else rec L gc up) with
    | none => none
    | some .error => some none
    | some (.value L1 gc1 v) =>
      match push_upvalues rec env rest (i + 1) L1 gc1 with
      | none => none
      | some none => some none
      | some (some (L2, gc2, vs)) => some (some (L2, gc2, v :: vs))

/-- The function `stored_push_impl` for the record pointer `obj` (`none` for NULL); `fuel`
bounds the depth of the recursion (no result when it is used up).  `luaL_loadbuffer`
succeeds on the stored bytes and yields a function with `upvalue_count` upvalues. -/
def stored_push_impl : Nat → LuaState → GC → Option Nat → Option Pushed
  | 0, _, _, _ => none
  | _ + 1, L, gc, none => some (.value L gc .nil)
  | fuel + 1, L, gc, some obj =>
    match getStored gc obj with
    | none => none
    | some .nil => some (.value L gc .nil)
    | some (.boolean b) => some (.value L gc (.boolean b))
    | some (.number d) => some (.value L gc (.number d))
    | some (.integer n) => some (.value L gc (.integer n))
    | some (.string s) => some (.value L gc (.string s))
    | some (.lightuserdata p) => some (.value L gc (.lightuserdata p))
    | some (.cfunction p) => some (.value L gc (.cfunction p))
    | some (.function none) => none
    | some (.function (some f)) =>
      let ref := L.fresh
      let L1 : LuaState :=
        { L with closures := L.closures ++ [(ref, { bytecode := f.bytecode, upvalues := [] })] }
      match push_upvalues (stored_push_impl fuel) f.env_upvalue_pos f.upvalues 1 L1 gc with
      | none => none
      | some none => some .error
      | some (some (L2, gc2, vs)) =>
        some (.value
          { L2 with closures := L2.closures.map (fun c =>
              if c.1 = ref then (c.1, { c.2 with upvalues := vs }) else c) }
          gc2 (.function ref))
    | some (.table_copy none) => none
    | some (.table_copy (some tc)) =>
      let ref := L.fresh
      push_entries (stored_push_impl fuel) ref tc.entries
        { L with tables := L.tables ++ [(ref, [])] } gc
    | some (.shared_table st) => some (.value L (gc_retain gc st) (.userdata (some st)))

/-- The function `stored_push`.  The recursion of `stored_push_impl` follows the pointers of
the records, so on records that do not contain themselves its depth is at most the number of
objects. -/
def stored_push (L : LuaState) (gc : GC) (obj : Option Nat) : Option Pushed :=
  stored_push_impl (gc.objs.length + 1) L gc obj

/-- The kinds of value that carry no other value: nil, booleans, integers, floats, strings,
light pointers and native functions. -/
def Scalar : LuaValue → Bool
  | .nil => true
  | .boolean _ => true
  | .integer _ => true
  | .number _ => true
  | .string _ => true
  | .lightuserdata _ => true
  | .cfunction _ => true
  | _ => false

/-- A value whose marshaling makes an allocation request besides the record itself. -/
def LuaValue.isString : LuaValue → Bool
  | .string _ => true
  | _ => false

/-! ## Scenarios for the marshaler -/

/-- An interpreter state with the table `{ [1] = "a", k = true }` (identity 1). -/
def L_flat : LuaState :=
  { tables := [(1, [(.integer 1, .string [97]), (.string [107], .boolean true)])],
    closures := [], globals := 0 }

/-- An interpreter state with the table `{ [1] = {} }` (identity 1, the inner table has
identity 2). -/
def L_nested : LuaState :=
  { tables := [(1, [(.integer 1, .table 2)]), (2, [])], closures := [], globals := 0 }

/-- An interpreter state with a table `t` (identity 1) after `t.self = t`. -/
def L_self : LuaState :=
  { tables := [(1, [(.string [115, 101, 108, 102], .table 1)])], closures := [], globals := 0 }

/-- An interpreter state with two tables `t` (identity 1) and `u` (identity 2) after
`t.x = u; u.y = t`. -/
def L_cycle : LuaState :=
  { tables := [(1, [(.string [120], .table 2)]), (2, [(.string [121], .table 1)])],
    closures := [], globals := 0 }

/-- An interpreter state with a table `t` (identity 1) after `t[t] = 1`. -/
def L_self_key : LuaState :=
  { tables := [(1, [(.table 1, .integer 1)])], closures := [], globals := 0 }

/-- The call `stored_create(L, 1)` on a stack that holds just the value `x`, followed by
`stored_push` of the returned record (no result when no record is returned). -/
def round_trip (L : LuaState) (gc : GC) (x : LuaValue) : Option Pushed :=
  (stored_create L gc [x] 1).bind fun m =>
    match m.result with
    | .obj sobj => stored_push L m.gc (some sobj)
    | _ => none

/-- What a script sees of a pushed value: the value, and for a table its entries. -/
def Pushed.shown : Pushed → Option (LuaValue × Option (List (LuaValue × LuaValue)))
  | .value L _ (.table ref) => some (.table ref, L.tables.lookup ref)
  | .value _ _ v => some (v, none)
  | .error => none

/-- The table copy in the record at an address. -/
def copy_of (gc : GC) (a : Nat) : Option (List (Nat × Nat)) :=
  match getStored gc a with
  | some (.table_copy (some tc)) => some tc.entries
  | _ => none

/-! ## Scenarios for the key array -/

/-- The collector after `shared_table_set(t, "a", 1)` on `walk_gc3` (key record 3, value
record 2). -/
def wide_gc1 : GC := ((shared_table_set walk_gc3 1 3 2).map Prod.fst).getD gc_instance

/-- The collector after `shared_table_set(t, "b", 2)` on `wide_gc1` (key record 5, value
record 4): the container holds five entries, one more than its first capacity. -/
def wide_gc : GC := ((shared_table_set wide_gc1 1 5 4).map Prod.fst).getD gc_instance

/-- The collector `wide_gc1` (four entries, capacity 4) with an allocator whose next request
succeeds and whose second request fails. -/
def wide_gc1_oom : GC := { wide_gc1 with oom := [true, false] }

/-- The collector `wide_gc1` with an allocator whose next request fails. -/
def wide_gc1_fail : GC := { wide_gc1 with oom := [false] }

/-! ## The worklist of `gc_collect` -/

/-- The second loop of `gc_collect` as in `propagate`, returned together with the worklist
it leaves behind: the entries `grey[0]` to `grey[greySize - 1]` when the loop ends.  Every
push appends one entry and no entry is ever taken out, so this list is the sequence of all
pushes of the run. -/
def propagate_grey (cap : Nat) :
    Nat → Nat → List (Nat × GCObject) → List Nat → Option (List (Nat × GCObject) × List Nat)
  | fuel, i, objs, grey =>
    match grey[i]? with
    | none => some (objs, grey)
    | some cur =>
      match fuel with
      | 0 => none
      | fuel1 + 1 =>
        match objs.lookup cur with
        | none => none
        | some o =>
          match scan_refs cap o.strongRefs objs grey with
          | none => none
          | some (objs1, grey1) =>
            propagate_grey cap fuel1 (i + 1)
              (updObj objs1 cur (fun o => { o with mark := 2 })) grey1

/-- The worklist of a run of `gc_collect` that gets past its two early returns, when the
second loop ends; `none` when a push is out of bounds or a dangling edge is followed. -/
def grey_worklist (gc : GC) : Option (List Nat) :=
  match mark_roots gc.count gc.malloc.2.objs [] with
  | none => none
  | some (objs1, grey) => (propagate_grey gc.count gc.count 0 objs1 grey).map Prod.snd

/-- A collector with four objects whose edges repeat, loop and form cycles: object 1 (a
root) has the edges 1, 2, 2, 3; object 2 has the edges 3, 1; object 3 (a root) has the edges
2, 2; object 4 has the edges 4, 1 and is not reachable from a root. -/
def tangle_gc : GC :=
  { objs :=
      [(1, { refCount := 2, mark := 0, strongCapacity := 4, strongRefs := [1, 2, 2, 3],
             dtor := .unset, data := .raw }),
       (2, { refCount := 1, mark := 0, strongCapacity := 4, strongRefs := [3, 1],
             dtor := .unset, data := .raw }),
       (3, { refCount := 3, mark := 0, strongCapacity := 4, strongRefs := [2, 2],
             dtor := .unset, data := .raw }),
       (4, { refCount := 1, mark := 0, strongCapacity := 4, strongRefs := [4, 1],
             dtor := .unset, data := .raw })],
    count := 4, enabled := true, step := .fin 2 0, lastCleanup := 100, brk := 5, oom := [] }

/-! ## Scenarios for the zero baseline -/

theorem CInt.ext_val {a b : CInt} (h : a.val = b.val) : a = b := by
  cases a; cases b; cases h; rfl

theorem CInt.wrap_val (n : Int) : (CInt.wrap n).val = wrap_int n := rfl

theorem CInt.add_val (a b : CInt) : (a + b).val = wrap_int (a.val + b.val) := rfl

theorem CInt.sub_val (a b : CInt) : (a - b).val = wrap_int (a.val - b.val) := rfl

theorem CInt.one_val : (1 : CInt).val = 1 := by decide

theorem CInt.lt_def (a b : CInt) : a < b ↔ a.val < b.val := Iff.rfl

theorem CInt.le_def (a b : CInt) : a ≤ b ↔ a.val ≤ b.val := Iff.rfl

theorem CInt.not_lt_of_le {a b : CInt} (h : a ≤ b) : ¬ b < a := Int.not_lt.mpr h

/-- Adding 1 and then subtracting 1 gives back the same `int`, wrap-around included. -/
theorem CInt.add_sub_one (a : CInt) : a + 1 - 1 = a := by
  apply CInt.ext_val
  have := a.range
  rw [CInt.sub_val, CInt.add_val, CInt.one_val]
  unfold wrap_int
  omega

/-! ## C doubles -/

/-- A value written with a significand below `2^53` and `e ≤ 1074` is not rounded. -/
theorem Double.round_small (m : Int) (e : Nat) (hm : m.natAbs < 2 ^ 53) (he : e ≤ 1074) :
    Double.round m e = .fin m e := by
  unfold Double.round
  rw [if_pos ⟨hm, he⟩]

theorem Double.ofNat_small (n : Nat) (h : n < 2 ^ 53) : Double.ofNat n = .fin n 0 :=
  Double.round_small n 0 (by simpa using h) (by omega)

theorem lookup_updObj (objs : List (Nat × GCObject)) (a b : Nat) (f : GCObject → GCObject) :
    (updObj objs b f).lookup a = if a = b then (objs.lookup a).map f else objs.lookup a := by
  induction objs with
  | nil => simp [updObj]
  | cons p rest ih =>
    obtain ⟨k, o⟩ := p
    simp only [updObj, List.map_cons] at ih ⊢
    by_cases hk : k = b
    · subst hk
      by_cases ha : a = k
      · subst ha; simp [List.lookup_cons]
      · have : (a == k) = false := by simpa using ha
        simp [List.lookup_cons, this, ha] at ih ⊢
        exact ih
    · by_cases ha : a = k
      · subst ha; simp [List.lookup_cons, hk]
      · have h1 : (a == k) = false := by simpa using ha
        simp only [hk, if_false, List.lookup_cons, h1]
        exact ih

theorem ids_updObj (objs : List (Nat × GCObject)) (b : Nat) (f : GCObject → GCObject) :
    (updObj objs b f).map Prod.fst = objs.map Prod.fst := by
  induction objs with
  | nil => rfl
  | cons p rest ih =>
    simp only [updObj, List.map_cons] at ih ⊢
    rw [ih]; split <;> rfl

theorem proj_updObj {α : Type} (g : GCObject → α) (objs : List (Nat × GCObject)) (b : Nat)
    (f : GCObject → GCObject) (h : ∀ o, g (f o) = g o) :
    proj g (updObj objs b f) = proj g objs := by
  induction objs with
  | nil => rfl
  | cons p rest ih =>
    simp only [proj, updObj, List.map_cons] at ih ⊢
    rw [ih]; split <;> simp [h]

theorem ids_proj {α : Type} (g : GCObject → α) (objs : List (Nat × GCObject)) :
    (proj g objs).map Prod.fst = objs.map Prod.fst := by
  simp [proj, List.map_map, Function.comp_def]

theorem lookup_proj {α : Type} (g : GCObject → α) (objs : List (Nat × GCObject)) (a : Nat) :
    (proj g objs).lookup a = (objs.lookup a).map g := by
  induction objs with
  | nil => rfl
  | cons p rest ih =>
    obtain ⟨k, o⟩ := p
    simp only [proj, List.map_cons, List.lookup_cons] at ih ⊢
    cases h : (a == k) <;> simp [ih]

theorem mem_ids_of_lookup {β : Type} (objs : List (Nat × β)) (a : Nat) (o : β)
    (h : objs.lookup a = some o) : (a, o) ∈ objs := by
  induction objs with
  | nil => simp at h
  | cons p rest ih =>
    obtain ⟨k, o1⟩ := p
    simp only [List.lookup_cons] at h
    cases hk : (a == k) <;> simp only [hk] at h
    · exact List.mem_cons_of_mem _ (ih h)
    · have : a = k := by simpa using hk
      cases h; subst this; exact List.mem_cons_self _ _

theorem lookup_of_mem_nodup {β : Type} (objs : List (Nat × β)) (a : Nat) (o : β)
    (hnd : (objs.map Prod.fst).Nodup) (h : (a, o) ∈ objs) : objs.lookup a = some o := by
  induction objs with
  | nil => simp at h
  | cons p rest ih =>
    obtain ⟨k, o1⟩ := p
    simp only [List.map_cons, List.nodup_cons] at hnd
    simp only [List.lookup_cons]
    rcases List.mem_cons.1 h with h1 | h1
    · cases h1; simp
    · have hne : a ≠ k := by
        rintro rfl
        exact hnd.1 (List.mem_map.2 ⟨(a, o), h1, rfl⟩)
      have : (a == k) = false := by simpa using hne
      simp only [this]
      exact ih hnd.2 h1

theorem lookup_isSome_of_mem_ids {β : Type} (objs : List (Nat × β)) (a : Nat)
    (h : a ∈ objs.map Prod.fst) : ∃ o, objs.lookup a = some o := by
  induction objs with
  | nil => simp at h
  | cons p rest ih =>
    obtain ⟨k, o1⟩ := p
    simp only [List.lookup_cons]
    cases hk : (a == k)
    · have hne : a ≠ k := by simpa using hk
      simp only [List.map_cons, List.mem_cons] at h
      rcases h with h | h
      · exact absurd h hne
      · exact ih h
    · exact ⟨o1, rfl⟩

theorem mem_ids_of_lookup_some {β : Type} (objs : List (Nat × β)) (a : Nat) (o : β)
    (h : objs.lookup a = some o) : a ∈ objs.map Prod.fst :=
  List.mem_map.2 ⟨(a, o), mem_ids_of_lookup objs a o h, rfl⟩

theorem mark_roots_eq (cap : Nat) (objs : List (Nat × GCObject)) :
    ∀ grey : List Nat, grey.length + (rootIds objs).length ≤ cap →
      mark_roots cap objs grey = some (objs.map (fun p => (p.1, paint p.2)), grey ++ rootIds objs) := by
  induction objs with
  | nil => intro grey _; simp [mark_roots, rootIds]
  | cons p rest ih =>
    intro grey h
    obtain ⟨a, o⟩ := p
    by_cases hr : o.refCount > 1
    · have hroot : rootIds ((a, o) :: rest) = a :: rootIds rest := by
        simp [rootIds, List.filter_cons, hr]
      rw [hroot] at h ⊢
      simp only [List.length_cons] at h
      have hlt : grey.length < cap := by omega
      have h2 : (grey ++ [a]).length + (rootIds rest).length ≤ cap := by
        simp only [List.length_append, List.length_cons, List.length_nil]; omega
      simp only [mark_roots, hr, if_true, grey_push, hlt, ih (grey ++ [a]) h2, List.map_cons,
        paint]
      simp
    · have hroot : rootIds ((a, o) :: rest) = rootIds rest := by
        simp [rootIds, List.filter_cons, hr]
      rw [hroot] at h ⊢
      simp only [mark_roots, hr, if_false, ih grey h, List.map_cons, paint]

theorem rootIds_sublist (objs : List (Nat × GCObject)) :
    (rootIds objs).Sublist (objs.map Prod.fst) :=
  List.Sublist.map _ (List.filter_sublist _)

theorem mem_rootIds (objs : List (Nat × GCObject)) (a : Nat) :
    a ∈ rootIds objs ↔ ∃ o, (a, o) ∈ objs ∧ o.refCount > 1 := by
  simp [rootIds, List.mem_map, List.mem_filter]

theorem nodup_length_le {l m : List Nat} (hl : l.Nodup) (h : ∀ a ∈ l, a ∈ m) :
    l.length ≤ m.length :=
  (List.subperm_of_subset hl h).length_le

theorem unmark_eq_strongRefs {o o' : GCObject} (h : unmark o = unmark o') :
    o.strongRefs = o'.strongRefs ∧ o.refCount = o'.refCount ∧ o.dtor = o'.dtor
      ∧ o.data = o'.data ∧ o.strongCapacity = o'.strongCapacity := by
  cases o; cases o'; simp only [unmark, GCObject.mk.injEq] at h
  simp [h]

theorem MarkInv.lookup_orig {gc : GC} {objs : List (Nat × GCObject)} {grey : List Nat} {i : Nat}
    (inv : MarkInv gc objs grey i) (a : Nat) (o : GCObject) (h : objs.lookup a = some o) :
    ∃ o0, gc.obj a = some o0 ∧ unmark o0 = unmark o := by
  have h1 := congrArg (fun l => l.lookup a) inv.same
  simp only [lookup_proj, h, Option.map_some'] at h1
  cases h0 : gc.objs.lookup a with
  | none => simp [h0] at h1
  | some o0 =>
    simp only [h0, Option.map_some', Option.some.injEq] at h1
    exact ⟨o0, h0, h1.symm⟩

theorem MarkInv.ids_eq {gc : GC} {objs : List (Nat × GCObject)} {grey : List Nat} {i : Nat}
    (inv : MarkInv gc objs grey i) : objs.map Prod.fst = gc.ids := by
  have h1 := congrArg (fun l => l.map Prod.fst) inv.same
  simpa [ids_proj, GC.ids] using h1

theorem MarkInv.grey_sub {gc : GC} {objs : List (Nat × GCObject)} {grey : List Nat} {i : Nat}
    (inv : MarkInv gc objs grey i) : ∀ a ∈ grey, a ∈ gc.ids := by
  intro a ha
  obtain ⟨k, hk, hka⟩ := List.getElem_of_mem ha
  have hm := inv.marks k a (by simp [List.getElem?_eq_getElem hk, hka])
  cases hl : objs.lookup a with
  | none => simp [hl] at hm
  | some o =>
    rw [← inv.ids_eq]
    exact mem_ids_of_lookup_some objs a o hl

theorem edge_target_mem {gc : GC} (hcl : EdgesClosed gc) {a b : Nat} (h : Edge gc a b) :
    b ∈ gc.ids := by
  obtain ⟨o, ho, hb⟩ := h
  exact hcl (a, o) (mem_ids_of_lookup gc.objs a o ho) b hb

theorem live_step {gc : GC} {a b : Nat} (ha : Live gc a) (h : Edge gc a b) : Live gc b := by
  obtain ⟨r, hr, hra⟩ := ha
  exact ⟨r, hr, Relation.ReflTransGen.tail hra h⟩

theorem MarkInv.mark_ne_zero {gc : GC} {objs : List (Nat × GCObject)} {grey : List Nat} {i : Nat}
    (inv : MarkInv gc objs grey i) (a : Nat) (ha : a ∈ grey) (o : GCObject)
    (h : objs.lookup a = some o) : o.mark ≠ 0 := by
  obtain ⟨k, hk, hka⟩ := List.getElem_of_mem ha
  have hm := inv.marks k a (by simp [List.getElem?_eq_getElem hk, hka])
  simp only [h, Option.map_some', Option.some.injEq] at hm
  rw [hm]; split <;> decide

theorem MarkInv.push {gc : GC} {objs : List (Nat × GCObject)} {grey : List Nat} {i cur r : Nat}
    (inv : MarkInv gc objs grey i) (hi : i < grey.length) (hcur : cur ∈ grey)
    (he : Edge gc cur r) (o : GCObject) (ho : objs.lookup r = some o) (hw : o.mark = 0) :
    MarkInv gc (updObj objs r (fun o => { o with mark := 1 })) (grey ++ [r]) i := by
  have hr : r ∉ grey := fun hin => inv.mark_ne_zero r hin o ho hw
  refine ⟨?_, ?_, ?_, ?_, ?_, ?_, ?_, ?_⟩
  · exact (proj_updObj unmark objs r (fun o => { o with mark := 1 }) (fun _ => rfl)).trans inv.same
  · exact List.Nodup.append inv.nodup (List.nodup_singleton r) (by simpa using hr)
  · simp only [List.length_append, List.length_cons, List.length_nil]; have := inv.le; omega
  · intro k a hk
    rw [lookup_updObj]
    by_cases hkl : k < grey.length
    · rw [List.getElem?_append_left hkl] at hk
      have ha : a ∈ grey := List.getElem?_mem hk
      have hne : a ≠ r := fun h => hr (h ▸ ha)
      simp only [hne, if_false]
      exact inv.marks k a hk
    · have hkl' : grey.length ≤ k := Nat.le_of_not_lt hkl
      rw [List.getElem?_append_right hkl'] at hk
      have hk0 : k - grey.length = 0 := by
        by_contra hne
        have : [r][k - grey.length]? = none := by
          apply List.getElem?_eq_none; simp; omega
        rw [this] at hk; cases hk
      rw [hk0] at hk
      simp only [List.getElem?_cons_zero, Option.some.injEq] at hk
      subst hk
      have hki : ¬ k < i := by omega
      simp [ho, hki]
  · intro a o' h' hm
    rw [lookup_updObj] at h'
    by_cases hne : a = r
    · subst hne; simp
    · simp only [hne, if_false] at h'
      exact List.mem_append_left _ (inv.white a o' h' hm)
  · intro a ha
    rcases List.mem_append.1 ha with h | h
    · exact inv.live a h
    · have : a = r := by simpa using h
      subst this
      exact live_step (inv.live cur hcur) he
  · intro k a hk hka b hb
    have hkl : k < grey.length := by omega
    rw [List.getElem?_append_left hkl] at hka
    exact List.mem_append_left _ (inv.closed k a hk hka b hb)
  · intro r' hr'
    exact List.mem_append_left _ (inv.roots r' hr')

theorem scan_refs_inv (gc : GC) (cap : Nat) (hcap : gc.objs.length ≤ cap)
    (hcl : EdgesClosed gc) (i cur : Nat) :
    ∀ (rs : List Nat) (objs : List (Nat × GCObject)) (grey : List Nat),
      MarkInv gc objs grey i → i < grey.length → grey[i]? = some cur →
      (∀ r ∈ rs, Edge gc cur r) →
      ∃ objs' grey', scan_refs cap rs objs grey = some (objs', grey') ∧
        MarkInv gc objs' grey' i ∧ grey <+: grey' ∧ ∀ r ∈ rs, r ∈ grey' := by
  intro rs
  induction rs with
  | nil =>
    intro objs grey inv _ _ _
    exact ⟨objs, grey, rfl, inv, List.prefix_refl _, by simp⟩
  | cons r rs ih =>
    intro objs grey inv hi hcur hedges
    have her : Edge gc cur r := hedges r (List.mem_cons_self _ _)
    have hrid : r ∈ objs.map Prod.fst := by
      rw [inv.ids_eq]; exact edge_target_mem hcl her
    obtain ⟨o, ho⟩ := lookup_isSome_of_mem_ids objs r hrid
    have hcurmem : cur ∈ grey := List.getElem?_mem hcur
    by_cases hw : o.mark = 0
    · have inv' := inv.push hi hcurmem her o ho hw
      have hlen : (grey ++ [r]).length ≤ cap := by
        have h1 := nodup_length_le inv'.nodup inv'.grey_sub
        simp only [GC.ids, List.length_map] at h1
        omega
      have hlt : grey.length < cap := by
        simp only [List.length_append, List.length_cons, List.length_nil] at hlen; omega
      have hi' : i < (grey ++ [r]).length := by
        simp only [List.length_append, List.length_cons, List.length_nil]; omega
      have hcur' : (grey ++ [r])[i]? = some cur := by
        rw [List.getElem?_append_left hi]; exact hcur
      obtain ⟨objs', grey', hs, inv'', hpre, hall⟩ :=
        ih _ _ inv' hi' hcur' (fun x hx => hedges x (List.mem_cons_of_mem _ hx))
      refine ⟨objs', grey', ?_, inv'', ?_, ?_⟩
      · simp only [scan_refs, ho, hw, if_true, grey_push, hlt]
        exact hs
      · exact List.IsPrefix.trans (List.prefix_append _ _) hpre
      · intro x hx
        rcases List.mem_cons.1 hx with h | h
        · subst h
          exact hpre.subset (by simp)
        · exact hall x h
    · obtain ⟨objs', grey', hs, inv'', hpre, hall⟩ :=
        ih objs grey inv hi hcur (fun x hx => hedges x (List.mem_cons_of_mem _ hx))
      refine ⟨objs', grey', ?_, inv'', hpre, ?_⟩
      · simp only [scan_refs, ho, hw, if_false]
        exact hs
      · intro x hx
        rcases List.mem_cons.1 hx with h | h
        · subst h
          exact hpre.subset (inv.white x o ho hw)
        · exact hall x h

theorem MarkInv.blacken {gc : GC} {objs : List (Nat × GCObject)} {grey : List Nat} {i cur : Nat}
    (inv : MarkInv gc objs grey i) (hi : i < grey.length) (hcur : grey[i]? = some cur)
    (hall : ∀ b, Edge gc cur b → b ∈ grey) :
    MarkInv gc (updObj objs cur (fun o => { o with mark := 2 })) grey (i + 1) := by
  have hcurmem : cur ∈ grey := List.getElem?_mem hcur
  have hidx : ∀ k, grey[k]? = some cur → k = i := by
    intro k hk
    exact (List.getElem?_inj hi inv.nodup (hcur.trans hk.symm)).symm
  refine ⟨?_, inv.nodup, by omega, ?_, ?_, inv.live, ?_, inv.roots⟩
  · exact (proj_updObj unmark objs cur (fun o => { o with mark := 2 }) (fun _ => rfl)).trans
      inv.same
  · intro k a hk
    rw [lookup_updObj]
    by_cases hne : a = cur
    · subst hne
      have hki := hidx k hk
      subst hki
      have hm := inv.marks k a hk
      cases hl : objs.lookup a with
      | none => simp [hl] at hm
      | some o => simp
    · simp only [hne, if_false]
      have hki : k ≠ i := by
        rintro rfl
        rw [hcur] at hk
        exact hne (Option.some.inj hk).symm
      rw [inv.marks k a hk]
      by_cases hlt : k < i
      · have : k < i + 1 := by omega
        simp [hlt, this]
      · have : ¬ k < i + 1 := by omega
        simp [hlt, this]
  · intro a o' h' hm
    rw [lookup_updObj] at h'
    by_cases hne : a = cur
    · subst hne; exact hcurmem
    · simp only [hne, if_false] at h'
      exact inv.white a o' h' hm
  · intro k a hk hka b hb
    by_cases hlt : k < i
    · exact inv.closed k a hlt hka b hb
    · have hki : k = i := by omega
      subst hki
      rw [hcur] at hka
      cases hka
      exact hall b hb

theorem propagate_inv (gc : GC) (cap : Nat) (hcap : gc.objs.length ≤ cap)
    (hcl : EdgesClosed gc) :
    ∀ (fuel i : Nat) (objs : List (Nat × GCObject)) (grey : List Nat),
      MarkInv gc objs grey i → cap ≤ fuel + i →
      ∃ objs' grey', propagate cap fuel i objs grey = some objs' ∧
        MarkInv gc objs' grey' grey'.length := by
  intro fuel
  induction fuel with
  | zero =>
    intro i objs grey inv hf
    have hlen : grey.length ≤ cap := by
      have h1 := nodup_length_le inv.nodup inv.grey_sub
      simp only [GC.ids, List.length_map] at h1
      omega
    have hil : i = grey.length := by have := inv.le; omega
    refine ⟨objs, grey, ?_, hil ▸ inv⟩
    have hnone : grey[i]? = none := List.getElem?_eq_none (by omega)
    unfold propagate
    simp only [hnone]
  | succ fuel ih =>
    intro i objs grey inv hf
    cases hcur : grey[i]? with
    | none =>
      have hil : i = grey.length := by
        have h1 := List.getElem?_eq_none_iff.1 hcur
        have := inv.le; omega
      refine ⟨objs, grey, ?_, hil ▸ inv⟩
      unfold propagate
      simp only [hcur]
    | some cur =>
      have hi : i < grey.length := by
        by_contra hge
        have : grey[i]? = none := List.getElem?_eq_none (by omega)
        rw [this] at hcur; cases hcur
      have hcurmem : cur ∈ grey := List.getElem?_mem hcur
      obtain ⟨o, ho⟩ := lookup_isSome_of_mem_ids objs cur
        (by rw [inv.ids_eq]; exact inv.grey_sub cur hcurmem)
      obtain ⟨o0, ho0, hu⟩ := inv.lookup_orig cur o ho
      have hrefs : o0.strongRefs = o.strongRefs := (unmark_eq_strongRefs hu).1
      have hedges : ∀ r ∈ o.strongRefs, Edge gc cur r := by
        intro r hr
        exact ⟨o0, ho0, hrefs ▸ hr⟩
      obtain ⟨objs1, grey1, hs, inv1, hpre, hall⟩ :=
        scan_refs_inv gc cap hcap hcl i cur o.strongRefs objs grey inv hi hcur hedges
      have hi1 : i < grey1.length := Nat.lt_of_lt_of_le hi hpre.length_le
      have hcur1 : grey1[i]? = some cur := by
        obtain ⟨t, ht⟩ := hpre
        rw [← ht, List.getElem?_append_left hi]; exact hcur
      have hall' : ∀ b, Edge gc cur b → b ∈ grey1 := by
        rintro b ⟨o', ho', hb⟩
        rw [ho0] at ho'
        cases ho'
        exact hall b (hrefs ▸ hb)
      have inv2 := inv1.blacken hi1 hcur1 hall'
      obtain ⟨objs', grey', hp, inv'⟩ := ih (i + 1) _ grey1 inv2 (by omega)
      refine ⟨objs', grey', ?_, inv'⟩
      unfold propagate
      simp only [hcur, ho, hs]
      exact hp

theorem mark_init (gc : GC) (hnd : gc.ids.Nodup) :
    MarkInv gc (gc.objs.map (fun p => (p.1, paint p.2))) (rootIds gc.objs) 0 := by
  have hlook : ∀ a, (gc.objs.map (fun p => (p.1, paint p.2))).lookup a
      = (gc.objs.lookup a).map paint := fun a => lookup_proj paint gc.objs a
  refine ⟨?_, ?_, Nat.zero_le _, ?_, ?_, ?_, ?_, ?_⟩
  · simp [proj, List.map_map, Function.comp_def, paint, unmark]
  · exact (rootIds_sublist gc.objs).nodup hnd
  · intro k a hk
    have ha : a ∈ rootIds gc.objs := List.getElem?_mem hk
    obtain ⟨o, ho, hr⟩ := (mem_rootIds gc.objs a).1 ha
    have hl := lookup_of_mem_nodup gc.objs a o hnd ho
    rw [hlook, hl]
    simp [paint, hr]
  · intro a o' h' hm
    rw [hlook] at h'
    cases hl : gc.objs.lookup a with
    | none => simp [hl] at h'
    | some o =>
      simp only [hl, Option.map_some', Option.some.injEq] at h'
      subst h'
      have hr : o.refCount > 1 := by
        by_contra hn
        simp [paint, hn] at hm
      exact (mem_rootIds gc.objs a).2 ⟨o, mem_ids_of_lookup gc.objs a o hl, hr⟩
  · intro a ha
    obtain ⟨o, ho, hr⟩ := (mem_rootIds gc.objs a).1 ha
    exact ⟨a, ⟨o, lookup_of_mem_nodup gc.objs a o hnd ho, hr⟩, Relation.ReflTransGen.refl⟩
  · intro k a hk
    exact absurd hk (Nat.not_lt_zero k)
  · rintro r ⟨o, ho, hr⟩
    exact (mem_rootIds gc.objs r).2 ⟨o, mem_ids_of_lookup gc.objs r o ho, hr⟩

theorem MarkInv.live_mem {gc : GC} {objs : List (Nat × GCObject)} {grey : List Nat}
    (inv : MarkInv gc objs grey grey.length) (a : Nat) (h : Live gc a) : a ∈ grey := by
  obtain ⟨r, hr, hra⟩ := h
  induction hra with
  | refl => exact inv.roots r hr
  | tail _ hbc ih =>
    obtain ⟨k, hk⟩ := List.getElem?_of_mem ih
    have hlt : k < grey.length := by
      by_contra hge
      have : grey[k]? = none := List.getElem?_eq_none (by omega)
      rw [this] at hk; cases hk
    exact inv.closed k _ hlt hk _ hbc

theorem MarkInv.final_mark {gc : GC} {objs : List (Nat × GCObject)} {grey : List Nat}
    (inv : MarkInv gc objs grey grey.length) (a : Nat) (o : GCObject)
    (h : objs.lookup a = some o) :
    (o.mark ≠ 0 → Live gc a ∧ o.mark = 2) ∧ (Live gc a → o.mark = 2) := by
  have key : a ∈ grey → o.mark = 2 := by
    intro ha
    obtain ⟨k, hk⟩ := List.getElem?_of_mem ha
    have hlt : k < grey.length := by
      by_contra hge
      have : grey[k]? = none := List.getElem?_eq_none (by omega)
      rw [this] at hk; cases hk
    have hm := inv.marks k a hk
    simpa [h, hlt] using hm
  constructor
  · intro hm
    have ha := inv.white a o h hm
    exact ⟨inv.live a ha, key ha⟩
  · intro hl
    exact key (inv.live_mem a hl)

/-- The marking phase of `gc_collect` has a result, and marks exactly the live objects. -/
theorem mark_phase (gc : GC) (hnd : gc.ids.Nodup) (hc : gc.count = gc.objs.length)
    (hcl : EdgesClosed gc) :
    ∃ objs1 grey objs2, mark_roots gc.count gc.objs [] = some (objs1, grey) ∧
      propagate gc.count gc.count 0 objs1 grey = some objs2 ∧
      proj unmark objs2 = proj unmark gc.objs ∧
      ∀ a o, objs2.lookup a = some o →
        (o.mark ≠ 0 → Live gc a ∧ o.mark = 2) ∧ (Live gc a → o.mark = 2) := by
  have hlen : ([] : List Nat).length + (rootIds gc.objs).length ≤ gc.count := by
    have := (rootIds_sublist gc.objs).length_le
    simp only [List.length_map] at this
    simp only [List.length_nil]; omega
  have h1 := mark_roots_eq gc.count gc.objs [] hlen
  simp only [List.nil_append] at h1
  obtain ⟨objs2, grey', hp, inv⟩ :=
    propagate_inv gc gc.count (by omega) hcl gc.count 0 _ _ (mark_init gc hnd) (by omega)
  exact ⟨_, _, objs2, h1, hp, inv.same, fun a o h => inv.final_mark a o h⟩

theorem gc_release_proj (gc : GC) (x : Nat) :
    proj norc (gc_release gc x).objs = proj norc gc.objs :=
  proj_updObj norc gc.objs x (fun o => { o with refCount := o.refCount - 1 }) (fun _ => rfl)

theorem release_all_proj (ptrs : List Nat) :
    ∀ gc : GC, proj norc (release_all gc ptrs).objs = proj norc gc.objs := by
  induction ptrs with
  | nil => intro gc; rfl
  | cons x rest ih =>
    intro gc
    simp only [release_all, List.foldl_cons] at ih ⊢
    rw [ih (gc_release gc x), gc_release_proj]

theorem release_all_fields (ptrs : List Nat) :
    ∀ gc : GC, (release_all gc ptrs).count = gc.count ∧ (release_all gc ptrs).enabled = gc.enabled
      ∧ (release_all gc ptrs).step = gc.step ∧ (release_all gc ptrs).lastCleanup = gc.lastCleanup
      ∧ (release_all gc ptrs).brk = gc.brk ∧ (release_all gc ptrs).oom = gc.oom := by
  induction ptrs with
  | nil => intro gc; simp [release_all]
  | cons x rest ih =>
    intro gc
    simp only [release_all, List.foldl_cons] at ih ⊢
    have := ih (gc_release gc x)
    simpa [gc_release] using this

theorem proj_length {α : Type} (g : GCObject → α) (objs : List (Nat × GCObject)) :
    (proj g objs).length = objs.length := by simp [proj]

theorem proj_filter_key {α : Type} (g : GCObject → α) (objs : List (Nat × GCObject))
    (P : Nat → Bool) :
    proj g (objs.filter (fun p => P p.1)) = (proj g objs).filter (fun p => P p.1) := by
  induction objs with
  | nil => rfl
  | cons p rest ih =>
    simp only [proj, List.filter_cons, List.map_cons] at ih ⊢
    cases h : P p.1 <;> simp [ih]

theorem key_unique (objs : List (Nat × GCObject)) (hnd : (objs.map Prod.fst).Nodup)
    (a : Nat) (o : GCObject) (h : objs.lookup a = some o) :
    ∀ p ∈ proj norc objs, p.1 = a → p.2 = norc o := by
  intro p hp hpa
  obtain ⟨q, hq, rfl⟩ := List.mem_map.1 hp
  obtain ⟨k, o1⟩ := q
  simp only at hpa
  subst hpa
  have := lookup_of_mem_nodup objs k o1 hnd hq
  rw [h] at this
  cases this; rfl

theorem key_absent (objs : List (Nat × GCObject)) (a : Nat) (h : objs.lookup a = none) :
    ∀ p ∈ proj norc objs, p.1 ≠ a := by
  intro p hp hpa
  obtain ⟨q, hq, rfl⟩ := List.mem_map.1 hp
  have hmem : a ∈ objs.map Prod.fst := List.mem_map.2 ⟨q, hq, hpa⟩
  obtain ⟨o, ho⟩ := lookup_isSome_of_mem_ids objs a hmem
  rw [h] at ho; cases ho

theorem filter_ne_length {β : Type} (l : List (Nat × β)) (hnd : (l.map Prod.fst).Nodup)
    (a : Nat) (h : a ∈ l.map Prod.fst) :
    (l.filter (fun p => decide (p.1 ≠ a))).length + 1 = l.length := by
  induction l with
  | nil => simp at h
  | cons p rest ih =>
    simp only [List.map_cons, List.nodup_cons] at hnd
    by_cases hpa : p.1 = a
    · have hall : ∀ q ∈ rest, decide (q.1 ≠ a) = true := by
        intro q hq
        have : q.1 ≠ a := by
          intro hqa
          exact hnd.1 (List.mem_map.2 ⟨q, hq, by rw [hqa, hpa]⟩)
        simpa using this
      rw [List.filter_cons]
      have hd : decide (p.1 ≠ a) = false := by simpa using hpa
      rw [hd, List.filter_eq_self.2 hall]
      simp
    · have hrest : a ∈ rest.map Prod.fst := by
        simp only [List.map_cons, List.mem_cons] at h
        rcases h with h | h
        · exact absurd h.symm hpa
        · exact h
      have := ih hnd.2 hrest
      simp [List.filter_cons, hpa]
      simpa using this

/-- What the sweep loop leaves: the objects that are not (visited and white), up to their
reference counts; `count` follows the length of the list. -/
theorem sweep_spec (todo : List Nat) :
    ∀ gc : GC, gc.ids.Nodup →
      proj norc (sweep todo gc).objs
          = (proj norc gc.objs).filter (fun p => !(decide (p.1 ∈ todo) && decide (p.2.mark = 0)))
        ∧ (gc.count = gc.objs.length → (sweep todo gc).count = (sweep todo gc).objs.length)
        ∧ (sweep todo gc).enabled = gc.enabled ∧ (sweep todo gc).step = gc.step
        ∧ (sweep todo gc).lastCleanup = gc.lastCleanup
        ∧ (sweep todo gc).brk = gc.brk ∧ (sweep todo gc).oom = gc.oom := by
  induction todo with
  | nil =>
    intro gc _
    simp [sweep]
  | cons a rest ih =>
    intro gc hnd
    cases hl : gc.obj a with
    | none =>
      have hab := key_absent gc.objs a hl
      obtain ⟨h1, h2⟩ := ih gc hnd
      simp only [sweep, hl]
      refine ⟨?_, h2⟩
      rw [h1]
      apply List.filter_congr
      intro p hp
      have := hab p hp
      simp [this]
    | some o =>
      have huniq := key_unique gc.objs hnd a o hl
      by_cases hw : o.mark = 0
      · simp only [sweep, hl, hw, if_true]
        have hfields := release_all_fields (run_dtor o)
          { gc with objs := gc.objs.filter (fun p => decide (p.1 ≠ a)) }
        have hproj := release_all_proj (run_dtor o)
          { gc with objs := gc.objs.filter (fun p => decide (p.1 ≠ a)) }
        simp only at hfields hproj
        rw [proj_filter_key norc gc.objs (fun k => decide (k ≠ a))] at hproj
        set gc2 := release_all { gc with objs := gc.objs.filter (fun p => decide (p.1 ≠ a)) }
          (run_dtor o) with hgc2
        have hids2 : ({ gc2 with count := gc2.count - 1 } : GC).ids.Nodup := by
          have h := congrArg (fun l => l.map Prod.fst) hproj
          simp only [ids_proj] at h
          simp only [GC.ids]
          rw [h]
          have hsub : List.Sublist
              (((proj norc gc.objs).filter (fun p => decide (p.1 ≠ a))).map Prod.fst)
              ((proj norc gc.objs).map Prod.fst) :=
            List.Sublist.map _ (List.filter_sublist _)
          rw [ids_proj] at hsub
          exact hsub.nodup hnd
        obtain ⟨h1, h2, h3⟩ := ih { gc2 with count := gc2.count - 1 } hids2
        refine ⟨?_, ?_, ?_⟩
        · rw [h1]
          simp only
          rw [hproj, List.filter_filter]
          apply List.filter_congr
          intro p hp
          by_cases hpa : p.1 = a
          · have := huniq p hp hpa
            simp [hpa, this, norc, hw]
          · simp [hpa]
        · intro hc
          apply h2
          simp only
          have hlen := congrArg List.length hproj
          rw [proj_length] at hlen
          rw [hlen, hfields.1]
          have hmem : a ∈ (proj norc gc.objs).map Prod.fst := by
            rw [ids_proj]; exact mem_ids_of_lookup_some gc.objs a o hl
          have hcnt := filter_ne_length (proj norc gc.objs) (by rw [ids_proj]; exact hnd) a hmem
          rw [proj_length] at hcnt
          omega
        · simpa [hfields] using h3
      · simp only [sweep, hl, hw, if_false]
        obtain ⟨h1, h2⟩ := ih gc hnd
        refine ⟨?_, h2⟩
        rw [h1]
        apply List.filter_congr
        intro p hp
        by_cases hpa : p.1 = a
        · have := huniq p hp hpa
          simp [hpa, this, norc, hw]
        · simp [hpa]

theorem norc_unmark_comm (o : GCObject) : norc (unmark o) = unmark (norc o) := rfl

/-- A collection that runs (non-zero count, worklist allocated) on a well-formed collector
has a result, related to the start state by `Collected`. -/
theorem gc_collect_ran (gc : GC) (hnd : gc.ids.Nodup) (hc : gc.count = gc.objs.length)
    (hcl : EdgesClosed gc) (hpos : gc.count ≠ 0) (hok : gc.malloc.1 = true) :
    ∃ gc', gc_collect gc = some gc' ∧ Collected gc gc' ∧ gc'.oom = gc.malloc.2.oom := by
  obtain ⟨objs1, grey, objs2, hroots, hprop, hsame, hmarks⟩ := mark_phase gc hnd hc hcl
  have hobjs1 : gc.malloc.2.objs = gc.objs := by
    unfold GC.malloc; split <;> rfl
  have hcount1 : gc.malloc.2.count = gc.count := by
    unfold GC.malloc; split <;> rfl
  have hids2 : objs2.map Prod.fst = gc.ids := by
    have h1 := congrArg (fun l => l.map Prod.fst) hsame
    simpa [ids_proj, GC.ids] using h1
  have hnd2 : (objs2.map Prod.fst).Nodup := hids2 ▸ hnd
  have hlen2 : objs2.length = gc.objs.length := by
    have h1 := congrArg List.length hsame
    simpa [proj_length] using h1
  obtain ⟨hs1, hs2, hs3, hs4, hs5, hs6, hs7⟩ :=
    sweep_spec (objs2.map Prod.fst) { gc.malloc.2 with objs := objs2 } hnd2
  simp only at hs1 hs2 hs3 hs4 hs5 hs6 hs7
  set gc3 := sweep (objs2.map Prod.fst) { gc.malloc.2 with objs := objs2 } with hgc3
  have hfilter : proj norc gc3.objs
      = (proj norc objs2).filter (fun p => !decide (p.2.mark = 0)) := by
    rw [hs1]
    apply List.filter_congr
    intro p hp
    have : p.1 ∈ objs2.map Prod.fst := by
      rw [← ids_proj norc objs2]; exact List.mem_map.2 ⟨p, hp, rfl⟩
    simp [this]
  have hsub : gc3.ids.Sublist gc.ids := by
    have h1 : gc3.ids = (proj norc gc3.objs).map Prod.fst := (ids_proj norc gc3.objs).symm
    rw [h1, hfilter, ← hids2, ← ids_proj norc objs2]
    exact List.Sublist.map _ (List.filter_sublist _)
  have hobj : ∀ a o', gc3.obj a = some o' →
      ∃ o2, objs2.lookup a = some o2 ∧ norc o2 = norc o' ∧ o2.mark ≠ 0 := by
    intro a o' h'
    have hmem : (a, norc o') ∈ proj norc gc3.objs :=
      List.mem_map.2 ⟨(a, o'), mem_ids_of_lookup gc3.objs a o' h', rfl⟩
    rw [hfilter] at hmem
    obtain ⟨hm1, hm2⟩ := List.mem_filter.1 hmem
    obtain ⟨q, hq, hqe⟩ := List.mem_map.1 hm1
    obtain ⟨k, o2⟩ := q
    simp only [Prod.mk.injEq] at hqe
    obtain ⟨hk, ho2⟩ := hqe
    subst hk
    refine ⟨o2, lookup_of_mem_nodup objs2 k o2 hnd2 hq, ho2, ?_⟩
    have : (norc o').mark ≠ 0 := by simpa using hm2
    rw [← ho2] at this
    exact this
  have horig : ∀ a o2, objs2.lookup a = some o2 →
      ∃ o, gc.obj a = some o ∧ unmark o = unmark o2 := by
    intro a o2 h2
    have h1 := congrArg (fun l => l.lookup a) hsame
    simp only [lookup_proj, h2, Option.map_some'] at h1
    cases h0 : gc.objs.lookup a with
    | none => simp [h0] at h1
    | some o0 =>
      simp only [h0, Option.map_some', Option.some.injEq] at h1
      exact ⟨o0, h0, h1.symm⟩
  refine ⟨{ gc3 with lastCleanup := gc3.count }, ?_, ?_, ?_⟩
  · unfold gc_collect
    simp only [hpos, if_false, hok, Bool.not_true, Bool.false_eq_true, hobjs1, hroots, hprop]
  · refine ⟨?_, hsub, ?_, ?_, rfl, ?_, ?_, ?_⟩
    · intro a
      constructor
      · intro ha
        refine ⟨hsub.subset ha, ?_⟩
        obtain ⟨o', ho'⟩ := lookup_isSome_of_mem_ids gc3.objs a ha
        obtain ⟨o2, h2, _, hm⟩ := hobj a o' ho'
        exact ((hmarks a o2 h2).1 hm).1
      · rintro ⟨ha, hlive⟩
        obtain ⟨o2, h2⟩ := lookup_isSome_of_mem_ids objs2 a (hids2 ▸ ha)
        have hm := (hmarks a o2 h2).2 hlive
        have hmem : (a, norc o2) ∈ proj norc gc3.objs := by
          rw [hfilter]
          refine List.mem_filter.2 ⟨List.mem_map.2 ⟨(a, o2), mem_ids_of_lookup objs2 a o2 h2, rfl⟩, ?_⟩
          simp [norc, hm]
        have : a ∈ (proj norc gc3.objs).map Prod.fst := List.mem_map.2 ⟨_, hmem, rfl⟩
        rw [ids_proj] at this
        exact this
    · intro a o' h'
      obtain ⟨o2, h2, hn, hm⟩ := hobj a o' h'
      obtain ⟨o, ho, hu⟩ := horig a o2 h2
      refine ⟨o, ho, ?_, ?_⟩
      · rw [norc_unmark_comm, ← hn, ← norc_unmark_comm, ← hu]
      · have h2m := ((hmarks a o2 h2).1 hm).2
        have : (norc o2).mark = (norc o').mark := by rw [hn]
        simpa [norc, h2m] using this.symm
    · apply hs2
      rw [hcount1, hc, hlen2]
    · simpa using hs3.trans (by unfold GC.malloc; split <;> rfl)
    · simpa using hs4.trans (by unfold GC.malloc; split <;> rfl)
    · simpa using hs6.trans (by unfold GC.malloc; split <;> rfl)
  · simpa using hs7

/-! ## The collector: C1, C2, C3 -/

theorem live_mem_ids {gc : GC} (hcl : EdgesClosed gc) {a : Nat} (h : Live gc a) :
    a ∈ gc.ids := by
  obtain ⟨r, ⟨o, ho, _⟩, hra⟩ := h
  rcases Relation.ReflTransGen.cases_tail hra with h | ⟨b, _, hbc⟩
  · subst h; exact mem_ids_of_lookup_some gc.objs _ o ho
  · exact edge_target_mem hcl hbc

theorem norc_unmark_strongRefs {o o' : GCObject} (h : norc (unmark o') = norc (unmark o)) :
    o'.strongRefs = o.strongRefs ∧ o'.dtor = o.dtor ∧ o'.data = o.data := by
  cases o; cases o'
  simp only [norc, unmark, GCObject.mk.injEq] at h
  simp [h]

theorem malloc_objs (gc : GC) : gc.malloc.2.objs = gc.objs := by
  unfold GC.malloc; split <;> rfl

/-- Every run of `gc_collect` on a well-formed collector has a result; either nothing was
collected (zero count or failed worklist allocation) or the result is `Collected`. -/
theorem gc_collect_total (gc : GC) (hnd : gc.ids.Nodup) (hc : gc.count = gc.objs.length)
    (hcl : EdgesClosed gc) :
    ∃ gc', gc_collect gc = some gc' ∧
      ((gc'.objs = gc.objs ∧ (gc.count = 0 ∨ gc.malloc.1 = false)) ∨
        (Collected gc gc' ∧ gc.count ≠ 0 ∧ gc.malloc.1 = true)) := by
  by_cases hpos : gc.count = 0
  · exact ⟨gc, by simp [gc_collect, hpos], Or.inl ⟨rfl, Or.inl hpos⟩⟩
  · cases hok : gc.malloc.1 with
    | false =>
      refine ⟨gc.malloc.2, ?_, Or.inl ⟨malloc_objs gc, Or.inr rfl⟩⟩
      simp [gc_collect, hpos, hok]
    | true =>
      obtain ⟨gc', h1, h2, _⟩ := gc_collect_ran gc hnd hc hcl hpos hok
      exact ⟨gc', h1, Or.inr ⟨h2, hpos, rfl⟩⟩

/-- C1: `gc_collect` never reclaims a live object.  In every collector state (addresses of the
list distinct, `count` equal to its length) in which every edge target is in the global list,
`gc_collect` has a result, and every object reachable in zero or more edge steps from an
object with `refCount > 1` is still in the list afterwards, with its edge list unchanged. -/
theorem gc_collect_keeps_live (gc : GC) (hnd : gc.ids.Nodup) (hc : gc.count = gc.objs.length)
    (hcl : EdgesClosed gc) :
    ∃ gc', gc_collect gc = some gc' ∧
      ∀ r a, IsRoot gc r → Reach gc r a →
        a ∈ gc'.ids ∧
          ∃ o o', gc.obj a = some o ∧ gc'.obj a = some o' ∧ o'.strongRefs = o.strongRefs := by
  obtain ⟨gc', h1, h2⟩ := gc_collect_total gc hnd hc hcl
  refine ⟨gc', h1, ?_⟩
  intro r a hr hra
  have hlive : Live gc a := ⟨r, hr, hra⟩
  have hmem : a ∈ gc.ids := live_mem_ids hcl hlive
  rcases h2 with ⟨hobjs, _⟩ | ⟨hcol, _, _⟩
  · obtain ⟨o, ho⟩ := lookup_isSome_of_mem_ids gc.objs a hmem
    refine ⟨by simpa [GC.ids, hobjs] using hmem, o, o, ho, by simpa [GC.obj, hobjs] using ho, rfl⟩
  · have hmem' : a ∈ gc'.ids := (hcol.mem a).2 ⟨hmem, hlive⟩
    obtain ⟨o', ho'⟩ := lookup_isSome_of_mem_ids gc'.objs a hmem'
    obtain ⟨o, ho, hsame, _⟩ := hcol.obj a o' ho'
    exact ⟨hmem', o, o', ho, ho', (norc_unmark_strongRefs hsame).1⟩

theorem gc_collect_keeps_live_witness :
    demo_gc.ids.Nodup ∧ demo_gc.count = demo_gc.objs.length ∧ EdgesClosed demo_gc ∧
      ∃ gc', gc_collect demo_gc = some gc' ∧
        ∀ r a, IsRoot demo_gc r → Reach demo_gc r a →
          a ∈ gc'.ids ∧
            ∃ o o', demo_gc.obj a = some o ∧ gc'.obj a = some o'
              ∧ o'.strongRefs = o.strongRefs :=
  ⟨by decide, by decide, by decide,
    gc_collect_keeps_live demo_gc (by decide) (by decide) (by decide)⟩

/-- C2: after a `gc_collect` whose worklist allocation succeeds, every object still in the
global list is reachable via edges, in zero or more steps, from an object that had
`refCount > 1` when the collection started. -/
theorem gc_collect_survivors_live (gc : GC) (hnd : gc.ids.Nodup)
    (hc : gc.count = gc.objs.length) (hcl : EdgesClosed gc) (hok : gc.malloc.1 = true) :
    ∃ gc', gc_collect gc = some gc' ∧
      ∀ a ∈ gc'.ids, ∃ r, IsRoot gc r ∧ Reach gc r a := by
  obtain ⟨gc', h1, h2⟩ := gc_collect_total gc hnd hc hcl
  refine ⟨gc', h1, ?_⟩
  intro a ha
  rcases h2 with ⟨hobjs, h0 | hfail⟩ | ⟨hcol, _, _⟩
  · have hnil : gc.objs = [] := List.length_eq_zero.1 (by omega)
    simp [GC.ids, hobjs, hnil] at ha
  · rw [hok] at hfail; cases hfail
  · exact ((hcol.mem a).1 ha).2

theorem gc_collect_survivors_live_witness :
    demo_gc.ids.Nodup ∧ demo_gc.count = demo_gc.objs.length ∧ EdgesClosed demo_gc ∧
      demo_gc.malloc.1 = true ∧
      ∃ gc', gc_collect demo_gc = some gc' ∧
        ∀ a ∈ gc'.ids, ∃ r, IsRoot demo_gc r ∧ Reach demo_gc r a :=
  ⟨by decide, by decide, by decide, by decide,
    gc_collect_survivors_live demo_gc (by decide) (by decide) (by decide) (by decide)⟩

theorem not_live_of_no_roots (gc : GC) (h : ∀ p ∈ gc.objs, p.2.refCount ≤ 1) (a : Nat) :
    ¬ Live gc a := by
  rintro ⟨r, ⟨o, ho, hr⟩, _⟩
  have := h (r, o) (mem_ids_of_lookup gc.objs r o ho)
  exact CInt.not_lt_of_le this hr

theorem stores_ref_mem {gc : GC} {a b : Nat} (h : stores_ref gc a b = true) : a ∈ gc.ids := by
  unfold stores_ref getTable at h
  cases ho : gc.obj a with
  | none => simp [ho] at h
  | some o => exact mem_ids_of_lookup_some gc.objs a o ho

/-- The list that the sweep leaves when it runs to its end.  If container `a` stores a
SharedRef record for container `b` and `b` stores one for `a`, and neither is reachable from
an object with `refCount > 1`, then after a `gc_collect` whose worklist allocation succeeds
neither container is in the list and `count` is lower by at least 2.  What the destructor
calls of that sweep do on the way is the subject of `sweep_trace`. -/
theorem collect_unlinks_cycle (gc : GC) (a b : Nat) (hnd : gc.ids.Nodup)
    (hc : gc.count = gc.objs.length) (hcl : EdgesClosed gc) (hok : gc.malloc.1 = true)
    (hab : a ≠ b) (hsa : stores_ref gc a b = true) (hsb : stores_ref gc b a = true)
    (ha : ¬ Live gc a) (hb : ¬ Live gc b) :
    ∃ gc', gc_collect gc = some gc' ∧ a ∉ gc'.ids ∧ b ∉ gc'.ids ∧ gc'.count + 2 ≤ gc.count := by
  have hma : a ∈ gc.ids := stores_ref_mem hsa
  have hmb : b ∈ gc.ids := stores_ref_mem hsb
  have hpos : gc.count ≠ 0 := by
    intro h0
    have hnil : gc.objs = [] := List.length_eq_zero.1 (by omega)
    simp [GC.ids, hnil] at hma
  obtain ⟨gc', h1, hcol, _⟩ := gc_collect_ran gc hnd hc hcl hpos hok
  have hna : a ∉ gc'.ids := fun h => ha ((hcol.mem a).1 h).2
  have hnb : b ∉ gc'.ids := fun h => hb ((hcol.mem b).1 h).2
  refine ⟨gc', h1, hna, hnb, ?_⟩
  have hnd' : gc'.ids.Nodup := hcol.sub.nodup hnd
  have hsub : ∀ x ∈ gc'.ids, x ∈ (gc.ids.erase a).erase b := by
    intro x hx
    have hxa : x ≠ a := fun h => hna (h ▸ hx)
    have hxb : x ≠ b := fun h => hnb (h ▸ hx)
    exact (List.mem_erase_of_ne hxb).2 ((List.mem_erase_of_ne hxa).2 (hcol.sub.subset hx))
  have hlen := nodup_length_le hnd' hsub
  have hb' : b ∈ gc.ids.erase a := (List.mem_erase_of_ne (Ne.symm hab)).2 hmb
  rw [List.length_erase_of_mem hb', List.length_erase_of_mem hma] at hlen
  have hl : gc.ids.length = gc.objs.length := by simp [GC.ids]
  have hl' : gc'.ids.length = gc'.objs.length := by simp [GC.ids]
  have hge : 2 ≤ gc.ids.length := by
    have h1 : 0 < (gc.ids.erase a).length := List.length_pos_of_mem hb'
    rw [List.length_erase_of_mem hma] at h1
    omega
  rw [hcol.count, hc]
  omega

theorem collect_unlinks_cycle_example :
    cycle_gc.ids.Nodup ∧ cycle_gc.count = cycle_gc.objs.length ∧ EdgesClosed cycle_gc ∧
      cycle_gc.malloc.1 = true ∧ (1 : Nat) ≠ 2 ∧
      stores_ref cycle_gc 1 2 = true ∧ stores_ref cycle_gc 2 1 = true ∧
      ¬ Live cycle_gc 1 ∧ ¬ Live cycle_gc 2 ∧
      ∃ gc', gc_collect cycle_gc = some gc' ∧ 1 ∉ gc'.ids ∧ 2 ∉ gc'.ids
        ∧ gc'.count + 2 ≤ cycle_gc.count :=
  ⟨by decide, by decide, by decide, by decide, by decide, by decide, by decide,
    not_live_of_no_roots cycle_gc (by decide) 1, not_live_of_no_roots cycle_gc (by decide) 2,
    collect_unlinks_cycle cycle_gc 1 2 (by decide) (by decide) (by decide) (by decide)
      (by decide) (by decide) (by decide)
      (not_live_of_no_roots cycle_gc (by decide) 1) (not_live_of_no_roots cycle_gc (by decide) 2)⟩

/-- When the worklist cannot be allocated `gc_collect` returns before the first loop.  In the
state left by `a = table(nil); b = table(nil); a.x = b; b.y = a` and the finalisation of both
handles, the two containers store each other and no object has `refCount > 1`, yet
`gc_collect` leaves the list and `count` as they were. -/
theorem cycle_survives_failed_worklist :
    cycle_gc_oom.ids.Nodup ∧ cycle_gc_oom.count = cycle_gc_oom.objs.length ∧
      EdgesClosed cycle_gc_oom ∧
      stores_ref cycle_gc_oom 1 2 = true ∧ stores_ref cycle_gc_oom 2 1 = true ∧
      ¬ Live cycle_gc_oom 1 ∧ ¬ Live cycle_gc_oom 2 ∧
      ¬ ∃ gc', gc_collect cycle_gc_oom = some gc' ∧ 1 ∉ gc'.ids ∧ 2 ∉ gc'.ids
        ∧ gc'.count + 2 ≤ cycle_gc_oom.count := by
  refine ⟨by decide, by decide, by decide, by decide, by decide,
    not_live_of_no_roots cycle_gc_oom (by decide) 1,
    not_live_of_no_roots cycle_gc_oom (by decide) 2, ?_⟩
  rintro ⟨gc', h, h1, _⟩
  have hres : (gc_collect cycle_gc_oom).map GC.ids = some [1, 2, 3, 4, 5, 6, 7, 8] := by decide
  rw [h] at hres
  simp only [Option.map_some', Option.some.injEq] at hres
  rw [hres] at h1
  exact h1 (by decide)

/-- The state that `sweep_trace` returns is the state that `sweep` returns. -/
theorem sweep_trace_fst :
    ∀ (ids : List Nat) (gc : GC), (sweep_trace ids gc).1 = sweep ids gc := by
  intro ids
  induction ids with
  | nil => intro gc; rfl
  | cons a rest ih =>
    intro gc
    unfold sweep_trace sweep
    cases gc.obj a with
    | none => exact ih gc
    | some o =>
      simp only
      split
      · exact ih _
      · exact ih gc

/-- The trace of faults is defined exactly where `gc_collect` has a result. -/
theorem gc_collect_faults_isSome (gc : GC) :
    (gc_collect_faults gc).isSome = (gc_collect gc).isSome := by
  unfold gc_collect_faults gc_collect
  by_cases h0 : gc.count = 0
  · simp [h0]
  · simp only [h0, if_false]
    cases hok : gc.malloc.1 with
    | false => simp [hok]
    | true =>
      simp only [hok, Bool.not_true, Bool.false_eq_true, if_false]
      cases mark_roots gc.count gc.malloc.2.objs [] with
      | none => rfl
      | some p =>
        simp only
        cases propagate gc.count gc.count 0 p.1 p.2 <;> rfl

/-- C3, where the code departs from it.  In the state left by `a = table(nil);
b = table(nil); a.x = b; b.y = a` and the finalisation of both handles, the containers 1 and
2 store a SharedRef record for each other, no object is reachable from an object with
`refCount > 1`, and the worklist can be allocated.  Run to its end, the sweep of `gc_collect`
leaves an empty list.  On the way, in this order: the destructors of the containers 1 and 2
release their key and value records 3, 5, 6 and 8, whose counts are 0, so `assert(old > 0)`
fails at each; `stored_dtor` runs on the records 4 and 7, whose `type` field was never
written; and the destructors of the SharedRef records 5 and 8 release the containers 2 and 1
after these have been freed. -/
theorem cycle_sweep_faults :
    (stores_ref cycle_gc 1 2 = true ∧ stores_ref cycle_gc 2 1 = true ∧
      ¬ Live cycle_gc 1 ∧ ¬ Live cycle_gc 2 ∧ cycle_gc.malloc.1 = true) ∧
    cycle_gc.objs.map (fun p => (p.1, p.2.refCount.val, p.2.dtor))
      = [(1, 1, .shared_table_dtor), (2, 1, .shared_table_dtor), (3, 0, .stored_dtor),
         (4, 1, .stored_dtor), (5, 0, .stored_dtor), (6, 0, .stored_dtor),
         (7, 1, .stored_dtor), (8, 0, .stored_dtor)] ∧
    (getTable cycle_gc 1 = some { entries := [(3, 5)], cap := 4, metatable := none } ∧
      getTable cycle_gc 2 = some { entries := [(6, 8)], cap := 4, metatable := none } ∧
      getStored cycle_gc 5 = some (.shared_table 2) ∧
      getStored cycle_gc 8 = some (.shared_table 1) ∧
      (cycle_gc.obj 4).map (fun o => o.data) = some .raw ∧
      (cycle_gc.obj 7).map (fun o => o.data) = some .raw) ∧
    gc_collect_faults cycle_gc
      = some [.assert_release 3, .assert_release 5, .assert_release 6, .assert_release 8,
              .raw_dtor 4, .freed_release 2, .raw_dtor 7, .freed_release 1] ∧
    (gc_collect cycle_gc).map (fun g => (g.ids, g.count)) = some ([], 0) := by
  refine ⟨⟨by decide, by decide, not_live_of_no_roots cycle_gc (by decide) 1,
    not_live_of_no_roots cycle_gc (by decide) 2, by decide⟩, by decide,
    ⟨by decide, by decide, by decide, by decide, by decide, by decide⟩, by decide, by decide⟩

/-! ## Reference counts at the host surface: C4, C5, C6 -/

/-- C4 fails on the code.  After `t = table(nil); gc.collect()` the list holds container 1 and
`lastCleanup` is 1.  `rawset(t, "k", 42)` marshals the key into record 2 (`refCount` 1, not
released); the `gc_create` for the value then triggers `gc_collect`, which sweeps record 2.
The write goes on and leaves container 1 with a key slot and an edge that point to the freed
record. -/
theorem created_record_swept_by_next_create :
    held_run.map (fun g => (g.ids, g.count, g.lastCleanup)) = some ([1], 1, 1) ∧
    (marshal_value L0 held_gc (.string [107])).map
        (fun r => (r.2, r.1.ids, r.1.refCount 2)) = some (.obj 2, [1, 2], some 1) ∧
    ((marshal_value L0 held_gc (.string [107])).bind
        (fun r => marshal_value L0 r.1 (.integer 42))).map
        (fun r => (r.2, r.1.ids)) = some (.obj 3, [1, 3]) ∧
    (l_shared_table_rawset L0 held_gc [.userdata (some 1), .string [107], .integer 42]).map
        (fun r => (r.2, r.1.ids)) = some (.ok, [1, 3]) ∧
    (l_shared_table_rawset L0 held_gc [.userdata (some 1), .string [107], .integer 42]).map
        (fun r => ((getTable r.1 1).map (fun t => t.entries),
          (r.1.obj 1).map (fun o => o.strongRefs))) = some (some [(2, 3)], some [2, 3]) := by
  decide

/-- C5 fails on the code.  In `handle_run` the only handle of container 1 is never finalised
and its `refCount` is 2 while container 2 is alive.  Sweeping container 2 together with the
SharedRef record 3 that `setmetatable(u, t)` created runs `stored_dtor`, which releases
container 1 although `stored_create_from_sharedtable` never retained it: its `refCount` drops
to 1, and the next `gc.collect()` sweeps it. -/
theorem handle_container_swept :
    handle_before_run.map (fun g => (g.ids, g.refCount 1)) = some ([1, 2, 3], some 2) ∧
    handle_before_run.map (fun g => (getTable g 2).map (fun t => t.metatable)) =
      some (some (some 3)) ∧
    handle_before_run.map (fun g => getStored g 3) = some (some (.shared_table 1)) ∧
    handle_run.map (fun g => (g.ids, g.refCount 1)) = some ([1], some 1) ∧
    (handle_run.bind l_gc_collect).map GC.ids = some [] := by
  decide

/-- C6 fails on the code.  After `rawset(t, "k", 42)` the key record 2 and the value record 3
are stored in container 1 with `refCount` 0.  `rawset(t, "k", nil)` marshals its arguments
into records 4 and 5 and calls delete: in that state the condition asserted by `gc_release` is
false for records 2 and 3, and the call takes both to -1.  `rawset(t, "k", 43)` (overwrite)
takes the old value record 3 to -1. -/
theorem release_below_zero :
    set_run.map (fun g => (getTable g 1).map (fun t => t.entries)) = some (some [(2, 3)]) ∧
    set_run.map (fun g => (g.refCount 2, g.refCount 3)) = some (some 0, some 0) ∧
    (marshal_pair L0 set_gc [.nil, .string [107], .userdata (some 1)] 2 3).map
        (fun r => (r.2.2, gc_release_assert r.1 2, gc_release_assert r.1 3)) =
      some (.inl (4, 5), false, false) ∧
    (l_shared_table_rawset L0 set_gc [.userdata (some 1), .string [107], .nil]).map
        (fun r => (r.2, shared_table_size r.1 1)) = some (.ok, some 0) ∧
    (l_shared_table_rawset L0 set_gc [.userdata (some 1), .string [107], .nil]).map
        (fun r => (r.1.refCount 2, r.1.refCount 3)) = some (some (-1), some (-1)) ∧
    (l_shared_table_rawset L0 set_gc [.userdata (some 1), .string [107], .integer 43]).map
        (fun r => (r.2, (getTable r.1 1).map (fun t => t.entries))) =
      some (.ok, some [(2, 5)]) ∧
    (l_shared_table_rawset L0 set_gc [.userdata (some 1), .string [107], .integer 43]).map
        (fun r => r.1.refCount 3) = some (some (-1)) := by
  decide

/-! ## The container: C7, C8, C9, C10 -/

/-! ### Payloads are untouched by reference counting and edge updates -/

theorem getStored_congr {gc gc' : GC} {a : Nat}
    (h : (gc'.obj a).map (fun o => o.data) = (gc.obj a).map (fun o => o.data)) :
    getStored gc' a = getStored gc a := by
  unfold getStored
  cases h1 : gc'.obj a <;> cases h2 : gc.obj a <;> simp [h1, h2] at h ⊢
  rw [h]

theorem getTable_congr {gc gc' : GC} {a : Nat}
    (h : (gc'.obj a).map (fun o => o.data) = (gc.obj a).map (fun o => o.data)) :
    getTable gc' a = getTable gc a := by
  unfold getTable
  cases h1 : gc'.obj a <;> cases h2 : gc.obj a <;> simp [h1, h2] at h ⊢
  rw [h]

theorem data_updObj (objs : List (Nat × GCObject)) (a b : Nat) (f : GCObject → GCObject)
    (hf : ∀ o, objs.lookup a = some o → (f o).data = o.data) :
    ((updObj objs a f).lookup b).map (fun o => o.data) = (objs.lookup b).map (fun o => o.data) := by
  rw [lookup_updObj]
  by_cases hba : b = a
  · subst hba
    cases h : objs.lookup b with
    | none => simp
    | some o => simp [hf o h]
  · simp [hba]

theorem gc_release_data (gc : GC) (x a : Nat) :
    ((gc_release gc x).obj a).map (fun o => o.data) = (gc.obj a).map (fun o => o.data) :=
  data_updObj gc.objs x a (fun o => { o with refCount := o.refCount - 1 }) (fun _ _ => rfl)

theorem gc_release_getStored (gc : GC) (x a : Nat) :
    getStored (gc_release gc x) a = getStored gc a :=
  getStored_congr (gc_release_data gc x a)

theorem gc_release_getTable (gc : GC) (x a : Nat) :
    getTable (gc_release gc x) a = getTable gc a :=
  getTable_congr (gc_release_data gc x a)

theorem malloc_obj (gc : GC) (a : Nat) : gc.malloc.2.obj a = gc.obj a := by
  unfold GC.obj; rw [malloc_objs]

theorem ensure_strong_capacity_data {ok : Bool} {o o1 : GCObject} {n : Nat}
    (h : ensure_strong_capacity ok o n = some o1) :
    o1.data = o.data ∧ o1.strongRefs = o.strongRefs := by
  unfold ensure_strong_capacity at h
  by_cases h1 : n ≤ o.strongCapacity
  · simp only [h1, if_true, Option.some.injEq] at h
    subst h; exact ⟨rfl, rfl⟩
  · cases ok
    · simp [h1] at h
    · simp only [h1, if_false, if_true, Option.some.injEq] at h
      subst h; exact ⟨rfl, rfl⟩

theorem gc_add_reference_data {gc gc' : GC} {src dst : Nat}
    (h : gc_add_reference gc src dst = some gc') (a : Nat) :
    (gc'.obj a).map (fun o => o.data) = (gc.obj a).map (fun o => o.data) := by
  unfold gc_add_reference at h
  cases ho : gc.obj src with
  | none => simp [ho] at h
  | some o =>
    simp only [ho] at h
    by_cases hcap : o.strongRefs.length + 1 ≤ o.strongCapacity
    · simp only [hcap, if_true] at h
      cases he : ensure_strong_capacity true o (o.strongRefs.length + 1) with
      | none => simp [he] at h; subst h; rfl
      | some o1 =>
        simp only [he, Option.some.injEq] at h
        subst h
        exact data_updObj gc.objs src a
          (fun _ => { o1 with strongRefs := o1.strongRefs ++ [dst] })
          (fun o' ho' => by
            have : o' = o := by
              have := ho'.symm.trans ho
              exact Option.some.inj this
            subst this
            exact (ensure_strong_capacity_data he).1)
    · simp only [hcap, if_false] at h
      cases he : ensure_strong_capacity gc.malloc.1 o (o.strongRefs.length + 1) with
      | none =>
        simp only [he, Option.some.injEq] at h
        subst h
        rw [malloc_obj]
      | some o1 =>
        simp only [he, Option.some.injEq] at h
        subst h
        have := data_updObj gc.malloc.2.objs src a
          (fun _ => { o1 with strongRefs := o1.strongRefs ++ [dst] })
          (fun o' ho' => by
            have h2 : gc.malloc.2.objs.lookup src = some o := by
              rw [malloc_objs]; exact ho
            have : o' = o := Option.some.inj (ho'.symm.trans h2)
            subst this
            exact (ensure_strong_capacity_data he).1)
        simp only [GC.obj] at this ⊢
        rw [this, malloc_objs]

theorem gc_add_reference_getStored {gc gc' : GC} {src dst : Nat}
    (h : gc_add_reference gc src dst = some gc') (a : Nat) :
    getStored gc' a = getStored gc a :=
  getStored_congr (gc_add_reference_data h a)

theorem gc_add_reference_getTable {gc gc' : GC} {src dst : Nat}
    (h : gc_add_reference gc src dst = some gc') (a : Nat) :
    getTable gc' a = getTable gc a :=
  getTable_congr (gc_add_reference_data h a)

theorem getTable_obj {gc : GC} {tbl : Nat} {t : SharedTable} (h : getTable gc tbl = some t) :
    ∃ o, gc.obj tbl = some o ∧ o.data = .table t := by
  unfold getTable at h
  cases ho : gc.obj tbl with
  | none => simp [ho] at h
  | some o =>
    simp only [ho] at h
    cases hd : o.data with
    | raw => simp [hd] at h
    | stored s => simp [hd] at h
    | table t' =>
      simp only [hd, Option.some.injEq] at h
      subst h
      exact ⟨o, rfl, hd⟩

theorem setTable_getTable {gc : GC} {tbl : Nat} {t : SharedTable} (t' : SharedTable)
    (h : getTable gc tbl = some t) : getTable (setTable gc tbl t') tbl = some t' := by
  obtain ⟨o, ho, _⟩ := getTable_obj h
  unfold getTable setTable GC.obj at *
  simp only [lookup_updObj, if_true, ho, Option.map_some']

theorem setTable_getStored {gc : GC} {tbl : Nat} {t : SharedTable} (t' : SharedTable)
    (h : getTable gc tbl = some t) (a : Nat) :
    getStored (setTable gc tbl t') a = getStored gc a := by
  obtain ⟨o, ho, hd⟩ := getTable_obj h
  unfold getStored setTable GC.obj at *
  simp only [lookup_updObj]
  by_cases ha : a = tbl
  · subst ha
    simp [ho, hd]
  · simp [ha]

theorem find_key_from_congr {gc gc' : GC} (h : ∀ a, getStored gc' a = getStored gc a)
    (key : Option StoredObject) (keys : List Nat) :
    ∀ i, find_key_from gc' key keys i = find_key_from gc key keys i := by
  induction keys with
  | nil => intro i; rfl
  | cons k ks ih =>
    intro i
    simp only [find_key_from, h k, ih]

theorem memcmp_self (x : List Nat) : ∀ n, memcmp x x n = 0 := by
  induction x with
  | nil => intro n; simp [memcmp]
  | cons a rest ih =>
    intro n
    cases n with
    | zero => simp [memcmp]
    | succ n => simp [memcmp, ih]

theorem Double.lt_irrefl (x : Double) : Double.lt x x = false := by
  cases x <;> simp [Double.lt]

theorem stored_compare_self (k : StoredObject) : stored_compare k k = 0 := by
  cases k <;>
    simp [stored_compare, ptr_compare, memcmp_self, Double.lt_irrefl, Double.gt]

theorem find_key_from_found {gc : GC} {key : Option StoredObject} :
    ∀ (keys : List Nat) (i j : Nat), find_key_from gc key keys i = some (some j) →
      i ≤ j ∧ j < i + keys.length ∧
        ∃ k s x, keys[j - i]? = some k ∧ getStored gc k = some s ∧ key = some x
          ∧ stored_compare s x = 0 := by
  intro keys
  induction keys with
  | nil => intro i j h; simp [find_key_from] at h
  | cons k ks ih =>
    intro i j h
    unfold find_key_from at h
    cases hs : getStored gc k with
    | none => simp [hs] at h
    | some s =>
      cases key with
      | none => simp [hs] at h
      | some x =>
        simp only [hs] at h
        by_cases hc : stored_compare s x = 0
        · simp only [hc, if_true, Option.some.injEq] at h
          subst h
          refine ⟨Nat.le_refl _, by simp, k, s, x, by simp, hs, rfl, hc⟩
        · simp only [hc, if_false] at h
          obtain ⟨h1, h2, k', s', x', h3, h4, h5, h6⟩ := ih (i + 1) j h
          refine ⟨by omega, by simp only [List.length_cons]; omega, k', s', x', ?_, h4, h5, h6⟩
          have : j - i = (j - (i + 1)) + 1 := by omega
          rw [this, List.getElem?_cons_succ]
          exact h3

theorem find_key_from_missing {gc : GC} {key : Option StoredObject} :
    ∀ (keys : List Nat) (i : Nat), find_key_from gc key keys i = some none →
      ∀ k ∈ keys, ∃ s x, getStored gc k = some s ∧ key = some x ∧ stored_compare s x ≠ 0 := by
  intro keys
  induction keys with
  | nil => intro i _ k hk; simp at hk
  | cons k ks ih =>
    intro i h k' hk'
    unfold find_key_from at h
    cases hs : getStored gc k with
    | none => simp [hs] at h
    | some s =>
      cases key with
      | none => simp [hs] at h
      | some x =>
        simp only [hs] at h
        by_cases hc : stored_compare s x = 0
        · simp [hc] at h
        · simp only [hc, if_false] at h
          rcases List.mem_cons.1 hk' with hk | hk
          · subst hk; exact ⟨s, x, hs, rfl, hc⟩
          · exact ih (i + 1) h k' hk

theorem find_key_from_append_miss {gc : GC} {key : Option StoredObject} (more : List Nat) :
    ∀ (keys : List Nat) (i : Nat), find_key_from gc key keys i = some none →
      find_key_from gc key (keys ++ more) i = find_key_from gc key more (i + keys.length) := by
  intro keys
  induction keys with
  | nil => intro i _; simp
  | cons k ks ih =>
    intro i h
    unfold find_key_from at h
    cases hs : getStored gc k with
    | none => simp [hs] at h
    | some s =>
      cases key with
      | none => simp [hs] at h
      | some x =>
        simp only [hs] at h
        by_cases hc : stored_compare s x = 0
        · simp [hc] at h
        · simp only [hc, if_false] at h
          have := ih (i + 1) h
          have e : i + 1 + ks.length = i + (ks.length + 1) := by omega
          rw [e] at this
          simp only [List.cons_append, find_key_from, hs, hc, if_false, List.length_cons]
          exact this

theorem ensure_capacity_spec {gc gc1 : GC} {t : SharedTable} {n : Nat}
    {res : Ensured} (h : ensure_capacity gc t n = (gc1, res)) :
    gc1.objs = gc.objs ∧
      (res = .unchanged ∨ res = .keys_freed ∨ ∃ c, res = .ok { t with cap := c }) := by
  unfold ensure_capacity at h
  by_cases hn : n ≤ t.cap
  · simp only [hn, if_true, Prod.mk.injEq] at h
    obtain ⟨h1, h2⟩ := h
    subst h1; subst h2
    exact ⟨rfl, Or.inr (Or.inr ⟨t.cap, rfl⟩)⟩
  · simp only [hn, if_false] at h
    cases hok1 : gc.malloc.1 with
    | false =>
      simp only [hok1, Bool.not_false, if_true, Prod.mk.injEq] at h
      obtain ⟨h1, h2⟩ := h
      subst h1; subst h2
      exact ⟨malloc_objs gc, Or.inl rfl⟩
    | true =>
      simp only [hok1, Bool.not_true, Bool.false_eq_true, if_false] at h
      cases hok2 : gc.malloc.2.malloc.1 with
      | false =>
        simp only [hok2, Bool.not_false, if_true, Prod.mk.injEq] at h
        obtain ⟨h1, h2⟩ := h
        subst h1; subst h2
        refine ⟨(malloc_objs _).trans (malloc_objs gc), ?_⟩
        by_cases hcap : t.cap = 0
        · simp [hcap]
        · simp [hcap]
      | true =>
        simp only [hok2, Bool.not_true, Bool.false_eq_true, if_false, Prod.mk.injEq] at h
        obtain ⟨h1, h2⟩ := h
        subst h1; subst h2
        exact ⟨(malloc_objs _).trans (malloc_objs gc), Or.inr (Or.inr ⟨_, rfl⟩)⟩

theorem getStored_of_objs {gc gc' : GC} (h : gc'.objs = gc.objs) (a : Nat) :
    getStored gc' a = getStored gc a := by
  unfold getStored GC.obj; rw [h]

theorem getTable_of_objs {gc gc' : GC} (h : gc'.objs = gc.objs) (a : Nat) :
    getTable gc' a = getTable gc a := by
  unfold getTable GC.obj; rw [h]

/-- What a call of `shared_table_set` with a result does: it leaves every value record as it
was and either overwrites the value of the first entry whose key compares equal (hit), or
appends the pair (miss), or fails on a miss and leaves the container as it was. -/
theorem shared_table_set_spec {gc gc' : GC} {tbl key val : Nat} {r : Bool}
    (h : shared_table_set gc tbl key val = some (gc', r)) :
    ∃ t, getTable gc tbl = some t ∧ (∀ a, getStored gc' a = getStored gc a) ∧
      ((∃ idx oldk oldv, find_key_index gc t (getStored gc key) = some (some idx) ∧
          t.entries[idx]? = some (oldk, oldv) ∧ r = true ∧
          getTable gc' tbl = some { t with entries := t.entries.set idx (oldk, val) }) ∨
       (find_key_index gc t (getStored gc key) = some none ∧ r = true ∧
          ∃ c, getTable gc' tbl
            = some { t with entries := t.entries ++ [(key, val)], cap := c }) ∨
       (find_key_index gc t (getStored gc key) = some none ∧ r = false ∧
          getTable gc' tbl = some t)) := by
  unfold shared_table_set at h
  cases ht : getTable gc tbl with
  | none => simp [ht] at h
  | some t =>
    refine ⟨t, rfl, ?_⟩
    simp only [ht] at h
    cases hf : find_key_index gc t (getStored gc key) with
    | none => simp [hf] at h
    | some res =>
      cases res with
      | some idx =>
        simp only [hf] at h
        cases he : t.entries[idx]? with
        | none => simp [he] at h
        | some e =>
          obtain ⟨oldk, oldv⟩ := e
          simp only [he] at h
          have ht1 : getTable (gc_release gc oldv) tbl = some t := by
            rw [gc_release_getTable]; exact ht
          cases ha : gc_add_reference (setTable (gc_release gc oldv) tbl
              { t with entries := t.entries.set idx (oldk, val) }) tbl val with
          | none => simp [ha] at h
          | some gc3 =>
            simp only [ha, Option.some.injEq, Prod.mk.injEq] at h
            obtain ⟨h1, h2⟩ := h
            subst h1; subst h2
            refine ⟨?_, Or.inl ⟨idx, oldk, oldv, rfl, he, rfl, ?_⟩⟩
            · intro a
              rw [gc_add_reference_getStored ha, setTable_getStored _ ht1, gc_release_getStored]
            · rw [gc_add_reference_getTable ha]
              exact setTable_getTable _ ht1
      | none =>
        simp only [hf] at h
        cases hec : ensure_capacity gc t (t.entries.length + 1) with
        | mk gc1 res =>
          obtain ⟨hobjs, hres⟩ := ensure_capacity_spec hec
          have ht1 : getTable gc1 tbl = some t := by
            rw [getTable_of_objs hobjs]; exact ht
          simp only [hec] at h
          rcases hres with hres | hres | ⟨c, hres⟩
          · subst hres
            simp only [Option.some.injEq, Prod.mk.injEq] at h
            obtain ⟨h1, h2⟩ := h
            subst h1; subst h2
            exact ⟨fun a => getStored_of_objs hobjs a, Or.inr (Or.inr ⟨rfl, rfl, ht1⟩)⟩
          · subst hres
            simp at h
          · subst hres
            simp only at h
            cases ha1 : gc_add_reference (setTable gc1 tbl
                { entries := t.entries ++ [(key, val)], cap := c, metatable := t.metatable })
                tbl key with
            | none => simp [ha1] at h
            | some gc3 =>
              simp only [ha1] at h
              cases ha2 : gc_add_reference gc3 tbl val with
              | none => simp [ha2] at h
              | some gc4 =>
                simp only [ha2, Option.some.injEq, Prod.mk.injEq] at h
                obtain ⟨h1, h2⟩ := h
                subst h1; subst h2
                refine ⟨?_, Or.inr (Or.inl ⟨rfl, rfl, c, ?_⟩)⟩
                · intro a
                  rw [gc_add_reference_getStored ha2, gc_add_reference_getStored ha1,
                    setTable_getStored _ ht1, getStored_of_objs hobjs]
                · rw [gc_add_reference_getTable ha2, gc_add_reference_getTable ha1]
                  exact setTable_getTable _ ht1

theorem map_fst_set (l : List (Nat × Nat)) (idx oldk oldv v : Nat)
    (h : l[idx]? = some (oldk, oldv)) :
    (l.set idx (oldk, v)).map Prod.fst = l.map Prod.fst := by
  apply List.ext_getElem?
  intro j
  simp only [List.getElem?_map, List.getElem?_set]
  by_cases hj : idx = j
  · subst hj
    have hlt : idx < l.length := by
      by_contra hge
      rw [List.getElem?_eq_none (by omega)] at h; cases h
    simp [hlt, h]
  · simp [hj]

/-- C7: get after set.  For every container `tbl`, key record `key` (with content `k`) and
value record `val`: if `shared_table_set` returns 1, then `shared_table_get` with that key
returns the pointer `val`. -/
theorem get_after_set (gc gc' : GC) (tbl key val : Nat) (k : StoredObject)
    (hk : getStored gc key = some k)
    (h : shared_table_set gc tbl key val = some (gc', true)) :
    getStored gc' key = some k ∧
      shared_table_get gc' tbl (getStored gc' key) = some (some val) := by
  obtain ⟨t, ht, hst, hcase⟩ := shared_table_set_spec h
  have hk' : getStored gc' key = some k := (hst key).trans hk
  refine ⟨hk', ?_⟩
  rw [hk']
  rw [hk] at hcase
  rcases hcase with ⟨idx, oldk, oldv, hf, he, _, ht'⟩ | ⟨hf, _, c, ht'⟩ | ⟨_, hr, _⟩
  · have hlt : idx < t.entries.length := by
      by_contra hge
      rw [List.getElem?_eq_none (by omega)] at he; cases he
    unfold shared_table_get
    simp only [ht']
    unfold find_key_index at hf ⊢
    simp only [map_fst_set t.entries idx oldk oldv val he]
    rw [find_key_from_congr hst, hf]
    simp [List.getElem?_set, hlt]
  · unfold shared_table_get
    simp only [ht']
    unfold find_key_index at hf ⊢
    have hf' : find_key_from gc' (some k) (t.entries.map Prod.fst) 0 = some none := by
      rw [find_key_from_congr hst]; exact hf
    simp only [List.map_append, List.map_cons, List.map_nil]
    rw [find_key_from_append_miss [key] _ 0 hf']
    simp only [find_key_from, hk', stored_compare_self, if_true, List.length_map, Nat.zero_add]
    simp
  · cases hr

theorem get_after_set_witness :
    getStored nil_value_gc 2 = some (.integer 1) ∧
      shared_table_set nil_value_gc 1 2 3 = some (nil_value_set_gc, true) ∧
      getStored nil_value_set_gc 2 = some (.integer 1) ∧
      shared_table_get nil_value_set_gc 1
        (getStored nil_value_set_gc 2) = some (some 3) :=
  ⟨by decide, by decide,
    get_after_set nil_value_gc _ 1 2 3 (.integer 1) (by decide) (by decide)⟩

/-- C8 fails on the code.  Container 1 is built from empty by two sets with the Float keys
`1.0` and `2.0`.  `stored_compare` returns 0 whenever one Float is NaN, so `delete(t, NaN)`
removes the entry of `1.0`, and `get(t, NaN)` afterwards returns the value record 5 stored
under `2.0` instead of NULL. -/
theorem get_after_delete_nan :
    floats_run.map (fun g => (getTable g 1).map (fun t => t.entries)) =
      some (some [(2, 3), (4, 5)]) ∧
    floats_run.map (fun g => (getStored g 2, getStored g 4)) =
      some (some (.number (.fin 1 0)), some (.number (.fin 2 0))) ∧
    shared_table_size floats_gc 1 = some 2 ∧
    (shared_table_delete floats_gc 1 (some (.number .nan))).map
        (fun g => (getTable g 1).map (fun t => t.entries)) = some (some [(4, 5)]) ∧
    (shared_table_delete floats_gc 1 (some (.number .nan))).map
        (fun g => (shared_table_size g 1, shared_table_get g 1 (some (.number .nan)))) =
      some (some 1, some (some 5)) := by
  decide

/-- C9 as stated fails: on the empty container 1, `set` with the key record 2 (Integer 1) and
the Nil record 3 as value returns 1 and takes the size from 0 to 1. -/
theorem set_nil_value_grows :
    getStored nil_value_gc 3 = some .nil ∧
    shared_table_size nil_value_gc 1 = some 0 ∧
    (shared_table_set nil_value_gc 1 2 3).map (fun r => (r.2, shared_table_size r.1 1)) =
      some (true, some 1) := by
  decide

/-- C9, amended: for every container, key record (with content `k`) and value record, the size
after a `shared_table_set` with a result minus the size before is 0 or 1, and it is 1 exactly
when the call returns 1 and no stored key compares equal to `k`; the kind of the value
record plays no part. -/
theorem set_size_change (gc gc' : GC) (tbl key val : Nat) (r : Bool) (k : StoredObject)
    (hk : getStored gc key = some k)
    (h : shared_table_set gc tbl key val = some (gc', r)) :
    ∃ t n', getTable gc tbl = some t ∧ shared_table_size gc tbl = some t.entries.length ∧
      shared_table_size gc' tbl = some n' ∧
      (n' = t.entries.length ∨ n' = t.entries.length + 1) ∧
      (n' = t.entries.length + 1 ↔
        (r = true ∧ ∀ e ∈ t.entries, ∀ s, getStored gc e.1 = some s → stored_compare s k ≠ 0)) := by
  obtain ⟨t, ht, hst, hcase⟩ := shared_table_set_spec h
  rw [hk] at hcase
  have hsize : shared_table_size gc tbl = some t.entries.length := by
    simp [shared_table_size, ht]
  have hmiss : find_key_index gc t (some k) = some none →
      ∀ e ∈ t.entries, ∀ s, getStored gc e.1 = some s → stored_compare s k ≠ 0 := by
    intro hf e he s hs
    obtain ⟨s', x, hs', hx, hne⟩ :=
      find_key_from_missing _ 0 hf e.1 (List.mem_map.2 ⟨e, he, rfl⟩)
    cases hx
    rw [hs] at hs'
    cases hs'
    exact hne
  rcases hcase with ⟨idx, oldk, oldv, hf, he, hr, ht'⟩ | ⟨hf, hr, c, ht'⟩ | ⟨hf, hr, ht'⟩
  · refine ⟨t, t.entries.length, ht, hsize, by simp [shared_table_size, ht'], Or.inl rfl, ?_⟩
    constructor
    · intro hcontra; omega
    · rintro ⟨_, hall⟩
      exfalso
      obtain ⟨_, _, k', s, x, hk', hs, hx, hc⟩ := find_key_from_found _ 0 idx hf
      cases hx
      have hmem : k' ∈ t.entries.map Prod.fst := List.getElem?_mem hk'
      obtain ⟨e, he', hek⟩ := List.mem_map.1 hmem
      exact hall e he' s (hek ▸ hs) hc
  · refine ⟨t, t.entries.length + 1, ht, hsize, by simp [shared_table_size, ht'], Or.inr rfl, ?_⟩
    constructor
    · intro _; exact ⟨hr, hmiss hf⟩
    · intro _; rfl
  · refine ⟨t, t.entries.length, ht, hsize, by simp [shared_table_size, ht'], Or.inl rfl, ?_⟩
    constructor
    · intro hcontra; omega
    · rintro ⟨hr', _⟩
      rw [hr] at hr'; cases hr'

theorem set_size_change_witness :
    getStored nil_value_gc 2 = some (.integer 1) ∧
      shared_table_set nil_value_gc 1 2 3 = some (nil_value_set_gc, true) ∧
      ∃ t n', getTable nil_value_gc 1 = some t ∧
        shared_table_size nil_value_gc 1 = some t.entries.length ∧
        shared_table_size nil_value_set_gc 1 = some n' ∧
        (n' = t.entries.length ∨ n' = t.entries.length + 1) ∧
        (n' = t.entries.length + 1 ↔
          (true = true ∧ ∀ e ∈ t.entries, ∀ s, getStored nil_value_gc e.1 = some s →
            stored_compare s (.integer 1) ≠ 0)) :=
  ⟨by decide, by decide,
    set_size_change nil_value_gc _ 1 2 3 true (.integer 1) (by decide) (by decide)⟩

theorem stored_compare_integer_eq {s : StoredObject} {i : Int}
    (h : stored_compare s (.integer i) = 0) : s = .integer i := by
  cases s <;> simp [stored_compare, StoredObject.type, StoredType.ord] at h
  case integer n =>
    by_cases h1 : n < i
    · simp [h1] at h
    · by_cases h2 : i < n
      · simp [h1, h2] at h
      · have : n = i := by omega
        rw [this]

theorem find_key_from_total {gc : GC} {x : StoredObject} :
    ∀ (keys : List Nat) (i : Nat), (∀ k ∈ keys, (getStored gc k).isSome) →
      ∃ r, find_key_from gc (some x) keys i = some r := by
  intro keys
  induction keys with
  | nil => intro i _; exact ⟨none, rfl⟩
  | cons k ks ih =>
    intro i hall
    have hk := hall k (List.mem_cons_self _ _)
    cases hs : getStored gc k with
    | none => simp [hs] at hk
    | some s =>
      by_cases hc : stored_compare s x = 0
      · exact ⟨some i, by simp [find_key_from, hs, hc]⟩
      · obtain ⟨r, hr⟩ := ih (i + 1) (fun k' hk' => hall k' (List.mem_cons_of_mem _ hk'))
        exact ⟨r, by simp [find_key_from, hs, hc, hr]⟩

theorem max_int_key_spec {gc : GC} :
    ∀ (keys : List Nat) (m0 : Nat), (∀ k ∈ keys, (getStored gc k).isSome) →
      ∃ max, max_int_key gc keys m0 = some max ∧ m0 ≤ max ∧
        ∀ k ∈ keys, ∀ n : Int, getStored gc k = some (.integer n) → 0 < n → n.toNat ≤ max := by
  intro keys
  induction keys with
  | nil => intro m0 _; exact ⟨m0, rfl, Nat.le_refl _, by simp⟩
  | cons k ks ih =>
    intro m0 hall
    have hk := hall k (List.mem_cons_self _ _)
    have hrest : ∀ k' ∈ ks, (getStored gc k').isSome :=
      fun k' hk' => hall k' (List.mem_cons_of_mem _ hk')
    cases hs : getStored gc k with
    | none => simp [hs] at hk
    | some s =>
      have other : (∀ n : Int, s = .integer n → ¬ (0 < n ∧ m0 < n.toNat)) →
          max_int_key gc (k :: ks) m0 = max_int_key gc ks m0 := by
        intro hno
        cases s with
        | integer n =>
          have := hno n rfl
          by_cases hpos : n > 0
          · have hle : ¬ n.toNat > m0 := fun hgt => this ⟨hpos, hgt⟩
            simp [max_int_key, hs, hpos, hle]
          · simp [max_int_key, hs, hpos]
        | _ => simp [max_int_key, hs]
      by_cases hbig : ∃ n : Int, s = .integer n ∧ 0 < n ∧ m0 < n.toNat
      · obtain ⟨n, hn, hpos, hgt⟩ := hbig
        subst hn
        obtain ⟨max, h1, h2, h3⟩ := ih n.toNat hrest
        refine ⟨max, ?_, by omega, ?_⟩
        · simp [max_int_key, hs, hpos, hgt, h1]
        · intro k' hk' n' hn' hpos'
          rcases List.mem_cons.1 hk' with hk'' | hk''
          · subst hk''
            rw [hs] at hn'
            cases hn'
            exact h2
          · exact h3 k' hk'' n' hn' hpos'
      · have hno : ∀ n : Int, s = .integer n → ¬ (0 < n ∧ m0 < n.toNat) :=
          fun n hn hc => hbig ⟨n, hn, hc.1, hc.2⟩
        obtain ⟨max, h1, h2, h3⟩ := ih m0 hrest
        refine ⟨max, (other hno).trans h1, h2, ?_⟩
        intro k' hk' n' hn' hpos'
        rcases List.mem_cons.1 hk' with hk'' | hk''
        · subst hk''
          rw [hs] at hn'
          cases hn'
          have := hno n' rfl
          have : ¬ m0 < n'.toNat := fun hlt => this ⟨hpos', hlt⟩
          omega
        · exact h3 k' hk'' n' hn' hpos'

theorem length_loop_spec {gc : GC} (keys : List Nat) (max : Nat)
    (hall : ∀ k ∈ keys, (getStored gc k).isSome)
    (hmax : ∀ i : Nat, max < i → find_key_from gc (some (.integer i)) keys 0 = some none) :
    ∀ (fuel i len : Nat), fuel + i = max + 1 → len + 1 = i →
      (∀ j : Nat, 1 ≤ j → j < i → ∃ idx, find_key_from gc (some (.integer j)) keys 0 = some (some idx)) →
      ∃ n, length_loop gc keys max fuel i len = some n ∧
        (∀ j : Nat, 1 ≤ j → j ≤ n →
          ∃ idx, find_key_from gc (some (.integer j)) keys 0 = some (some idx)) ∧
        find_key_from gc (some (.integer ((n + 1 : Nat) : Int))) keys 0 = some none := by
  intro fuel
  induction fuel with
  | zero =>
    intro i len hf hl hpre
    refine ⟨len, rfl, ?_, ?_⟩
    · intro j h1 h2; exact hpre j h1 (by omega)
    · exact hmax (len + 1) (by omega)
  | succ fuel ih =>
    intro i len hf hl hpre
    have hle : i ≤ max := by omega
    obtain ⟨r, hr⟩ := find_key_from_total (x := .integer (i : Int)) keys 0 hall
    cases r with
    | none =>
      refine ⟨len, ?_, ?_, ?_⟩
      · simp [length_loop, hle, hr]
      · intro j h1 h2; exact hpre j h1 (by omega)
      · rw [hl]; exact hr
    | some idx =>
      obtain ⟨n, h1, h2, h3⟩ := ih (i + 1) (len + 1) (by omega) (by omega) (by
        intro j hj1 hj2
        by_cases hji : j < i
        · exact hpre j hj1 hji
        · have : j = i := by omega
          subst this
          exact ⟨idx, hr⟩)
      exact ⟨n, by simp [length_loop, hle, hr, h1], h2, h3⟩

theorem get_eq_of_find {gc : GC} {tbl : Nat} {t : SharedTable} (ht : getTable gc tbl = some t)
    (x : StoredObject) :
    (find_key_from gc (some x) (t.entries.map Prod.fst) 0 = some none →
        shared_table_get gc tbl (some x) = some none) ∧
    (∀ idx, find_key_from gc (some x) (t.entries.map Prod.fst) 0 = some (some idx) →
        ∃ v, shared_table_get gc tbl (some x) = some (some v)) := by
  constructor
  · intro h
    simp [shared_table_get, ht, find_key_index, h]
  · intro idx h
    obtain ⟨_, hlt, _⟩ := find_key_from_found _ 0 idx h
    simp only [List.length_map, Nat.zero_add] at hlt
    have he : t.entries[idx]? = some t.entries[idx] := List.getElem?_eq_getElem hlt
    refine ⟨t.entries[idx].2, ?_⟩
    simp [shared_table_get, ht, find_key_index, h, he]

/-- C10: `shared_table_length` of a container whose key slots all point to value records is
the largest `n >= 0` such that for every `i` in `1..n` the lookup of the Integer key `i` is
not NULL. -/
theorem length_is_longest_prefix (gc : GC) (tbl : Nat) (t : SharedTable)
    (ht : getTable gc tbl = some t)
    (hkeys : ∀ e ∈ t.entries, (getStored gc e.1).isSome) :
    ∃ n, shared_table_length gc tbl = some n ∧
      (∀ i : Nat, 1 ≤ i → i ≤ n →
        ∃ v, shared_table_get gc tbl (some (.integer i)) = some (some v)) ∧
      (∀ m : Nat, (∀ i : Nat, 1 ≤ i → i ≤ m →
          ∃ v, shared_table_get gc tbl (some (.integer i)) = some (some v)) → m ≤ n) := by
  have hall : ∀ k ∈ t.entries.map Prod.fst, (getStored gc k).isSome := by
    intro k hk
    obtain ⟨e, he, rfl⟩ := List.mem_map.1 hk
    exact hkeys e he
  obtain ⟨max, hmax, _, hbound⟩ := max_int_key_spec (t.entries.map Prod.fst) 0 hall
  have hbeyond : ∀ i : Nat, max < i →
      find_key_from gc (some (.integer i)) (t.entries.map Prod.fst) 0 = some none := by
    intro i hi
    obtain ⟨r, hr⟩ := find_key_from_total (x := .integer (i : Int)) (t.entries.map Prod.fst) 0 hall
    cases r with
    | none => exact hr
    | some idx =>
      exfalso
      obtain ⟨_, _, k, s, x, hk, hs, hx, hc⟩ := find_key_from_found _ 0 idx hr
      cases hx
      have hsi := stored_compare_integer_eq hc
      subst hsi
      have := hbound k (List.getElem?_mem hk) (i : Int) hs (by omega)
      simp at this
      omega
  obtain ⟨n, hn, hpre, hstop⟩ :=
    length_loop_spec (t.entries.map Prod.fst) max hall hbeyond max 1 0 (by omega) rfl
      (fun j h1 h2 => by omega)
  refine ⟨n, by simp [shared_table_length, ht, hmax, hn], ?_, ?_⟩
  · intro i h1 h2
    obtain ⟨idx, hidx⟩ := hpre i h1 h2
    exact (get_eq_of_find ht (.integer i)).2 idx hidx
  · intro m hm
    by_contra hlt
    obtain ⟨v, hv⟩ := hm (n + 1) (by omega) (by omega)
    have := (get_eq_of_find ht (.integer ((n + 1 : Nat) : Int))).1 hstop
    rw [this] at hv
    cases hv

theorem length_is_longest_prefix_witness :
    getTable length_gc 1 = some length_tbl ∧
      (∀ e ∈ length_tbl.entries, (getStored length_gc e.1).isSome) ∧
      shared_table_length length_gc 1 = some 2 ∧
      ∃ n, shared_table_length length_gc 1 = some n ∧
        (∀ i : Nat, 1 ≤ i → i ≤ n →
          ∃ v, shared_table_get length_gc 1 (some (.integer i)) = some (some v)) ∧
        (∀ m : Nat, (∀ i : Nat, 1 ≤ i → i ≤ m →
            ∃ v, shared_table_get length_gc 1 (some (.integer i)) = some (some v)) → m ≤ n) :=
  ⟨by decide, by decide, by decide,
    length_is_longest_prefix length_gc 1 length_tbl (by decide) (by decide)⟩

/-! ## Reference counting and the trigger: C18, C19, C20 -/

theorem refCount_retain (gc : GC) (o : Nat) :
    (gc_retain gc o).refCount o = (gc.refCount o).map (fun c => c + 1) := by
  unfold GC.refCount gc_retain GC.obj
  simp only [lookup_updObj, if_true]
  cases gc.objs.lookup o <;> simp

theorem refCount_release (gc : GC) (o : Nat) :
    (gc_release gc o).refCount o = (gc.refCount o).map (fun c => c - 1) := by
  unfold GC.refCount gc_release GC.obj
  simp only [lookup_updObj, if_true]
  cases gc.objs.lookup o <;> simp

theorem CInt.wrap_self (c : CInt) : CInt.wrap c.val = c := by
  apply CInt.ext_val
  have := c.range
  rw [CInt.wrap_val]
  unfold wrap_int
  omega

theorem refCount_ref_ops (o : Nat) (ops : List Bool) :
    ∀ gc : GC, (ref_ops gc o ops).refCount o
      = (gc.refCount o).map (fun c => CInt.wrap (c.val + ref_depth ops)) := by
  induction ops with
  | nil => intro gc; simp [ref_ops, ref_depth, CInt.wrap_self]
  | cons op rest ih =>
    intro gc
    simp only [ref_ops, List.foldl_cons] at ih ⊢
    rw [ih]
    cases op
    · simp only [ref_op, Bool.false_eq_true, if_false, refCount_release, ref_depth]
      cases gc.refCount o with
      | none => rfl
      | some c =>
        simp only [Option.map_some']
        congr 1
        apply CInt.ext_val
        rw [CInt.wrap_val, CInt.wrap_val, CInt.sub_val, CInt.one_val]
        unfold wrap_int
        omega
    · simp only [ref_op, if_true, refCount_retain, ref_depth]
      cases gc.refCount o with
      | none => rfl
      | some c =>
        simp only [Option.map_some']
        congr 1
        apply CInt.ext_val
        rw [CInt.wrap_val, CInt.wrap_val, CInt.add_val, CInt.one_val]
        unfold wrap_int
        omega

theorem updObj_id (objs : List (Nat × GCObject)) (a : Nat) (f : GCObject → GCObject)
    (hf : ∀ o, f o = o) : updObj objs a f = objs := by
  induction objs with
  | nil => rfl
  | cons p rest ih =>
    simp only [updObj, List.map_cons] at ih ⊢
    rw [ih]
    split <;> simp [hf]

theorem updObj_updObj (objs : List (Nat × GCObject)) (a : Nat) (f g : GCObject → GCObject) :
    updObj (updObj objs a f) a g = updObj objs a (fun o => g (f o)) := by
  induction objs with
  | nil => rfl
  | cons p rest ih =>
    simp only [updObj, List.map_cons] at ih ⊢
    rw [ih]
    by_cases h : p.1 = a <;> simp [h]

/-- C18: balanced counting, as far as the count stays within `int`.  For every object `o`
with count `c` and every sequence of `gc_retain(o)` / `gc_release(o)` calls in which each
release is preceded by an unmatched retain and during which `c` plus the number of unmatched
retains never exceeds `INT_MAX`: after every prefix the count of `o` is `c` plus the number
of retains still unmatched, so at least `c`.  Without any condition on the sequence: after
calls with as many retains as releases the count is `c` again, and `gc_retain` followed by
`gc_release` changes nothing, on any object of any collector. -/
theorem balanced_refcount (gc : GC) (o : Nat) (c : CInt) (ops : List Bool)
    (hc : gc.refCount o = some c) (hnest : WellNested ops) (hfit : CountFits c ops) :
    (∀ n, ∃ c', (ref_ops gc o (ops.take n)).refCount o = some c' ∧ c ≤ c' ∧
        c'.val = c.val + ref_depth (ops.take n)) ∧
      (∀ calls, ref_depth calls = 0 → (ref_ops gc o calls).refCount o = some c) ∧
      (∀ g p, gc_release (gc_retain g p) p = g) := by
  refine ⟨?_, ?_, ?_⟩
  · intro n
    have hrange := c.range
    have hd : 0 ≤ ref_depth (ops.take n) ∧ c.val + ref_depth (ops.take n) ≤ 2147483647 := by
      by_cases hn : n ≤ ops.length
      · exact ⟨hnest n (List.mem_range.2 (by omega)), hfit n (List.mem_range.2 (by omega))⟩
      · have htake : ops.take n = ops := List.take_of_length_le (by omega)
        have h1 := hnest ops.length (List.mem_range.2 (by omega))
        have h2 := hfit ops.length (List.mem_range.2 (by omega))
        rw [List.take_length] at h1 h2
        rw [htake]; exact ⟨h1, h2⟩
    have hv : (CInt.wrap (c.val + ref_depth (ops.take n))).val
        = c.val + ref_depth (ops.take n) := by
      rw [CInt.wrap_val]; unfold wrap_int; omega
    refine ⟨CInt.wrap (c.val + ref_depth (ops.take n)), by rw [refCount_ref_ops, hc]; rfl,
      ?_, hv⟩
    rw [CInt.le_def, hv]; omega
  · intro calls hbal
    rw [refCount_ref_ops, hc, hbal]
    simp [CInt.wrap_self]
  · intro g p
    unfold gc_release gc_retain
    simp only [updObj_updObj]
    rw [updObj_id]
    intro o'
    cases o'
    simp [CInt.add_sub_one]

theorem balanced_refcount_witness :
    demo_gc.refCount 2 = some 2 ∧ WellNested [true, true, false, true, false, false] ∧
      CountFits 2 [true, true, false, true, false, false] ∧
      (∀ n, ∃ c', (ref_ops demo_gc 2
          ([true, true, false, true, false, false].take n)).refCount 2 = some c' ∧ 2 ≤ c' ∧
          c'.val = (2 : CInt).val
            + ref_depth ([true, true, false, true, false, false].take n)) ∧
      (∀ calls, ref_depth calls = 0 → (ref_ops demo_gc 2 calls).refCount 2 = some 2) ∧
      (∀ g p, gc_release (gc_retain g p) p = g) :=
  ⟨by decide, by decide, by decide,
    balanced_refcount demo_gc 2 2 [true, true, false, true, false, false]
      (by decide) (by decide) (by decide)⟩

/-- At `INT_MAX` one `gc_retain` wraps the count to `INT_MIN`.  In the sequence retain,
release the release is preceded by an unmatched retain, and after the first call the count
is below its initial value; after both calls it is the initial value again. -/
theorem retain_wraps_at_int_max :
    (int_max_gc.refCount 1).map CInt.val = some 2147483647 ∧
      WellNested [true, false] ∧
      ((ref_ops int_max_gc 1 ([true, false].take 1)).refCount 1).map CInt.val
        = some (-2147483648) ∧
      (¬ ∀ n, ∃ c', (ref_ops int_max_gc 1 ([true, false].take n)).refCount 1 = some c' ∧
        (2147483647 : CInt) ≤ c') ∧
      (ref_ops int_max_gc 1 [true, false]).refCount 1 = int_max_gc.refCount 1 := by
  refine ⟨by decide, by decide, by decide, ?_, by decide⟩
  intro h
  obtain ⟨c', hc', hle⟩ := h 1
  have h1 : (ref_ops int_max_gc 1 ([true, false].take 1)).refCount 1
      = some (CInt.wrap (-2147483648)) := by decide
  rw [h1] at hc'
  cases hc'
  exact absurd hle (by decide)

/-- C19: release does not free.  `gc_retain(o)` and `gc_release(o)` leave `count`,
`lastCleanup`, `enabled` and `step` as they are, keep the global list with the same objects
in the same order, change no object other than `o`, and of `o` they change only the count
(edges, colour, destructor and payload stay); so every object of the list, `o` included, is
still in the list after a release, whatever the count of `o` has become. -/
theorem release_does_not_free (gc : GC) (o : Nat) :
    (∀ g, g = gc_retain gc o ∨ g = gc_release gc o →
      proj norc g.objs = proj norc gc.objs ∧ g.ids = gc.ids ∧ g.count = gc.count ∧
      g.lastCleanup = gc.lastCleanup ∧ g.enabled = gc.enabled ∧ g.step = gc.step ∧
      (∀ a, a ≠ o → g.obj a = gc.obj a)) ∧
    (gc_release gc o).refCount o = (gc.refCount o).map (fun c => c - 1) ∧
    (∀ a, a ∈ gc.ids → a ∈ (gc_release gc o).ids) := by
  have hr : (gc_retain gc o).ids = gc.ids := by
    exact ids_updObj gc.objs o (fun x => { x with refCount := x.refCount + 1 })
  have hl : (gc_release gc o).ids = gc.ids := by
    exact ids_updObj gc.objs o (fun x => { x with refCount := x.refCount - 1 })
  refine ⟨?_, refCount_release gc o, ?_⟩
  · rintro g (hg | hg) <;> subst hg
    · refine ⟨?_, hr, rfl, rfl, rfl, rfl, ?_⟩
      · exact proj_updObj norc gc.objs o (fun x => { x with refCount := x.refCount + 1 })
          (fun _ => rfl)
      · intro a ha
        simp [gc_retain, GC.obj, lookup_updObj, ha]
    · refine ⟨?_, hl, rfl, rfl, rfl, rfl, ?_⟩
      · exact proj_updObj norc gc.objs o (fun x => { x with refCount := x.refCount - 1 })
          (fun _ => rfl)
      · intro a ha
        simp [gc_release, GC.obj, lookup_updObj, ha]
  · intro a ha
    rw [hl]; exact ha

theorem alloc_object_ids (gc : GC) (a : Nat) (ha : a ∈ gc.ids) :
    a ∈ (alloc_object gc).1.ids := by
  have h1o : gc.malloc.2.objs = gc.objs := malloc_objs gc
  have hobjs : gc.malloc.2.malloc.2.objs = gc.objs := by rw [malloc_objs, malloc_objs]
  simp only [alloc_object]
  cases h1 : gc.malloc.1
  · simp only [Bool.not_false, if_true]
    show a ∈ gc.malloc.2.objs.map Prod.fst
    rw [h1o]; exact ha
  · cases h2 : gc.malloc.2.malloc.1
    · simp only [Bool.not_false, Bool.not_true, if_true, Bool.false_eq_true, if_false]
      show a ∈ gc.malloc.2.malloc.2.objs.map Prod.fst
      rw [hobjs]; exact ha
    · simp only [Bool.not_true, Bool.false_eq_true, if_false]
      show a ∈ (gc.malloc.2.malloc.2.objs ++ _).map Prod.fst
      rw [hobjs, List.map_append, List.mem_append]
      exact Or.inl ha

/-- Where neither conversion nor the product is rounded, the trigger test of `gc_create` is
the comparison of the exact product `m / 2^e * lastCleanup` with `count`. -/
theorem trigger_exact {gc : GC} {m : Int} {e : Nat} (hstep : gc.step = .fin m e)
    (hm : (m * gc.lastCleanup).natAbs < 2 ^ 53) (he : e ≤ 1074)
    (hl : gc.lastCleanup < 2 ^ 53) (hc : gc.count < 2 ^ 53) :
    gc_trigger gc = (gc.enabled && decide (m * gc.lastCleanup ≤ gc.count * 2 ^ e)) := by
  simp only [gc_trigger, hstep, Double.ofNat_small _ hl, Double.ofNat_small _ hc, Double.mul]
  rw [Double.round_small _ _ hm (by omega)]
  simp [Double.ge]

/-- C20: trigger policy.  `gc_create` runs `gc_collect` before `alloc_object` if and only if,
in the state at entry, `enabled` is set and `count >= step * lastCleanup` holds, `*` and `>=`
being the operators of C on `double` (the product is rounded); after `gc_pause` a `gc_create`
only allocates, whatever `count` is, so every object stays in the list.  Where nothing is
rounded the test is the comparison of `count` with the exact product.  Where the product is
rounded the rounded product decides: with `step` the double `1.1` and `lastCleanup = 10` the
product is `11.0`, so `gc_create` collects at `count = 11` and does not at `count = 10`. -/
theorem create_trigger_policy (gc : GC) :
    ((gc.enabled = true ∧ Double.ge (Double.ofNat gc.count)
          (Double.mul gc.step (Double.ofNat gc.lastCleanup)) = true) →
        gc_create gc = (gc_collect gc).map alloc_object) ∧
    (¬ (gc.enabled = true ∧ Double.ge (Double.ofNat gc.count)
          (Double.mul gc.step (Double.ofNat gc.lastCleanup)) = true) →
        gc_create gc = some (alloc_object gc)) ∧
    (gc_create (gc_pause gc) = some (alloc_object (gc_pause gc)) ∧
      ∀ a ∈ gc.ids, a ∈ (alloc_object (gc_pause gc)).1.ids) ∧
    (∀ (m : Int) (e : Nat), gc.step = .fin m e → (m * gc.lastCleanup).natAbs < 2 ^ 53 →
      e ≤ 1074 → gc.lastCleanup < 2 ^ 53 → gc.count < 2 ^ 53 →
      (gc_trigger gc = true ↔ gc.enabled = true ∧ m * gc.lastCleanup ≤ gc.count * 2 ^ e)) ∧
    ((tenth_gc 11).enabled = true ∧ (tenth_gc 11).step = .fin 4953959590107546 52 ∧
      (tenth_gc 11).lastCleanup = 10 ∧ (tenth_gc 11).count = 11 ∧
      Double.mul (tenth_gc 11).step (Double.ofNat (tenth_gc 11).lastCleanup)
        = .fin 6192449487634432 49 ∧
      gc_create (tenth_gc 11) = (gc_collect (tenth_gc 11)).map alloc_object ∧
      gc_create (tenth_gc 11) ≠ some (alloc_object (tenth_gc 11)) ∧
      (tenth_gc 10).step = (tenth_gc 11).step ∧ (tenth_gc 10).lastCleanup = 10 ∧
      (tenth_gc 10).count = 10 ∧
      gc_create (tenth_gc 10) = some (alloc_object (tenth_gc 10))) := by
  refine ⟨?_, ?_, ⟨?_, ?_⟩, ?_, ?_⟩
  · rintro ⟨h1, h2⟩
    simp only [gc_create, gc_trigger, h1, h2, Bool.and_self, if_true]
    cases gc_collect gc <;> rfl
  · intro h
    have : gc_trigger gc = false := by
      simp only [gc_trigger]
      cases he : gc.enabled
      · simp
      · cases hg : Double.ge (Double.ofNat gc.count)
            (Double.mul gc.step (Double.ofNat gc.lastCleanup))
        · simp
        · exact absurd ⟨he, hg⟩ h
    simp [gc_create, this]
  · simp [gc_create, gc_trigger, gc_pause]
  · intro a ha
    exact alloc_object_ids (gc_pause gc) a ha
  · intro m e hstep hm he hl hc
    rw [trigger_exact hstep hm he hl hc]
    simp
  · refine ⟨?_, ?_, ?_, ?_, ?_, ?_, ?_, ?_, ?_, ?_, ?_⟩ <;> decide

/-! ## The comparison of value records: C13, C14, C15 -/

theorem memcmp_neg (x : List Nat) : ∀ (y : List Nat) (n : Nat), memcmp y x n = - memcmp x y n := by
  induction x with
  | nil => intro y n; cases y <;> simp [memcmp]
  | cons a rest ih =>
    intro y n
    cases y with
    | nil => simp [memcmp]
    | cons b bs =>
      cases n with
      | zero => simp [memcmp]
      | succ n =>
        simp only [memcmp]
        by_cases h : a = b
        · subst h; simp only [if_true]; exact ih bs n
        · have h' : ¬ b = a := fun e => h e.symm
          simp only [h, h', if_false]; omega

theorem type_ord_inj {a b : StoredType} (h : a.ord = b.ord) : a = b := by
  cases a <;> cases b <;> first | rfl | (simp [StoredType.ord] at h)

theorem ptr_compare_neg (x y : Nat) : ptr_compare y x = - ptr_compare x y := by
  unfold ptr_compare
  by_cases h1 : x < y
  · have h2 : ¬ y < x := by omega
    simp [h1, h2]
  · by_cases h2 : y < x
    · simp [h1, h2]
    · simp [h1, h2]

theorem ptr_compare_eq_zero (x y : Nat) : ptr_compare x y = 0 ↔ x = y := by
  unfold ptr_compare
  by_cases h1 : x < y
  · simp [h1]; omega
  · by_cases h2 : y < x
    · simp [h1, h2]; omega
    · simp [h1, h2]; omega

theorem stored_compare_boolean (x y : Bool) :
    stored_compare (.boolean x) (.boolean y) = if x = y then 0 else if x then 1 else -1 := rfl

theorem stored_compare_number (x y : Double) :
    stored_compare (.number x) (.number y)
      = if Double.lt x y then -1 else if Double.gt x y then 1 else 0 := rfl

theorem stored_compare_integer (x y : Int) :
    stored_compare (.integer x) (.integer y) = if x < y then -1 else if x > y then 1 else 0 :=
  rfl

theorem stored_compare_string (x y : List Nat) :
    stored_compare (.string x) (.string y)
      = if memcmp x y (if x.length < y.length then x.length else y.length) ≠ 0
        then memcmp x y (if x.length < y.length then x.length else y.length)
        else if x.length < y.length then -1 else if x.length > y.length then 1 else 0 := rfl

theorem stored_compare_lightuserdata (x y : Nat) :
    stored_compare (.lightuserdata x) (.lightuserdata y) = ptr_compare x y := rfl

theorem stored_compare_cfunction (x y : Nat) :
    stored_compare (.cfunction x) (.cfunction y) = ptr_compare x y := rfl

theorem stored_compare_function (f g : Option FunctionData) :
    stored_compare (.function f) (.function g)
      = ptr_compare (func_data_addr f) (func_data_addr g) := rfl

theorem stored_compare_table_copy (x y : Option TableCopy) :
    stored_compare (.table_copy x) (.table_copy y)
      = ptr_compare (table_copy_addr x) (table_copy_addr y) := rfl

theorem stored_compare_shared_table (x y : Nat) :
    stored_compare (.shared_table x) (.shared_table y) = ptr_compare x y := rfl

theorem Double.lt_asymm (x y : Double) (h : Double.lt x y = true) : Double.lt y x = false := by
  cases x <;> cases y <;> simp [Double.lt] at h ⊢
  omega

/-- The function `stored_compare` is antisymmetric: swapping the operands negates the
result. -/
theorem stored_compare_neg (a b : StoredObject) : stored_compare b a = - stored_compare a b := by
  by_cases ht : a.type = b.type
  · cases a <;> cases b <;> simp [StoredObject.type] at ht
    · rfl
    · rename_i x y
      cases x <;> cases y <;> rfl
    · rename_i x y
      rw [stored_compare_number, stored_compare_number]
      simp only [Double.gt]
      by_cases h1 : Double.lt x y = true
      · have h2 := Double.lt_asymm x y h1
        simp [h1, h2]
      · by_cases h2 : Double.lt y x = true
        · simp [h1, h2]
        · simp [h1, h2]
    · rename_i x y
      rw [stored_compare_integer, stored_compare_integer]
      by_cases h1 : x < y
      · have h2 : ¬ y < x := by omega
        simp [h1, h2]
      · by_cases h2 : y < x
        · simp [h1, h2]
        · simp [h1, h2]
    · rename_i x y
      rw [stored_compare_string, stored_compare_string]
      have hmin : (if y.length < x.length then y.length else x.length)
          = (if x.length < y.length then x.length else y.length) := by
        split <;> split <;> omega
      rw [hmin, memcmp_neg x y]
      by_cases hm : memcmp x y (if x.length < y.length then x.length else y.length) = 0
      · simp only [hm, neg_zero, ne_eq, not_true, if_false]
        by_cases h1 : x.length < y.length
        · have h2 : ¬ y.length < x.length := by omega
          simp [h1, h2]
        · by_cases h2 : y.length < x.length
          · simp [h1, h2]
          · simp [h1, h2]
      · have hm' : ¬ - memcmp x y (if x.length < y.length then x.length else y.length) = 0 := by
          omega
        simp only [ne_eq, hm, hm', not_false_eq_true, if_true]
    · rw [stored_compare_lightuserdata, stored_compare_lightuserdata, ptr_compare_neg]
    · rw [stored_compare_cfunction, stored_compare_cfunction, ptr_compare_neg]
    · rw [stored_compare_function, stored_compare_function, ptr_compare_neg]
    · rw [stored_compare_table_copy, stored_compare_table_copy, ptr_compare_neg]
    · rw [stored_compare_shared_table, stored_compare_shared_table, ptr_compare_neg]
  · have ht' : ¬ b.type = a.type := fun e => ht e.symm
    have hne : a.type.ord ≠ b.type.ord := fun e => ht (type_ord_inj e)
    simp only [stored_compare, ne_eq, ht, ht', not_false_eq_true, if_true]
    by_cases h1 : a.type.ord < b.type.ord
    · have h2 : ¬ b.type.ord < a.type.ord := by omega
      simp [h1, h2]
    · have h2 : b.type.ord < a.type.ord := by omega
      simp [h1, h2]

theorem stored_compare_zero_symm {a b : StoredObject} (h : stored_compare a b = 0) :
    stored_compare b a = 0 := by
  rw [stored_compare_neg, h]; rfl

theorem stored_compare_of_type_ne {a b : StoredObject} (h : a.type ≠ b.type) :
    stored_compare a b = if a.type.ord < b.type.ord then -1 else 1 := by
  simp [stored_compare, h]

theorem Double.lt_negtrans (x y z : Double) (hy : y ≠ .nan) (h : Double.lt z x = true) :
    Double.lt y x = true ∨ Double.lt z y = true := by
  cases x <;> cases y <;> cases z <;> simp [Double.lt] at h hy ⊢
  rename_i mx ex my ey mz ez
  by_contra hcon
  push_neg at hcon
  obtain ⟨h1, h2⟩ := hcon
  have pA : (0 : Int) < 2 ^ ex := by positivity
  have pB : (0 : Int) < 2 ^ ey := by positivity
  have pC : (0 : Int) < 2 ^ ez := by positivity
  generalize (2 : Int) ^ ex = A at *
  generalize (2 : Int) ^ ey = B at *
  generalize (2 : Int) ^ ez = C at *
  have e1 := mul_le_mul_of_nonneg_right h1 (le_of_lt pC)
  have e2 := mul_le_mul_of_nonneg_right h2 (le_of_lt pA)
  have e3 := mul_lt_mul_of_pos_right h (pB)
  nlinarith [e1, e2, e3]

theorem stored_compare_string_nil_nil : stored_compare (.string []) (.string []) = 0 := rfl

theorem stored_compare_string_nil_cons (b : Nat) (bs : List Nat) :
    stored_compare (.string []) (.string (b :: bs)) = -1 := by
  simp [stored_compare_string, memcmp]

theorem stored_compare_string_cons_nil (a : Nat) (as : List Nat) :
    stored_compare (.string (a :: as)) (.string []) = 1 := by
  simp [stored_compare_string, memcmp]

theorem stored_compare_string_cons_cons (a b : Nat) (as bs : List Nat) :
    stored_compare (.string (a :: as)) (.string (b :: bs))
      = if a = b then stored_compare (.string as) (.string bs) else (a : Int) - (b : Int) := by
  rw [stored_compare_string, stored_compare_string]
  have hmin : (if (a :: as).length < (b :: bs).length then (a :: as).length
      else (b :: bs).length)
      = (if as.length < bs.length then as.length else bs.length) + 1 := by
    simp only [List.length_cons]
    split <;> split <;> omega
  rw [hmin]
  by_cases hab : a = b
  · subst hab
    simp only [memcmp, if_true, List.length_cons, Nat.add_lt_add_iff_right, gt_iff_lt]
  · have hne : (a : Int) - (b : Int) ≠ 0 := by omega
    simp only [memcmp, hab, if_false, ne_eq, hne, not_false_eq_true, if_true]

theorem stored_compare_string_trans :
    ∀ (x y z : List Nat), stored_compare (.string x) (.string y) ≤ 0 →
      stored_compare (.string y) (.string z) ≤ 0 →
      stored_compare (.string x) (.string z) ≤ 0 := by
  intro x
  induction x with
  | nil =>
    intro y z _ _
    cases z with
    | nil => simp [stored_compare_string_nil_nil]
    | cons c cs => simp [stored_compare_string_nil_cons]
  | cons a as ih =>
    intro y z h1 h2
    cases y with
    | nil => simp [stored_compare_string_cons_nil] at h1
    | cons b bs =>
      cases z with
      | nil => simp [stored_compare_string_cons_nil] at h2
      | cons c cs =>
        rw [stored_compare_string_cons_cons] at h1 h2 ⊢
        by_cases hab : a = b
        · subst hab
          simp only [if_true] at h1
          by_cases hbc : a = c
          · subst hbc
            simp only [if_true] at h2 ⊢
            exact ih bs cs h1 h2
          · simp only [hbc, if_false] at h2 ⊢
            exact h2
        · simp only [hab, if_false] at h1
          by_cases hbc : b = c
          · subst hbc
            simp only [hab, if_false]
            exact h1
          · simp only [hbc, if_false] at h2
            have hac : ¬ a = c := by omega
            simp only [hac, if_false]
            omega

theorem ptr_compare_le (x y : Nat) : ptr_compare x y ≤ 0 ↔ x ≤ y := by
  unfold ptr_compare
  by_cases h1 : x < y
  · simp [h1]; omega
  · by_cases h2 : y < x
    · simp [h1, h2]
    · simp [h1, h2]; omega

theorem ptr_compare_trans (x y z : Nat) (h1 : ptr_compare x y ≤ 0) (h2 : ptr_compare y z ≤ 0) :
    ptr_compare x z ≤ 0 := by
  rw [ptr_compare_le] at *
  omega

theorem stored_compare_le_ord {a b : StoredObject} (h : stored_compare a b ≤ 0) :
    a.type.ord ≤ b.type.ord := by
  by_cases ht : a.type = b.type
  · rw [ht]
  · rw [stored_compare_of_type_ne ht] at h
    by_cases hlt : a.type.ord < b.type.ord
    · omega
    · simp [hlt] at h

/-- Apart from a NaN in the middle, `stored_compare` is transitive. -/
theorem stored_compare_trans (a b c : StoredObject) (hb : b ≠ .number .nan)
    (h1 : stored_compare a b ≤ 0) (h2 : stored_compare b c ≤ 0) : stored_compare a c ≤ 0 := by
  have o1 := stored_compare_le_ord h1
  have o2 := stored_compare_le_ord h2
  by_cases hac : a.type = c.type
  · have hab : a.type = b.type := by
      apply type_ord_inj
      have := congrArg StoredType.ord hac
      omega
    have hbc : b.type = c.type := hab.symm.trans hac
    cases a <;> cases b <;> simp [StoredObject.type] at hab <;>
      cases c <;> simp [StoredObject.type] at hbc
    · rfl
    · rename_i x y z
      revert h1 h2
      cases x <;> cases y <;> cases z <;> decide
    · rename_i x y z
      rw [stored_compare_number] at h1 h2 ⊢
      simp only [Double.gt] at h1 h2 ⊢
      have hy : y ≠ .nan := fun e => hb (by rw [e])
      by_cases hzx : Double.lt z x = true
      · rcases Double.lt_negtrans x y z hy hzx with h | h
        · have h' := Double.lt_asymm y x h
          simp [h, h'] at h1
        · have h' := Double.lt_asymm z y h
          simp [h, h'] at h2
      · by_cases hxz : Double.lt x z = true
        · simp [hxz]
        · simp [hxz, hzx]
    · rename_i x y z
      rw [stored_compare_integer] at h1 h2 ⊢
      have hxy : x ≤ y := by
        by_contra hgt
        have e1 : ¬ x < y := by omega
        have e2 : x > y := by omega
        simp [e1, e2] at h1
      have hyz : y ≤ z := by
        by_contra hgt
        have e1 : ¬ y < z := by omega
        have e2 : y > z := by omega
        simp [e1, e2] at h2
      by_cases e1 : x < z
      · simp [e1]
      · have e2 : ¬ x > z := by omega
        simp [e1, e2]
    · exact stored_compare_string_trans _ _ _ h1 h2
    · exact ptr_compare_trans _ _ _ h1 h2
    · exact ptr_compare_trans _ _ _ h1 h2
    · exact ptr_compare_trans _ _ _ h1 h2
    · exact ptr_compare_trans _ _ _ h1 h2
    · exact ptr_compare_trans _ _ _ h1 h2
  · rw [stored_compare_of_type_ne hac]
    have hne : a.type.ord ≠ c.type.ord := fun e => hac (type_ord_inj e)
    have hlt : a.type.ord < c.type.ord := by omega
    simp [hlt]

/-- C13, where the code departs from it.  `stored_compare` is reflexive, swapping the
operands flips the sign of the result, and it is transitive as long as the record in the
middle is not the Float NaN; with NaN in the middle it is not: the Float 2.0 compares equal
to NaN and NaN compares equal to the Float 1.0, while 2.0 compares greater than 1.0. -/
theorem compare_nan_not_transitive :
    (∀ a, stored_compare a a = 0) ∧
    (∀ a b, (stored_compare b a).sign = - (stored_compare a b).sign) ∧
    (∀ a b c, b ≠ .number .nan → stored_compare a b ≤ 0 → stored_compare b c ≤ 0 →
      stored_compare a c ≤ 0) ∧
    stored_compare (.number (.fin 2 0)) (.number .nan) = 0 ∧
    stored_compare (.number .nan) (.number (.fin 1 0)) = 0 ∧
    stored_compare (.number (.fin 2 0)) (.number (.fin 1 0)) = 1 := by
  refine ⟨stored_compare_self, ?_, stored_compare_trans, by decide, by decide, by decide⟩
  intro a b
  rw [stored_compare_neg, Int.sign_neg]

/-- C14 as stated fails: the two records returned by two calls
`stored_create_from_sharedtable(t)` are different objects (2 and 3), both SharedRef records
for container 1, and `stored_compare` on them returns 0. -/
theorem shared_refs_compare_equal :
    shared_ref_run.map Prod.snd = some (some 2, some 3) ∧
    getStored shared_ref_gc 2 = some (.shared_table 1) ∧
    getStored shared_ref_gc 3 = some (.shared_table 1) ∧
    stored_compare (.shared_table 1) (.shared_table 1) = 0 := by
  decide

/-- C14, amended: on two records of the same kind among LightPtr, NativeFn and SharedRef,
`stored_compare` returns 0 exactly when they wrap the same pointer; on two ScriptFn records
exactly when they hold the same `FunctionData` block, on two TableCopy records exactly when
they hold the same `TableCopy` block. -/
theorem compare_by_wrapped_pointer :
    (∀ x y, stored_compare (.lightuserdata x) (.lightuserdata y) = 0 ↔ x = y) ∧
    (∀ x y, stored_compare (.cfunction x) (.cfunction y) = 0 ↔ x = y) ∧
    (∀ x y, stored_compare (.shared_table x) (.shared_table y) = 0 ↔ x = y) ∧
    (∀ f g, stored_compare (.function f) (.function g) = 0
      ↔ func_data_addr f = func_data_addr g) ∧
    (∀ x y, stored_compare (.table_copy x) (.table_copy y) = 0
      ↔ table_copy_addr x = table_copy_addr y) :=
  ⟨fun x y => ptr_compare_eq_zero x y, fun x y => ptr_compare_eq_zero x y,
    fun x y => ptr_compare_eq_zero x y,
    fun f g => ptr_compare_eq_zero (func_data_addr f) (func_data_addr g),
    fun x y => ptr_compare_eq_zero (table_copy_addr x) (table_copy_addr y)⟩

/-- C15: records of different kinds.  For all records `a`, `b` of different kinds,
`stored_compare a b` is not 0, is negative exactly when the kind tag of `a` is the smaller
one, and is positive otherwise; and when `shared_table_set` with a key record of Integer 1
returns 1 on an empty container, `shared_table_get` with a Float key (such as 1.0) returns
NULL. -/
theorem compare_different_kinds (a b : StoredObject) (h : a.type ≠ b.type)
    (gc gc' : GC) (tbl key val : Nat) (t : SharedTable) (d : Double)
    (ht : getTable gc tbl = some t) (hempty : t.entries = [])
    (hk : getStored gc key = some (.integer 1))
    (hset : shared_table_set gc tbl key val = some (gc', true)) :
    stored_compare a b ≠ 0 ∧
      (stored_compare a b < 0 ↔ a.type.ord < b.type.ord) ∧
      (0 < stored_compare a b ↔ ¬ a.type.ord < b.type.ord) ∧
      stored_compare (.integer 1) (.number d) ≠ 0 ∧
      shared_table_get gc' tbl (some (.number d)) = some none := by
  have hab := stored_compare_of_type_ne h
  refine ⟨?_, ?_, ?_, by simp [stored_compare, StoredObject.type, StoredType.ord], ?_⟩
  · rw [hab]; split <;> simp
  · rw [hab]; split <;> simp [*]
  · rw [hab]; split <;> simp [*]
  · obtain ⟨t0, ht0, hst, hcase⟩ := shared_table_set_spec hset
    rw [ht] at ht0
    cases ht0
    have hk' : getStored gc' key = some (.integer 1) := (hst key).trans hk
    rcases hcase with ⟨idx, oldk, oldv, _, he, _, _⟩ | ⟨_, _, c, ht'⟩ | ⟨_, hr, _⟩
    · rw [hempty] at he; simp at he
    · unfold shared_table_get
      simp only [ht', hempty, List.nil_append, find_key_index, List.map_cons, List.map_nil,
        find_key_from, hk']
      simp [stored_compare, StoredObject.type, StoredType.ord]
    · cases hr

theorem compare_different_kinds_witness :
    (StoredObject.integer 1).type ≠ (StoredObject.number (.fin 1 0)).type ∧
      shared_table_set int_key_gc 1 2 3 = some (int_key_set_gc, true) ∧
      stored_compare (.integer 1) (.number (.fin 1 0)) ≠ 0 ∧
      (stored_compare (.integer 1) (.number (.fin 1 0)) < 0 ↔
        (StoredObject.integer 1).type.ord < (StoredObject.number (.fin 1 0)).type.ord) ∧
      (0 < stored_compare (.integer 1) (.number (.fin 1 0)) ↔
        ¬ (StoredObject.integer 1).type.ord < (StoredObject.number (.fin 1 0)).type.ord) ∧
      stored_compare (.integer 1) (.number (.fin 1 0)) ≠ 0 ∧
      shared_table_get int_key_set_gc 1 (some (.number (.fin 1 0))) = some none :=
  ⟨by decide, by decide,
    compare_different_kinds (.integer 1) (.number (.fin 1 0)) (by decide)
      int_key_gc int_key_set_gc 1 2 3 { entries := [], cap := 0, metatable := none } (.fin 1 0)
      (by decide) rfl (by decide) (by decide)⟩

/-! ## Metatable dispatch of the binding: C16, C17 -/

/-- C16, where the code departs from it.  After `t = table(nil); mt = table(nil);
rawset(mt, "__index", f, 0); setmetatable(t, mt)` with a script function `f`, the metatable
container has the single entry `"__index"`, a ScriptFn record, and `t` is empty; the indexed
read `t.missing` pushes nil and calls nothing.  With the key `"missing"` in place of
`"__index"` the metatable container has no `"__index"` entry, and the read `t.missing` calls
`f` (record 4).  After `c = table(nil); c.missing = 7; mt.__index = c; setmetatable(t, mt)`
the entry `"__index"` of the metatable container is a SharedRef to `c`, `c` maps `"missing"`
to 7, and the read `t.missing` pushes nil.  The write `mt.__index = f` of the example raises
an error and stores nothing: `stored_create` returns NULL for a function that lies on top of
the stack. -/
theorem index_looks_up_key_in_metatable :
    ((entries_of (meta_gc str_index) 2).map (fun es => es.map (fun e =>
        (e.1, e.2.map StoredObject.type)))
      = some [(some (.string str_index), some .STORED_FUNCTION)] ∧
     entries_of (meta_gc str_index) 1 = some [] ∧
     (l_shared_table_index LF (meta_gc str_index)
        [.userdata (some 1), .string str_missing]).map Prod.snd = some .nil) ∧
    ((entries_of (meta_gc str_missing) 2).map (fun es => es.map (fun e =>
        (e.1, e.2.map StoredObject.type)))
      = some [(some (.string str_missing), some .STORED_FUNCTION)] ∧
     entries_of (meta_gc str_missing) 1 = some [] ∧
     (l_shared_table_index LF (meta_gc str_missing)
        [.userdata (some 1), .string str_missing]).map Prod.snd = some (.called 4)) ∧
    (entries_of meta_ref_gc 1 = some [] ∧
     entries_of meta_ref_gc 2 = some [(some (.string str_index), some (.shared_table 3))] ∧
     entries_of meta_ref_gc 3 = some [(some (.string str_missing), some (.integer 7))] ∧
     (l_shared_table_index L0 meta_ref_gc
        [.userdata (some 1), .string str_missing]).map Prod.snd = some .nil) ∧
    ((l_shared_table_newindex LF one_table_gc
        [.userdata (some 1), .string str_index, .function 1]).map Prod.snd = some .error ∧
     (l_shared_table_newindex LF one_table_gc
        [.userdata (some 1), .string str_index, .function 1]).bind
          (fun r => entries_of r.1 1) = some []) := by
  refine ⟨⟨?_, ?_, ?_⟩, ⟨?_, ?_, ?_⟩, ⟨?_, ?_, ?_, ?_⟩, ?_, ?_⟩ <;> decide

/-- C17, where the code departs from it.  After `t = table(nil); mt = table(nil);
rawset(mt, "missing", f, 0); setmetatable(t, mt)` with a script function `f`, the metatable
container has no `"__newindex"` entry, and the indexed write `t.missing = 1` calls `f`
(record 4) and stores nothing in `t`.  With the key `"__newindex"` in place of `"missing"`,
the write `t.missing = 1` calls nothing and stores the pair in `t`. -/
theorem newindex_looks_up_key_in_metatable :
    ((entries_of (meta_gc str_missing) 2).map (fun es => es.map (fun e =>
        (e.1, e.2.map StoredObject.type)))
      = some [(some (.string str_missing), some .STORED_FUNCTION)] ∧
     entries_of (meta_gc str_missing) 1 = some [] ∧
     (l_shared_table_newindex LF (meta_gc str_missing)
         [.userdata (some 1), .string str_missing, .integer 1]).map Prod.snd = some (.called 4) ∧
     (l_shared_table_newindex LF (meta_gc str_missing)
         [.userdata (some 1), .string str_missing, .integer 1]).bind (fun r => entries_of r.1 1)
           = some []) ∧
    ((entries_of (meta_gc str_newindex) 2).map (fun es => es.map (fun e =>
        (e.1, e.2.map StoredObject.type)))
      = some [(some (.string str_newindex), some .STORED_FUNCTION)] ∧
     (l_shared_table_newindex LF (meta_gc str_newindex)
         [.userdata (some 1), .string str_missing, .integer 1]).map Prod.snd = some .ok ∧
     (l_shared_table_newindex LF (meta_gc str_newindex)
         [.userdata (some 1), .string str_missing, .integer 1]).bind (fun r => entries_of r.1 1)
      = some [(some (.string str_missing), some (.integer 1))]) := by
  refine ⟨⟨?_, ?_, ?_, ?_⟩, ?_, ?_, ?_⟩ <;> decide

/-! ## Iteration with `shared_table_next`: C11, C12 -/

theorem diffKeys_symm {gc : GC} {a b : Nat} (h : DiffKeys gc a b) : DiffKeys gc b a := by
  intro x y hx hy hc
  exact h y x hy hx (stored_compare_zero_symm hc)

theorem pairwise_of_getElem? {α : Type} {R : α → α → Prop} (l : List α)
    (h : ∀ (i j : Nat) (a b : α), i < j → l[i]? = some a → l[j]? = some b → R a b) :
    l.Pairwise R := by
  rw [List.pairwise_iff_getElem]
  intro i j hi hj hij
  exact h i j _ _ hij (List.getElem?_eq_getElem hi) (List.getElem?_eq_getElem hj)

theorem pairwise_getElem? {α : Type} {R : α → α → Prop} {l : List α} (h : l.Pairwise R)
    {i j : Nat} {a b : α} (hij : i < j) (ha : l[i]? = some a) (hb : l[j]? = some b) :
    R a b := by
  rw [List.pairwise_iff_getElem] at h
  have hi : i < l.length := by
    by_contra hge
    rw [List.getElem?_eq_none (by omega)] at ha; cases ha
  have hj : j < l.length := by
    by_contra hge
    rw [List.getElem?_eq_none (by omega)] at hb; cases hb
  have := h i j hi hj hij
  rw [List.getElem?_eq_getElem hi] at ha
  rw [List.getElem?_eq_getElem hj] at hb
  cases ha; cases hb
  exact this

/-- Moving the last element into slot `idx` and dropping the last slot keeps a symmetric
relation pairwise true. -/
theorem pairwise_swap_remove {α : Type} {R : α → α → Prop} (hsymm : ∀ a b, R a b → R b a)
    (l : List α) (idx : Nat) (last : α) (hlast : l.getLast? = some last)
    (h : l.Pairwise R) : ((l.set idx last).dropLast).Pairwise R := by
  have hlast' : l[l.length - 1]? = some last := by
    rw [← List.getLast?_eq_getElem?]; exact hlast
  apply pairwise_of_getElem?
  intro i j a b hij ha hb
  rw [List.getElem?_dropLast, List.length_set] at ha hb
  by_cases hj : j < l.length - 1
  · have hi : i < l.length - 1 := by omega
    simp only [hi, hj, if_true, List.getElem?_set] at ha hb
    by_cases h1 : idx = i
    · have h2 : ¬ idx = j := by omega
      have hil : idx < l.length := by omega
      simp only [h1, if_true, h2, if_false] at ha hb
      have hil' : i < l.length := by omega
      simp only [hil', if_true, Option.some.injEq] at ha
      subst ha
      have h3 : ¬ i = j := by omega
      simp only [h3, if_false] at hb
      exact hsymm _ _ (pairwise_getElem? h hj hb hlast')
    · by_cases h2 : idx = j
      · have hjl : idx < l.length := by omega
        simp only [h1, if_false] at ha
        simp only [h2, if_true] at hb
        rw [← h2] at hb
        simp only [hjl, if_true, Option.some.injEq] at hb
        subst hb
        exact pairwise_getElem? h hi ha hlast'
      · simp only [h1, h2, if_false] at ha hb
        exact pairwise_getElem? h hij ha hb
  · simp [hj] at hb

theorem mem_swap_remove {α : Type} (l : List α) (idx : Nat) (last : α)
    (hlast : l.getLast? = some last) {a : α} (ha : a ∈ (l.set idx last).dropLast) : a ∈ l := by
  rcases List.mem_or_eq_of_mem_set (List.mem_of_mem_dropLast ha) with h | h
  · exact h
  · subst h
    obtain ⟨ys, hys⟩ := List.getLast?_eq_some_iff.1 hlast
    rw [hys]; simp

theorem keysDistinct_congr {gc gc1 : GC} {es : List (Nat × Nat)}
    (h : ∀ a s, getStored gc a = some s → getStored gc1 a = some s)
    (hd : KeysDistinct gc es) : KeysDistinct gc1 es := by
  refine ⟨?_, ?_⟩
  · intro e he
    have := hd.1 e he
    cases hs : getStored gc e.1 with
    | none => rw [hs] at this; cases this
    | some s => rw [h _ _ hs]; rfl
  · have hall := hd.1
    have hp := hd.2
    clear hd
    induction es with
    | nil => exact List.Pairwise.nil
    | cons e rest ih =>
      rw [List.pairwise_cons] at hp ⊢
      refine ⟨?_, ih (fun e' he' => hall e' (List.mem_cons_of_mem _ he')) hp.2⟩
      intro f hf x y hx hy
      have he := hall e (List.mem_cons_self _ _)
      have hf' := hall f (List.mem_cons_of_mem _ hf)
      cases hs : getStored gc e.1 with
      | none => rw [hs] at he; cases he
      | some s =>
        cases hs' : getStored gc f.1 with
        | none => rw [hs'] at hf'; cases hf'
        | some s' =>
          have e1 : s = x := Option.some.inj ((h _ _ hs).symm.trans hx)
          have e2 : s' = y := Option.some.inj ((h _ _ hs').symm.trans hy)
          rw [← e1, ← e2]
          exact hp.1 f hf s s' hs hs'

/-- With pairwise different keys the lookup of the key of slot `i` finds slot `i`. -/
theorem find_key_from_self {gc : GC} :
    ∀ (es : List (Nat × Nat)) (off i : Nat) (e : Nat × Nat) (x : StoredObject),
      KeysDistinct gc es → es[i]? = some e → getStored gc e.1 = some x →
      find_key_from gc (some x) (es.map Prod.fst) off = some (some (off + i)) := by
  intro es
  induction es with
  | nil => intro off i e x _ he; simp at he
  | cons e0 rest ih =>
    intro off i e x hd he hx
    cases i with
    | zero =>
      simp only [List.getElem?_cons_zero, Option.some.injEq] at he
      subst he
      simp [find_key_from, hx, stored_compare_self]
    | succ i =>
      simp only [List.getElem?_cons_succ] at he
      have hmem : e ∈ rest := List.getElem?_mem he
      have hv := hd.1 e0 (List.mem_cons_self _ _)
      have hp := hd.2
      rw [List.pairwise_cons] at hp
      cases hs : getStored gc e0.1 with
      | none => rw [hs] at hv; cases hv
      | some s =>
        have hne : stored_compare s x ≠ 0 := hp.1 e hmem s x hs hx
        have hrest : KeysDistinct gc rest :=
          ⟨fun e' he' => hd.1 e' (List.mem_cons_of_mem _ he'), hp.2⟩
        have := ih (off + 1) i e x hrest he hx
        simp only [List.map_cons, find_key_from, hs, hne, if_false]
        rw [this]
        congr 2
        omega

/-- What a call of `shared_table_delete` with a result does: it leaves every value record as
it was and either changes nothing (no key compares equal) or moves the last entry into the
slot of the first entry whose key compares equal and drops the last slot. -/
theorem shared_table_delete_spec {gc gc1 : GC} {tbl : Nat} {key : Option StoredObject}
    (h : shared_table_delete gc tbl key = some gc1) :
    ∃ t, getTable gc tbl = some t ∧ (∀ a, getStored gc1 a = getStored gc a) ∧
      ((find_key_index gc t key = some none ∧ gc1 = gc) ∨
       (∃ idx last, find_key_index gc t key = some (some idx) ∧ idx < t.entries.length ∧
          t.entries.getLast? = some last ∧
          getTable gc1 tbl = some { t with entries := (t.entries.set idx last).dropLast })) := by
  unfold shared_table_delete at h
  cases ht : getTable gc tbl with
  | none => simp [ht] at h
  | some t =>
    refine ⟨t, rfl, ?_⟩
    simp only [ht] at h
    cases hf : find_key_index gc t key with
    | none => simp [hf] at h
    | some res =>
      cases res with
      | none =>
        simp only [hf, Option.some.injEq] at h
        subst h
        exact ⟨fun _ => rfl, Or.inl ⟨rfl, rfl⟩⟩
      | some idx =>
        simp only [hf] at h
        cases he : t.entries[idx]? with
        | none => simp [he] at h
        | some e =>
          cases hl : t.entries.getLast? with
          | none => simp [he, hl] at h
          | some last =>
            simp only [he, hl, Option.some.injEq] at h
            subst h
            have hlt : idx < t.entries.length := by
              by_contra hge
              rw [List.getElem?_eq_none (by omega)] at he; cases he
            have ht1 : getTable (gc_release (gc_release gc e.1) e.2) tbl = some t := by
              rw [gc_release_getTable, gc_release_getTable]; exact ht
            refine ⟨?_, Or.inr ⟨idx, last, rfl, hlt, rfl, ?_⟩⟩
            · intro a
              rw [setTable_getStored _ ht1, gc_release_getStored, gc_release_getStored]
            · exact setTable_getTable _ ht1

/-- In a container built from empty by set and delete the key pointers point to value records
and the keys are pairwise different. -/
theorem built_keysDistinct {tbl : Nat} {gc : GC} (hb : Built tbl gc) :
    ∃ t, getTable gc tbl = some t ∧ KeysDistinct gc t.entries := by
  induction hb with
  | empty gc t ht he =>
    refine ⟨t, ht, ?_⟩
    rw [he]
    exact ⟨by simp, List.Pairwise.nil⟩
  | set gc gc1 key val r _ hkey hset ih =>
    obtain ⟨t, ht, hd⟩ := ih
    obtain ⟨t0, ht0, hst, hcase⟩ := shared_table_set_spec hset
    rw [ht] at ht0
    cases ht0
    have hd1 : KeysDistinct gc1 t.entries :=
      keysDistinct_congr (fun a s hs => (hst a).trans hs) hd
    rcases hcase with ⟨idx, oldk, oldv, _, he, _, ht1⟩ | ⟨hf, _, c, ht1⟩ | ⟨_, _, ht1⟩
    · refine ⟨_, ht1, ?_⟩
      have hkeys := map_fst_set t.entries idx oldk oldv val he
      refine ⟨?_, ?_⟩
      · intro e hmem
        rcases List.mem_or_eq_of_mem_set hmem with h | h
        · exact hd1.1 e h
        · subst h
          exact hd1.1 (oldk, oldv) (List.getElem?_mem he)
      · have hp := hd1.2
        have hp' : (t.entries.map Prod.fst).Pairwise (DiffKeys gc1) := List.pairwise_map.2 hp
        rw [← hkeys] at hp'
        exact List.pairwise_map.1 hp'
    · refine ⟨_, ht1, ?_⟩
      cases hk : getStored gc key with
      | none => rw [hk] at hkey; cases hkey
      | some x =>
        rw [hk] at hf
        have hmiss := find_key_from_missing _ _ hf
        refine ⟨?_, ?_⟩
        · intro e hmem
          rcases List.mem_append.1 hmem with h | h
          · exact hd1.1 e h
          · simp only [List.mem_singleton] at h
            subst h
            rw [hst, hk]; rfl
        · show List.Pairwise _ (t.entries ++ [(key, val)])
          rw [List.pairwise_append]
          refine ⟨hd1.2, List.pairwise_singleton _ _, ?_⟩
          intro e he f hf'
          simp only [List.mem_singleton] at hf'
          subst hf'
          intro a b ha hb
          obtain ⟨s, x', hs, hx', hne⟩ := hmiss e.1 (List.mem_map_of_mem _ he)
          cases hx'
          rw [hst] at ha hb
          rw [hs] at ha
          rw [hk] at hb
          cases ha; cases hb
          exact hne
    · exact ⟨t, ht1, hd1⟩
  | delete gc gc1 key _ hdel ih =>
    obtain ⟨t, ht, hd⟩ := ih
    obtain ⟨t0, ht0, hst, hcase⟩ := shared_table_delete_spec hdel
    rw [ht] at ht0
    cases ht0
    have hd1 : KeysDistinct gc1 t.entries :=
      keysDistinct_congr (fun a s hs => (hst a).trans hs) hd
    rcases hcase with ⟨_, hgc⟩ | ⟨idx, last, _, _, hlast, ht1⟩
    · subst hgc
      exact ⟨t, ht, hd⟩
    · refine ⟨_, ht1, ?_, ?_⟩
      · intro e hmem
        exact hd1.1 e (mem_swap_remove t.entries idx last hlast hmem)
      · exact pairwise_swap_remove (fun a b h => diffKeys_symm h) t.entries idx last hlast hd1.2
  | frame gc gc1 _ htbl hst ih =>
    obtain ⟨t, ht, hd⟩ := ih
    exact ⟨t, htbl.trans ht, keysDistinct_congr hst hd⟩

/-- One step of the iteration: with pairwise different keys, `shared_table_next` with the key
of slot `i` returns the entry of slot `i + 1`, or the pair of NULLs after the last slot. -/
theorem shared_table_next_slot {gc : GC} {tbl : Nat} {t : SharedTable}
    (ht : getTable gc tbl = some t) (hd : KeysDistinct gc t.entries)
    {i : Nat} {e : Nat × Nat} (he : t.entries[i]? = some e) :
    shared_table_next gc tbl (some (getStored gc e.1)) = some t.entries[i + 1]? := by
  have hi : i < t.entries.length := by
    by_contra hge
    rw [List.getElem?_eq_none (by omega)] at he; cases he
  have hv := hd.1 e (List.getElem?_mem he)
  cases hx : getStored gc e.1 with
  | none => rw [hx] at hv; cases hv
  | some x =>
    have hfind := find_key_from_self t.entries 0 i e x hd he hx
    rw [Nat.zero_add] at hfind
    have hne : ¬ t.entries.length = 0 := by omega
    simp only [shared_table_next, ht, hne, if_false, find_key_index, hfind]
    by_cases hlt : i + 1 < t.entries.length
    · simp [hlt]
    · simp only [hlt, if_false]
      rw [List.getElem?_eq_none (by omega)]

/-- The iteration from the key of slot `i` on returns the entries of the slots after `i`. -/
theorem next_walk_from {gc : GC} {tbl : Nat} {t : SharedTable}
    (ht : getTable gc tbl = some t) (hd : KeysDistinct gc t.entries) :
    ∀ (m i : Nat) (e : Nat × Nat), i + m = t.entries.length → t.entries[i]? = some e →
      next_walk gc tbl m (some e.1) = some (t.entries.drop (i + 1)) := by
  intro m
  induction m with
  | zero =>
    intro i e hm he
    rw [List.getElem?_eq_none (by omega)] at he; cases he
  | succ m ih =>
    intro i e hm he
    simp only [next_walk, Option.map_some']
    rw [shared_table_next_slot ht hd he]
    cases hnext : t.entries[i + 1]? with
    | none =>
      have : t.entries.length ≤ i + 1 := by
        by_contra hlt
        rw [List.getElem?_eq_getElem (by omega)] at hnext; cases hnext
      simp only
      rw [List.drop_eq_nil_of_le this]
    | some e1 =>
      have hlt : i + 1 < t.entries.length := by
        by_contra hge
        rw [List.getElem?_eq_none (by omega)] at hnext; cases hnext
      simp only
      rw [ih (i + 1) e1 (by omega) hnext]
      rw [List.getElem?_eq_getElem hlt] at hnext
      cases hnext
      simp only [Option.map_some']
      rw [← List.drop_eq_getElem_cons hlt]

/-- The iteration from the NULL key returns all entries, in array order, and then the pair of
NULLs, in one call more than there are entries. -/
theorem next_walk_entries {gc : GC} {tbl : Nat} {t : SharedTable}
    (ht : getTable gc tbl = some t) (hd : KeysDistinct gc t.entries) :
    next_walk gc tbl (t.entries.length + 1) none = some t.entries := by
  simp only [next_walk, Option.map_none', shared_table_next, ht]
  cases hes : t.entries with
  | nil => simp
  | cons e rest =>
    have he : t.entries[0]? = some e := by rw [hes]; simp
    have := next_walk_from ht hd t.entries.length 0 e (by omega) he
    rw [hes] at this
    simp only [List.length_cons, Nat.add_one_ne_zero, if_false, List.getElem?_cons_zero]
    simp only [List.length_cons] at this
    rw [this]
    simp

theorem keysDistinct_nodup {gc : GC} {es : List (Nat × Nat)} (hd : KeysDistinct gc es) :
    (es.map Prod.fst).Nodup := by
  unfold List.Nodup
  rw [List.pairwise_map]
  have hall := hd.1
  have hp := hd.2
  clear hd
  induction es with
  | nil => exact List.Pairwise.nil
  | cons e rest ih =>
    rw [List.pairwise_cons] at hp ⊢
    refine ⟨?_, ih (fun e' he' => hall e' (List.mem_cons_of_mem _ he')) hp.2⟩
    intro f hf heq
    have hv := hall e (List.mem_cons_self _ _)
    cases hs : getStored gc e.1 with
    | none => rw [hs] at hv; cases hv
    | some s =>
      have hs' : getStored gc f.1 = some s := by rw [← heq]; exact hs
      exact hp.1 f hf s s hs hs' (stored_compare_self s)

/-- Iteration over a container of `Built`, that is, one built from empty by calls of
`shared_table_set` and `shared_table_delete` each of which left the key array in place:
starting with the NULL key and passing back the returned key pointer, `shared_table_next`
returns the stored pairs slot by slot, each once (the key pointers are pairwise distinct),
and returns the pair of NULLs at call number `size + 1`; and for a key that is not stored
(`shared_table_get` returns NULL) it returns the pair of NULLs. -/
theorem built_iteration_complete (gc : GC) (tbl : Nat) (t : SharedTable)
    (hb : Built tbl gc) (ht : getTable gc tbl = some t) :
    next_walk gc tbl (t.entries.length + 1) none = some t.entries ∧
      shared_table_size gc tbl = some t.entries.length ∧
      (t.entries.map Prod.fst).Nodup ∧
      (∀ x, shared_table_get gc tbl (some x) = some none →
        shared_table_next gc tbl (some (some x)) = some none) := by
  obtain ⟨t0, ht0, hd⟩ := built_keysDistinct hb
  rw [ht] at ht0
  cases ht0
  refine ⟨next_walk_entries ht hd, by simp [shared_table_size, ht], keysDistinct_nodup hd, ?_⟩
  intro x hget
  unfold shared_table_get at hget
  simp only [ht] at hget
  unfold shared_table_next
  simp only [ht]
  by_cases hlen : t.entries.length = 0
  · simp [hlen]
  · simp only [hlen, if_false]
    cases hf : find_key_index gc t (some x) with
    | none => simp [hf] at hget
    | some res =>
      cases res with
      | none => rfl
      | some idx =>
        simp only [hf] at hget
        cases he : t.entries[idx]? with
        | none => simp [he] at hget
        | some e => simp [he] at hget

theorem walk_gc4_built : Built 1 walk_gc4 :=
  Built.delete walk_gc3 walk_gc4 (.integer 1)
    (Built.set walk_gc2 walk_gc3 6 7 true
      (Built.set walk_gc1 walk_gc2 4 5 true
        (Built.set walk_gc0 walk_gc1 2 3 true
          (Built.empty walk_gc0 { entries := [], cap := 0, metatable := none }
            (by decide) rfl)
          (by decide) (by decide))
        (by decide) (by decide))
      (by decide) (by decide))
    (by decide)

theorem built_iteration_complete_example :
    Built 1 walk_gc4 ∧ getTable walk_gc4 1 = some walk_tbl4 ∧
      walk_tbl4.entries = [(6, 7), (4, 5)] ∧
      next_walk walk_gc4 1 (walk_tbl4.entries.length + 1) none = some walk_tbl4.entries ∧
      shared_table_size walk_gc4 1 = some walk_tbl4.entries.length ∧
      (walk_tbl4.entries.map Prod.fst).Nodup ∧
      (∀ x, shared_table_get walk_gc4 1 (some x) = some none →
        shared_table_next walk_gc4 1 (some (some x)) = some none) :=
  ⟨walk_gc4_built, by decide, by decide,
    built_iteration_complete walk_gc4 1 walk_tbl4 walk_gc4_built (by decide)⟩

theorem builtBySets_set {tbl : Nat} {gc gc1 : GC} {log log1 : List Nat} {key val : Nat}
    {r : Bool} (hb : BuiltBySets tbl gc log) (hkey : (getStored gc key).isSome)
    (hset : shared_table_set gc tbl key val = some (gc1, r))
    (hlog : log1 = if r = true ∧ shared_table_get gc tbl (getStored gc key) = some none
      then log ++ [key] else log) : BuiltBySets tbl gc1 log1 := by
  rw [hlog]
  exact BuiltBySets.set gc gc1 log key val r hb hkey hset

/-- A container built by sets alone is a container built by set and delete, and its key
array is the list of key records in the order of their first insertion. -/
theorem builtBySets_spec {tbl : Nat} {gc : GC} {log : List Nat} (hb : BuiltBySets tbl gc log) :
    Built tbl gc ∧ ∃ t, getTable gc tbl = some t ∧ t.entries.map Prod.fst = log := by
  induction hb with
  | empty gc t ht he =>
    exact ⟨Built.empty gc t ht he, t, ht, by rw [he]; rfl⟩
  | set gc gc1 log key val r _ hkey hset ih =>
    obtain ⟨hbuilt, t, ht, hkeys⟩ := ih
    refine ⟨Built.set gc gc1 key val r hbuilt hkey hset, ?_⟩
    obtain ⟨t0, ht0, hst, hcase⟩ := shared_table_set_spec hset
    rw [ht] at ht0
    cases ht0
    rcases hcase with ⟨idx, oldk, oldv, hf, he, _, ht1⟩ | ⟨hf, hr, c, ht1⟩ | ⟨_, hr, ht1⟩
    · refine ⟨_, ht1, ?_⟩
      have hget : shared_table_get gc tbl (getStored gc key) = some (some oldv) := by
        simp [shared_table_get, ht, hf, he]
      have hno : ¬ (r = true ∧ shared_table_get gc tbl (getStored gc key) = some none) := by
        rw [hget]; simp
      rw [if_neg hno, ← hkeys]
      exact map_fst_set t.entries idx oldk oldv val he
    · refine ⟨_, ht1, ?_⟩
      have hget : shared_table_get gc tbl (getStored gc key) = some none := by
        simp [shared_table_get, ht, hf]
      have hyes : r = true ∧ shared_table_get gc tbl (getStored gc key) = some none :=
        ⟨hr, hget⟩
      rw [if_pos hyes]
      simp [hkeys]
    · refine ⟨_, ht1, ?_⟩
      have hno : ¬ (r = true ∧ shared_table_get gc tbl (getStored gc key) = some none) := by
        rw [hr]; simp
      rw [if_neg hno]
      exact hkeys
  | frame gc gc1 log _ htbl hst ih =>
    obtain ⟨hbuilt, t, ht, hkeys⟩ := ih
    exact ⟨Built.frame gc gc1 hbuilt htbl hst, t, htbl.trans ht, hkeys⟩

/-- C12 as stated fails.  The keys 1, 2, 3 are inserted in this order into the empty
container 1 (key records 2, 4, 6) and the key 1 is deleted: the iteration from the NULL key
then returns the key 3 before the key 2, although 2 was inserted first.  Had the key 2 or
the key 3 been deleted instead, the remaining keys would have kept their order. -/
theorem delete_breaks_insertion_order :
    walk_tbl3.entries.map (fun e => getStored walk_gc3 e.1)
      = [some (.integer 1), some (.integer 2), some (.integer 3)] ∧
    shared_table_delete walk_gc3 1 (some (.integer 1)) = some walk_gc4 ∧
    (next_walk walk_gc4 1 3 none).map (fun es => es.map (fun e => getStored walk_gc4 e.1))
      = some [some (.integer 3), some (.integer 2)] ∧
    (shared_table_delete walk_gc3 1 (some (.integer 2))).bind (fun g =>
        (next_walk g 1 3 none).map (fun es => es.map (fun e => getStored g e.1)))
      = some [some (.integer 1), some (.integer 3)] ∧
    (shared_table_delete walk_gc3 1 (some (.integer 3))).bind (fun g =>
        (next_walk g 1 3 none).map (fun es => es.map (fun e => getStored g e.1)))
      = some [some (.integer 1), some (.integer 2)] := by
  refine ⟨?_, ?_, ?_, ?_, ?_⟩ <;> decide

/-- Moving the last element into slot `idx` and dropping the last slot gives the list without
its element `idx`, in the same order, exactly when `idx` is the last or the next-to-last
slot (the elements being pairwise distinct). -/
theorem set_dropLast_eq_eraseIdx (l : List Nat) (idx last : Nat) (hnd : l.Nodup)
    (hidx : idx < l.length) (hlast : l.getLast? = some last) :
    (l.set idx last).dropLast = l.eraseIdx idx ↔ l.length ≤ idx + 2 := by
  have hl : l[l.length - 1]? = some last := by
    rw [← hlast, List.getLast?_eq_getElem?]
  constructor
  · intro h
    by_contra hgt
    have h1 := congrArg (fun x => x[idx]?) h
    simp only [List.dropLast_eq_take, List.getElem?_take, List.length_set,
      List.getElem?_eraseIdx] at h1
    rw [if_pos (by omega)] at h1
    simp only [List.getElem?_set, hidx, if_true, lt_self_iff_false, if_false] at h1
    have h2 : l[idx + 1]? = l[l.length - 1]? := by rw [hl]; exact h1.symm
    have hlt1 : idx + 1 < l.length := by omega
    have hlt2 : l.length - 1 < l.length := by omega
    rw [List.getElem?_eq_getElem hlt1, List.getElem?_eq_getElem hlt2] at h2
    have := (List.Nodup.getElem_inj_iff hnd).1 (Option.some.inj h2)
    omega
  · intro hle
    apply List.ext_getElem?
    intro j
    simp only [List.dropLast_eq_take, List.getElem?_take, List.length_set,
      List.getElem?_eraseIdx, List.getElem?_set]
    by_cases hj : j < l.length - 1
    · rw [if_pos hj]
      by_cases hji : j < idx
      · rw [if_pos hji, if_neg (by omega)]
      · rw [if_neg hji]
        have hjeq : idx = j := by omega
        subst hjeq
        simp only [if_true, hidx]
        have : idx + 1 = l.length - 1 := by omega
        rw [this, hl]
    · rw [if_neg hj]
      by_cases hji : j < idx
      · omega
      · rw [if_neg hji]
        rw [List.getElem?_eq_none (by omega)]

/-- C12, amended: iteration order is the order of the key array.  For every container built
from empty by calls of `shared_table_set` alone, each of which left the key array in place,
with `log` the key records in the order in which they were first inserted: the iteration
from the NULL key returns exactly the keys of `log`, in this order, and then the pair of
NULLs.  A `shared_table_delete` on such a container either finds no key and changes nothing,
or it finds the key in slot `idx`, moves the last key into that slot and drops the last
slot; the iteration then returns the keys in that new array order, and this is the order of
first insertion of the remaining keys if and only if `idx` was the last or the next-to-last
slot. -/
theorem next_order_without_delete (gc : GC) (tbl : Nat) (t : SharedTable) (log : List Nat)
    (hb : BuiltBySets tbl gc log) (ht : getTable gc tbl = some t) :
    (next_walk gc tbl (t.entries.length + 1) none).map (fun es => es.map Prod.fst)
      = some log ∧
    ∀ (key : StoredObject) (gc1 : GC), shared_table_delete gc tbl (some key) = some gc1 →
      (find_key_index gc t (some key) = some none ∧ gc1 = gc) ∨
      ∃ idx last t1, find_key_index gc t (some key) = some (some idx) ∧ idx < log.length ∧
        log.getLast? = some last ∧ getTable gc1 tbl = some t1 ∧
        (next_walk gc1 tbl (t1.entries.length + 1) none).map (fun es => es.map Prod.fst)
          = some (log.set idx last).dropLast ∧
        ((log.set idx last).dropLast = log.eraseIdx idx ↔ log.length ≤ idx + 2) := by
  obtain ⟨hbuilt, t0, ht0, hkeys⟩ := builtBySets_spec hb
  rw [ht] at ht0
  cases ht0
  obtain ⟨t1, ht1, hd⟩ := built_keysDistinct hbuilt
  rw [ht] at ht1
  cases ht1
  refine ⟨by rw [next_walk_entries ht hd]; simp [hkeys], ?_⟩
  intro key gc1 hdel
  obtain ⟨t2, ht2, _, hcase⟩ := shared_table_delete_spec hdel
  rw [ht] at ht2
  cases ht2
  rcases hcase with hmiss | ⟨idx, laste, hf, hlt, hlast, hres⟩
  · exact Or.inl hmiss
  · right
    have hlen : log.length = t.entries.length := by rw [← hkeys]; simp
    have hlast1 : log.getLast? = some laste.1 := by
      rw [← hkeys, List.getLast?_map, hlast]; rfl
    obtain ⟨t3, ht3, hd3⟩ := built_keysDistinct (Built.delete gc gc1 key hbuilt hdel)
    rw [hres] at ht3
    cases ht3
    refine ⟨idx, laste.1, _, hf, by omega, hlast1, hres, ?_, ?_⟩
    · rw [next_walk_entries hres hd3]
      simp only [Option.map_some', Option.some.injEq]
      rw [← hkeys, List.map_dropLast, List.map_set]
    · apply set_dropLast_eq_eraseIdx log idx laste.1 _ (by omega) hlast1
      rw [← hkeys]
      exact keysDistinct_nodup hd

theorem walk_gc3_sets : BuiltBySets 1 walk_gc3 [2, 4, 6] :=
  builtBySets_set
    (builtBySets_set
      (builtBySets_set
        (BuiltBySets.empty walk_gc0 { entries := [], cap := 0, metatable := none }
          (by decide) rfl)
        (by decide) (show shared_table_set walk_gc0 1 2 3 = some (walk_gc1, true) by decide)
        (show [2] = _ by decide))
      (by decide) (show shared_table_set walk_gc1 1 4 5 = some (walk_gc2, true) by decide)
      (show [2, 4] = _ by decide))
    (by decide) (show shared_table_set walk_gc2 1 6 7 = some (walk_gc3, true) by decide)
    (show [2, 4, 6] = _ by decide)

theorem next_order_without_delete_witness :
    BuiltBySets 1 walk_gc3 [2, 4, 6] ∧ getTable walk_gc3 1 = some walk_tbl3 ∧
      ((next_walk walk_gc3 1 (walk_tbl3.entries.length + 1) none).map
          (fun es => es.map Prod.fst) = some [2, 4, 6] ∧
        ∀ (key : StoredObject) (gc1 : GC),
          shared_table_delete walk_gc3 1 (some key) = some gc1 →
          (find_key_index walk_gc3 walk_tbl3 (some key) = some none ∧ gc1 = walk_gc3) ∨
          ∃ idx last t1, find_key_index walk_gc3 walk_tbl3 (some key) = some (some idx) ∧
            idx < [2, 4, 6].length ∧ [2, 4, 6].getLast? = some last ∧
            getTable gc1 1 = some t1 ∧
            (next_walk gc1 1 (t1.entries.length + 1) none).map (fun es => es.map Prod.fst)
              = some ([2, 4, 6].set idx last).dropLast ∧
            (([2, 4, 6].set idx last).dropLast = [2, 4, 6].eraseIdx idx
              ↔ [2, 4, 6].length ≤ idx + 2)) :=
  ⟨walk_gc3_sets, by decide,
    next_order_without_delete walk_gc3 1 walk_tbl3 [2, 4, 6] walk_gc3_sets (by decide)⟩

/-! ## The list of objects: C27, C28, C29 -/

theorem malloc_eq (gc : GC) : gc.malloc.2 = { gc with oom := gc.malloc.2.oom } := by
  unfold GC.malloc; split <;> rfl

theorem malloc_count (gc : GC) : gc.malloc.2.count = gc.count := by
  rw [malloc_eq]

theorem malloc_brk (gc : GC) : gc.malloc.2.brk = gc.brk := by
  rw [malloc_eq]

/-- Every run of `gc_collect` on a well-formed collector has a result, with the allocator's
next address unchanged; either the list and `count` are as before (zero count or failed
worklist allocation) or the result is `Collected`. -/
theorem gc_collect_cases (gc : GC) (hnd : gc.ids.Nodup) (hc : gc.count = gc.objs.length)
    (hcl : EdgesClosed gc) :
    ∃ gc1, gc_collect gc = some gc1 ∧ gc1.brk = gc.brk ∧
      ((gc1.objs = gc.objs ∧ gc1.count = gc.count ∧ (gc.count = 0 ∨ gc.malloc.1 = false)) ∨
        (Collected gc gc1 ∧ gc.count ≠ 0 ∧ gc.malloc.1 = true)) := by
  by_cases hpos : gc.count = 0
  · exact ⟨gc, by simp [gc_collect, hpos], rfl, Or.inl ⟨rfl, rfl, Or.inl hpos⟩⟩
  · cases hok : gc.malloc.1 with
    | false =>
      refine ⟨gc.malloc.2, ?_, malloc_brk gc, Or.inl ⟨malloc_objs gc, malloc_count gc,
        Or.inr rfl⟩⟩
      simp [gc_collect, hpos, hok]
    | true =>
      obtain ⟨gc1, h1, h2, _⟩ := gc_collect_ran gc hnd hc hcl hpos hok
      exact ⟨gc1, h1, h2.brk, Or.inr ⟨h2, hpos, rfl⟩⟩

theorem collected_wellFormed {gc gc1 : GC} (hw : WellFormed gc) (h : Collected gc gc1) :
    WellFormed gc1 := by
  have hnd1 : gc1.ids.Nodup := List.Nodup.sublist h.sub hw.nodup
  refine ⟨hnd1, ?_, ?_, ?_⟩
  · exact h.count
  · intro p hp b hb
    obtain ⟨a, o'⟩ := p
    have hl : gc1.obj a = some o' := lookup_of_mem_nodup gc1.objs a o' hnd1 hp
    obtain ⟨o, ho, hno, _⟩ := h.obj a o' hl
    have hrefs := (norc_unmark_strongRefs hno).1
    have hb' : b ∈ o.strongRefs := by rw [← hrefs]; exact hb
    have ha1 : a ∈ gc1.ids := mem_ids_of_lookup_some gc1.objs a o' hl
    have hlive : Live gc a := ((h.mem a).1 ha1).2
    have hedge : Edge gc a b := ⟨o, ho, hb'⟩
    exact (h.mem b).2 ⟨edge_target_mem hw.closed hedge, live_step hlive hedge⟩
  · intro a ha
    rw [h.brk]
    exact hw.fresh a ((h.mem a).1 ha).1

theorem wellFormed_of_objs {gc gc1 : GC} (hw : WellFormed gc) (ho : gc1.objs = gc.objs)
    (hc : gc1.count = gc.count) (hb : gc1.brk = gc.brk) : WellFormed gc1 := by
  refine ⟨?_, ?_, ?_, ?_⟩
  · unfold GC.ids; rw [ho]; exact hw.nodup
  · rw [hc, ho]; exact hw.count
  · unfold EdgesClosed GC.ids; rw [ho]; exact hw.closed
  · unfold GC.ids; rw [ho, hb]; exact hw.fresh

theorem gc_collect_wellFormed {gc : GC} (hw : WellFormed gc) :
    ∃ gc1, gc_collect gc = some gc1 ∧ WellFormed gc1 ∧ gc1.ids.Sublist gc.ids := by
  obtain ⟨gc1, h1, hb, hcase⟩ := gc_collect_cases gc hw.nodup hw.count hw.closed
  refine ⟨gc1, h1, ?_, ?_⟩
  · rcases hcase with ⟨ho, hc, _⟩ | ⟨hcol, _, _⟩
    · exact wellFormed_of_objs hw ho hc hb
    · exact collected_wellFormed hw hcol
  · rcases hcase with ⟨ho, _, _⟩ | ⟨hcol, _, _⟩
    · unfold GC.ids; rw [ho]
    · exact hcol.sub

theorem alloc_object_fail1 {gc : GC} (h : gc.malloc.1 = false) :
    alloc_object gc = (gc.malloc.2, none) := by
  simp [alloc_object, h]

theorem alloc_object_fail2 {gc : GC} (h1 : gc.malloc.1 = true)
    (h2 : gc.malloc.2.malloc.1 = false) : alloc_object gc = (gc.malloc.2.malloc.2, none) := by
  simp [alloc_object, h1, h2]

theorem alloc_object_ok {gc : GC} (h1 : gc.malloc.1 = true)
    (h2 : gc.malloc.2.malloc.1 = true) :
    alloc_object gc =
      ({ gc.malloc.2.malloc.2 with
          objs := gc.objs ++ [(gc.brk, new_object)], count := gc.count + 1,
          brk := gc.brk + 1 }, some gc.brk) := by
  simp only [alloc_object, h1, h2, Bool.not_true, Bool.false_eq_true, if_false]
  rw [malloc_objs, malloc_objs, malloc_count, malloc_count, malloc_brk, malloc_brk]
  rfl

/-- What `alloc_object` does: it fails and leaves the list alone, or it links `new_object`
at the tail under the allocator's next address. -/
theorem alloc_object_spec (gc : GC) :
    ((alloc_object gc).2 = none ∧ (alloc_object gc).1.objs = gc.objs ∧
        (alloc_object gc).1.count = gc.count ∧ (alloc_object gc).1.brk = gc.brk ∧
        (gc.malloc.1 = false ∨ gc.malloc.2.malloc.1 = false)) ∨
    ((alloc_object gc).2 = some gc.brk ∧
        (alloc_object gc).1.objs = gc.objs ++ [(gc.brk, new_object)] ∧
        (alloc_object gc).1.count = gc.count + 1 ∧ (alloc_object gc).1.brk = gc.brk + 1 ∧
        gc.malloc.1 = true ∧ gc.malloc.2.malloc.1 = true) := by
  by_cases h1 : gc.malloc.1 = true
  · by_cases h2 : gc.malloc.2.malloc.1 = true
    · right
      rw [alloc_object_ok h1 h2]
      exact ⟨rfl, rfl, rfl, rfl, h1, h2⟩
    · have h2' : gc.malloc.2.malloc.1 = false := by simpa using h2
      left
      rw [alloc_object_fail2 h1 h2']
      refine ⟨rfl, ?_, ?_, ?_, Or.inr h2'⟩
      · rw [malloc_objs, malloc_objs]
      · rw [malloc_count, malloc_count]
      · rw [malloc_brk, malloc_brk]
  · have h1' : gc.malloc.1 = false := by simpa using h1
    left
    rw [alloc_object_fail1 h1']
    exact ⟨rfl, malloc_objs gc, malloc_count gc, malloc_brk gc, Or.inl h1'⟩

theorem alloc_object_wellFormed {gc : GC} (hw : WellFormed gc) :
    WellFormed (alloc_object gc).1 := by
  rcases alloc_object_spec gc with ⟨_, ho, hc, hb, _⟩ | ⟨_, ho, hc, hb, _, _⟩
  · exact wellFormed_of_objs hw ho hc hb
  · have hids : (alloc_object gc).1.ids = gc.ids ++ [gc.brk] := by
      unfold GC.ids; rw [ho]; simp
    refine ⟨?_, ?_, ?_, ?_⟩
    · rw [hids, List.nodup_append]
      refine ⟨hw.nodup, List.nodup_singleton _, ?_⟩
      intro a ha hb'
      simp only [List.mem_singleton] at hb'
      have := hw.fresh a ha
      omega
    · rw [hc, ho, hw.count]; simp
    · intro p hp b hb'
      rw [ho] at hp
      rw [hids]
      rcases List.mem_append.1 hp with h | h
      · exact List.mem_append_left _ (hw.closed p h b hb')
      · simp only [List.mem_singleton] at h
        subst h
        simp [new_object] at hb'
    · intro a ha
      rw [hids] at ha
      rw [hb]
      rcases List.mem_append.1 ha with h | h
      · have := hw.fresh a h; omega
      · simp only [List.mem_singleton] at h; omega

/-- C27: after a collect no white object remains.  For every collector state in which the
list has no duplicates, `count` is its length and every edge target is in the list, a
`gc_collect` whose worklist allocation succeeds has a result, and every object of the list
afterwards is black. -/
theorem collect_leaves_no_white (gc : GC) (hnd : gc.ids.Nodup)
    (hc : gc.count = gc.objs.length) (hcl : EdgesClosed gc) (hok : gc.malloc.1 = true) :
    ∃ gc1, gc_collect gc = some gc1 ∧ ∀ p ∈ gc1.objs, p.2.mark = 2 := by
  obtain ⟨gc1, h1, _, hcase⟩ := gc_collect_cases gc hnd hc hcl
  refine ⟨gc1, h1, ?_⟩
  rcases hcase with ⟨ho, _, h0 | hf⟩ | ⟨hcol, _, _⟩
  · intro p hp
    rw [ho] at hp
    have : gc.objs.length = 0 := by omega
    rw [List.length_eq_zero] at this
    rw [this] at hp
    simp at hp
  · rw [hok] at hf; cases hf
  · intro p hp
    obtain ⟨a, o⟩ := p
    have hnd1 : gc1.ids.Nodup := List.Nodup.sublist hcol.sub hnd
    have hl : gc1.obj a = some o := lookup_of_mem_nodup gc1.objs a o hnd1 hp
    obtain ⟨_, _, _, hm⟩ := hcol.obj a o hl
    exact hm

theorem collect_leaves_no_white_witness :
    demo_gc.ids.Nodup ∧ demo_gc.count = demo_gc.objs.length ∧ EdgesClosed demo_gc ∧
      demo_gc.malloc.1 = true ∧
      ∃ gc1, gc_collect demo_gc = some gc1 ∧ ∀ p ∈ gc1.objs, p.2.mark = 2 :=
  ⟨by decide, by decide, by decide, by decide,
    collect_leaves_no_white demo_gc (by decide) (by decide) (by decide) (by decide)⟩

/-- C28: the postcondition of create.  On a well-formed collector `gc_create` first runs the
collect the trigger asks for, which has a result `gc1` (`gc1 = gc` without trigger); when the
two allocations of `alloc_object` then succeed, `gc_create` returns a new object (an address
that is not in the list of `gc1`) which is `new_object` (`refCount = 1`, no edges) linked
after the objects of `gc1`, which keep their order, and `count` is that of `gc1` plus one. -/
theorem create_postcondition (gc : GC) (hw : WellFormed gc) :
    ∃ gc1, ((gc_trigger gc = false ∧ gc1 = gc) ∨
        (gc_trigger gc = true ∧ gc_collect gc = some gc1)) ∧
      gc1.ids.Sublist gc.ids ∧
      (gc1.malloc.1 = true → gc1.malloc.2.malloc.1 = true →
        ∃ gc2, gc_create gc = some (gc2, some gc1.brk) ∧ gc1.brk ∉ gc1.ids ∧
          gc2.objs = gc1.objs ++ [(gc1.brk, new_object)] ∧ gc2.count = gc1.count + 1 ∧
          new_object.refCount = 1 ∧ new_object.strongRefs = []) := by
  have key : ∀ gc1 : GC, WellFormed gc1 → gc1.malloc.1 = true → gc1.malloc.2.malloc.1 = true →
      (alloc_object gc1).2 = some gc1.brk ∧ gc1.brk ∉ gc1.ids ∧
        (alloc_object gc1).1.objs = gc1.objs ++ [(gc1.brk, new_object)] ∧
        (alloc_object gc1).1.count = gc1.count + 1 := by
    intro gc1 hw1 h1 h2
    rw [alloc_object_ok h1 h2]
    refine ⟨rfl, ?_, rfl, rfl⟩
    intro hmem
    have := hw1.fresh _ hmem
    omega
  by_cases ht : gc_trigger gc = true
  · obtain ⟨gc1, h1, hw1, hsub⟩ := gc_collect_wellFormed hw
    refine ⟨gc1, Or.inr ⟨ht, h1⟩, hsub, ?_⟩
    intro hm1 hm2
    obtain ⟨k1, k2, k3, k4⟩ := key gc1 hw1 hm1 hm2
    refine ⟨(alloc_object gc1).1, ?_, k2, k3, k4, rfl, rfl⟩
    simp only [gc_create, ht, if_true, h1]
    rw [← k1]
  · have ht' : gc_trigger gc = false := by simpa using ht
    refine ⟨gc, Or.inl ⟨ht', rfl⟩, List.Sublist.refl _, ?_⟩
    intro hm1 hm2
    obtain ⟨k1, k2, k3, k4⟩ := key gc hw hm1 hm2
    refine ⟨(alloc_object gc).1, ?_, k2, k3, k4, rfl, rfl⟩
    simp only [gc_create, ht', Bool.false_eq_true, if_false]
    rw [← k1]

theorem create_postcondition_witness :
    WellFormed due_gc ∧ gc_trigger due_gc = true ∧
      ∃ gc1, ((gc_trigger due_gc = false ∧ gc1 = due_gc) ∨
          (gc_trigger due_gc = true ∧ gc_collect due_gc = some gc1)) ∧
        gc1.ids.Sublist due_gc.ids ∧
        (gc1.malloc.1 = true → gc1.malloc.2.malloc.1 = true →
          ∃ gc2, gc_create due_gc = some (gc2, some gc1.brk) ∧ gc1.brk ∉ gc1.ids ∧
            gc2.objs = gc1.objs ++ [(gc1.brk, new_object)] ∧ gc2.count = gc1.count + 1 ∧
            new_object.refCount = 1 ∧ new_object.strongRefs = []) :=
  ⟨⟨by decide, by decide, by decide, by decide⟩, by decide,
    create_postcondition due_gc ⟨by decide, by decide, by decide, by decide⟩⟩

/-- C22, where the code departs from it.  `gc_set_step` stores the requested factor `f`
whenever `f > 1.0` and stores 1.01 otherwise; so a factor `f >= 1.01` is stored as it is, and
a factor that is not above 1.0 (NaN included) becomes 1.01, but the factor
`257/256 = 1.00390625` is stored unchanged although it is below 1.01. -/
theorem set_step_keeps_factor_below_1_01 :
    (∀ gc f, gc_get_step (gc_set_step gc f)
        = if Double.gt f (.fin 1 0) = true then f else Double.c1_01) ∧
    (∀ gc f, Double.ge f Double.c1_01 = true → gc_get_step (gc_set_step gc f) = f) ∧
    (Double.gt (.fin 257 8) (.fin 1 0) = true ∧
      Double.ge (.fin 257 8) Double.c1_01 = false ∧
      ∀ gc, gc_get_step (gc_set_step gc (.fin 257 8)) = .fin 257 8) := by
  have h1 : ∀ gc f, gc_get_step (gc_set_step gc f)
      = if Double.gt f (.fin 1 0) = true then f else Double.c1_01 := by
    intro gc f
    unfold gc_get_step gc_set_step
    split <;> rfl
  refine ⟨h1, ?_, by decide, by decide, ?_⟩
  · intro gc f hf
    rw [h1]
    have : Double.gt f (.fin 1 0) = true := by
      cases f <;> simp [Double.ge, Double.gt, Double.lt, Double.c1_01] at hf ⊢
      rename_i m e
      have hp : (0 : Int) < 2 ^ e := by positivity
      generalize (2 : Int) ^ e = P at *
      omega
    rw [if_pos this]
  · intro gc
    rw [h1]
    rfl

/-! ## The trigger boundary: C21 -/

theorem malloc_of_oom_nil {gc : GC} (h : gc.oom = []) : gc.malloc = (true, gc) := by
  unfold GC.malloc; rw [h]

theorem lookup_news_none (b n a : Nat) (h : a < b) : (news b n).lookup a = none := by
  unfold news
  induction n with
  | zero => rfl
  | succ n ih =>
    rw [List.range_succ, List.map_append, List.lookup_append, ih]
    simp only [List.map_cons, List.map_nil, List.lookup_cons, List.lookup_nil, Option.none_or]
    have : (a == b + n) = false := by
      simp only [beq_eq_false_iff_ne, ne_eq]
      omega
    rw [this]

theorem obj_with_updObj (gc : GC) (a : Nat) (f : GCObject → GCObject) (o : GCObject)
    (ho : gc.obj a = some o) :
    ({ gc with objs := updObj gc.objs a f } : GC).obj a = some (f o) := by
  show (updObj gc.objs a f).lookup a = some (f o)
  rw [lookup_updObj]
  simp only [if_true]
  have : gc.objs.lookup a = some o := ho
  rw [this]; rfl

theorem obj_with_updObj_other (gc : GC) (a x : Nat) (f : GCObject → GCObject) (hx : x ≠ a) :
    ({ gc with objs := updObj gc.objs a f } : GC).obj x = gc.obj x := by
  show (updObj gc.objs a f).lookup x = gc.objs.lookup x
  rw [lookup_updObj]
  simp [hx]

/-- What `gc_add_reference` does on a live object: with room in the buffer, or after a
successful `realloc`, the target is appended to its edges; after a failed `realloc` nothing
changes. -/
theorem gc_add_reference_spec {gc : GC} {a : Nat} {o : GCObject} (b : Nat)
    (ho : gc.obj a = some o) :
    ((o.strongRefs.length + 1 ≤ o.strongCapacity ∨ gc.malloc.1 = true) →
      ∃ g o1, gc_add_reference gc a b = some g ∧ g.obj a = some o1 ∧
        o1.strongRefs = o.strongRefs ++ [b] ∧ (gc.oom = [] → g.oom = []) ∧
        ∀ x, x ≠ a → g.obj x = gc.obj x) ∧
    ((¬ o.strongRefs.length + 1 ≤ o.strongCapacity ∧ gc.malloc.1 = false) →
      gc_add_reference gc a b = some gc.malloc.2) := by
  constructor
  · intro hcond
    by_cases hroom : o.strongRefs.length + 1 ≤ o.strongCapacity
    · have heq : gc_add_reference gc a b = some { gc with
          objs := updObj gc.objs a (fun _ => { o with strongRefs := o.strongRefs ++ [b] }) } := by
        simp [gc_add_reference, ho, hroom, ensure_strong_capacity]
      exact ⟨_, _, heq, obj_with_updObj gc a _ o ho, rfl, fun h => h,
        fun x hx => obj_with_updObj_other gc a x _ hx⟩
    · have hok : gc.malloc.1 = true := by
        rcases hcond with h | h
        · exact absurd h hroom
        · exact h
      have ho2 : gc.malloc.2.obj a = some o := by rw [malloc_obj]; exact ho
      have heq : gc_add_reference gc a b = some { gc.malloc.2 with
          objs := updObj gc.malloc.2.objs a (fun _ => { o with
            strongCapacity :=
              if o.strongCapacity * 2 < o.strongRefs.length + 1 then o.strongRefs.length + 1
              else o.strongCapacity * 2,
            strongRefs := o.strongRefs ++ [b] }) } := by
        simp [gc_add_reference, ho, hroom, ensure_strong_capacity, hok]
      refine ⟨_, _, heq, obj_with_updObj gc.malloc.2 a _ o ho2, rfl, ?_, ?_⟩
      · intro h
        show gc.malloc.2.oom = []
        rw [malloc_of_oom_nil h]; exact h
      · intro x hx
        rw [obj_with_updObj_other gc.malloc.2 a x _ hx, malloc_obj]
  · rintro ⟨hroom, hfail⟩
    simp [gc_add_reference, ho, hroom, ensure_strong_capacity, hfail]

/-- What `gc_remove_reference` does on a live object: its edges become
`remove_first` of what they were. -/
theorem gc_remove_reference_spec {gc : GC} {a : Nat} {o : GCObject} (b : Nat)
    (ho : gc.obj a = some o) :
    ∃ g o1, gc_remove_reference gc a b = some g ∧ g.obj a = some o1 ∧
      o1.strongRefs = remove_first o.strongRefs b ∧ (gc.oom = [] → g.oom = []) := by
  by_cases hsh : (remove_first o.strongRefs b).length * 3 < o.strongCapacity ∧
      o.strongCapacity > 4
  · have ho2 : gc.malloc.2.obj a = some o := by rw [malloc_obj]; exact ho
    have heq : gc_remove_reference gc a b = some { gc.malloc.2 with
        objs := updObj gc.malloc.2.objs a (fun o1 =>
          { o1 with strongRefs := remove_first o.strongRefs b,
                    strongCapacity := if gc.malloc.1 = true
                      then (if o.strongCapacity / 2 < 4 then 4 else o.strongCapacity / 2)
                      else o1.strongCapacity }) } := by
      simp only [gc_remove_reference, ho, hsh, and_self, if_true]
    refine ⟨_, _, heq, obj_with_updObj gc.malloc.2 a _ o ho2, rfl, ?_⟩
    intro h
    show gc.malloc.2.oom = []
    rw [malloc_of_oom_nil h]; exact h
  · have heq : gc_remove_reference gc a b = some { gc with
        objs := updObj gc.objs a (fun o1 =>
          { o1 with strongRefs := remove_first o.strongRefs b }) } := by
      simp only [gc_remove_reference, ho, hsh, if_false]
    exact ⟨_, _, heq, obj_with_updObj gc a _ o ho, rfl, fun h => h⟩

theorem indexOf?_getElem {refs : List Nat} {dst i : Nat} (h : refs.indexOf? dst = some i) :
    ∃ T D, refs = T ++ dst :: D ∧ T.length = i := by
  unfold List.indexOf? at h
  obtain ⟨hlt, hx, _⟩ := List.findIdx?_eq_some_iff_getElem.1 h
  have hx' : refs[i] = dst := by simpa using hx
  refine ⟨refs.take i, refs.drop (i + 1), ?_, ?_⟩
  · rw [← hx', ← List.drop_eq_getElem_cons hlt, List.take_append_drop]
  · rw [List.length_take]; omega

theorem indexOf?_none {refs : List Nat} {dst : Nat} (h : refs.indexOf? dst = none) :
    dst ∉ refs := by
  unfold List.indexOf? at h
  rw [List.findIdx?_eq_none_iff] at h
  intro hmem
  have := h dst hmem
  simp at this

theorem getLastD_concat (l : List Nat) (x : Nat) : ∀ d, (l ++ [x]).getLastD d = x := by
  induction l with
  | nil => intro d; rfl
  | cons a rest ih =>
    intro d
    rw [List.cons_append, List.getLastD_cons]
    exact ih a

/-- The removal loop takes away one entry equal to `dst`, if there is one, and keeps the
number of occurrences of every other entry. -/
theorem count_remove_first (refs : List Nat) (dst c : Nat) :
    (remove_first refs dst).count c = refs.count c - (if c = dst then 1 else 0) := by
  unfold remove_first
  cases hi : refs.indexOf? dst with
  | none =>
    have hno := indexOf?_none hi
    by_cases hc : c = dst
    · subst hc
      simp [List.count_eq_zero_of_not_mem hno]
    · simp [hc]
  | some i =>
    obtain ⟨T, D, hrefs, hT⟩ := indexOf?_getElem hi
    subst hrefs
    subst hT
    simp only
    rcases List.eq_nil_or_concat D with hD | ⟨D', x, hD⟩
    · subst hD
      have hlast : (T ++ [dst]).getLastD dst = dst := getLastD_concat T dst dst
      rw [hlast, List.set_append]
      simp only [Nat.lt_irrefl, if_false, Nat.sub_self, List.set_cons_zero,
        List.dropLast_concat, List.count_append, List.count_cons, List.count_nil]
      by_cases hc : c = dst
      · subst hc; simp
      · have : ¬ dst = c := fun e => hc e.symm
        simp [hc, this]
    · rw [List.concat_eq_append] at hD
      subst hD
      have hre : T ++ dst :: (D' ++ [x]) = (T ++ dst :: D') ++ [x] := by simp
      have hlast : (T ++ dst :: (D' ++ [x])).getLastD dst = x := by
        rw [hre]; exact getLastD_concat _ x dst
      rw [hlast, List.set_append]
      simp only [Nat.lt_irrefl, if_false, Nat.sub_self, List.set_cons_zero]
      have hdl : (T ++ x :: (D' ++ [x])).dropLast = T ++ x :: D' := by
        have : T ++ x :: (D' ++ [x]) = (T ++ x :: D') ++ [x] := by simp
        rw [this, List.dropLast_concat]
      rw [hdl]
      simp only [List.count_append, List.count_cons, List.count_nil]
      by_cases hc : c = dst
      · subst hc; simp
      · have : ¬ dst = c := fun e => hc e.symm
        simp [hc, this]

theorem add_n_spec {gc : GC} {a : Nat} {o : GCObject} (b : Nat) (ho : gc.obj a = some o)
    (hoom : gc.oom = []) :
    ∀ n, ∃ g o1, add_n n gc a b = some g ∧ g.obj a = some o1 ∧
      o1.strongRefs = o.strongRefs ++ List.replicate n b ∧ g.oom = [] := by
  intro n
  induction n with
  | zero => exact ⟨gc, o, rfl, ho, by simp, hoom⟩
  | succ n ih =>
    obtain ⟨g, o1, hg, ho1, hrefs, hoomg⟩ := ih
    have hm : g.malloc.1 = true := by rw [malloc_of_oom_nil hoomg]
    obtain ⟨g2, o2, hg2, ho2, hrefs2, hoom2, _⟩ := (gc_add_reference_spec b ho1).1 (Or.inr hm)
    refine ⟨g2, o2, ?_, ho2, ?_, hoom2 hoomg⟩
    · simp only [add_n, hg, Option.some_bind, hg2]
    · rw [hrefs2, hrefs, List.replicate_succ', List.append_assoc]

theorem remove_n_spec {gc : GC} {a : Nat} {o : GCObject} (b : Nat) (ho : gc.obj a = some o) :
    ∀ k, ∃ g o1, remove_n k gc a b = some g ∧ g.obj a = some o1 ∧
      ∀ c, o1.strongRefs.count c = o.strongRefs.count c - (if c = b then k else 0) := by
  intro k
  induction k with
  | zero => exact ⟨gc, o, rfl, ho, by simp⟩
  | succ k ih =>
    obtain ⟨g, o1, hg, ho1, hcount⟩ := ih
    obtain ⟨g2, o2, hg2, ho2, hrefs2, _⟩ := gc_remove_reference_spec b ho1
    refine ⟨g2, o2, ?_, ho2, ?_⟩
    · simp only [remove_n, hg, Option.some_bind, hg2]
    · intro c
      rw [hrefs2, count_remove_first, hcount]
      by_cases hc : c = b
      · simp only [hc, if_true]; omega
      · simp [hc]

/-- C23 as stated fails.  The edge buffer of object 1 is full (four edges to object 2) and
the `realloc` that would grow it fails: `gc_add_reference(1, 2)` returns without having
appended the edge. -/
theorem add_edge_dropped_on_failed_realloc :
    full_gc.edges 1 = some [2, 2, 2, 2] ∧
    (gc_add_reference full_gc 1 2).bind (fun g => g.edges 1) = some [2, 2, 2, 2] := by
  decide

/-- C23, amended: edges are a multiset.  For a live object `a`: `gc_add_reference(a, b)`
appends one entry `b` to the edges of `a`, also when `b` is already there, provided the buffer
has room or the `realloc` that grows it succeeds; `gc_remove_reference(a, b)` takes away
exactly one entry equal to `b`, if there is one, and keeps the number of occurrences of every
other entry; so, with an allocator that does not fail, after `N` calls
`gc_add_reference(a, b)` on an object without an edge to `b` and `k` calls
`gc_remove_reference(a, b)` the object has `N - k` edges to `b`: one at least while `k < N`,
none from `k = N` on. -/
theorem edges_multiset (gc : GC) (a b : Nat) (o : GCObject) (ho : gc.obj a = some o) :
    ((o.strongRefs.length + 1 ≤ o.strongCapacity ∨ gc.malloc.1 = true) →
      ∃ g, gc_add_reference gc a b = some g ∧ g.edges a = some (o.strongRefs ++ [b])) ∧
    (∃ g refs, gc_remove_reference gc a b = some g ∧ g.edges a = some refs ∧
      ∀ c, refs.count c = o.strongRefs.count c - (if c = b then 1 else 0)) ∧
    (gc.oom = [] → b ∉ o.strongRefs → ∀ N k, ∃ g refs,
      (add_n N gc a b).bind (fun g1 => remove_n k g1 a b) = some g ∧
        g.edges a = some refs ∧ refs.count b = N - k ∧ (b ∈ refs ↔ k < N)) := by
  refine ⟨?_, ?_, ?_⟩
  · intro hcond
    obtain ⟨g, o1, hg, ho1, hrefs, _, _⟩ := (gc_add_reference_spec b ho).1 hcond
    exact ⟨g, hg, by simp [GC.edges, ho1, hrefs]⟩
  · obtain ⟨g, o1, hg, ho1, hrefs, _⟩ := gc_remove_reference_spec b ho
    refine ⟨g, o1.strongRefs, hg, by simp [GC.edges, ho1], ?_⟩
    intro c
    rw [hrefs, count_remove_first]
  · intro hoom hb N k
    obtain ⟨g1, o1, hg1, ho1, hrefs1, _⟩ := add_n_spec b ho hoom N
    obtain ⟨g2, o2, hg2, ho2, hcount⟩ := remove_n_spec b ho1 k
    have hcb : o2.strongRefs.count b = N - k := by
      rw [hcount b, hrefs1]
      simp [List.count_eq_zero_of_not_mem hb]
    refine ⟨g2, o2.strongRefs, ?_, by simp [GC.edges, ho2], hcb, ?_⟩
    · simp only [hg1, Option.some_bind, hg2]
    · rw [← List.count_pos_iff, hcb]
      omega

theorem edges_multiset_witness :
    run_gc2.obj 1 = some new_object ∧ run_gc2.oom = [] ∧
      ((new_object.strongRefs.length + 1 ≤ new_object.strongCapacity ∨
          run_gc2.malloc.1 = true) →
        ∃ g, gc_add_reference run_gc2 1 2 = some g ∧
          g.edges 1 = some (new_object.strongRefs ++ [2])) ∧
      (∃ g refs, gc_remove_reference run_gc2 1 2 = some g ∧ g.edges 1 = some refs ∧
        ∀ c, refs.count c = new_object.strongRefs.count c - (if c = 2 then 1 else 0)) ∧
      (run_gc2.oom = [] → 2 ∉ new_object.strongRefs → ∀ N k, ∃ g refs,
        (add_n N run_gc2 1 2).bind (fun g1 => remove_n k g1 1 2) = some g ∧
          g.edges 1 = some refs ∧ refs.count 2 = N - k ∧ (2 ∈ refs ↔ k < N)) :=
  ⟨by decide, by decide, edges_multiset run_gc2 1 2 new_object (by decide)⟩

theorem edges_updObj (objs : List (Nat × GCObject)) (a x : Nat) (f : GCObject → GCObject)
    (hf : ∀ o, (f o).strongRefs = o.strongRefs) :
    ((updObj objs a f).lookup x).map (fun o => o.strongRefs)
      = (objs.lookup x).map (fun o => o.strongRefs) := by
  rw [lookup_updObj]
  by_cases hxa : x = a
  · subst hxa
    cases h : objs.lookup x with
    | none => simp
    | some o => simp [hf o]
  · simp [hxa]

theorem gc_release_edges (gc : GC) (o x : Nat) : (gc_release gc o).edges x = gc.edges x :=
  edges_updObj gc.objs o x (fun y => { y with refCount := y.refCount - 1 }) (fun _ => rfl)

theorem setTable_edges (gc : GC) (tbl : Nat) (t : SharedTable) (x : Nat) :
    (setTable gc tbl t).edges x = gc.edges x :=
  edges_updObj gc.objs tbl x (fun y => { y with data := .table t }) (fun _ => rfl)

theorem edges_of_objs {gc gc1 : GC} (h : gc1.objs = gc.objs) (x : Nat) :
    gc1.edges x = gc.edges x := by
  unfold GC.edges GC.obj; rw [h]

/-- A call of `gc_add_reference` with a result only ever appends to edge buffers. -/
theorem gc_add_reference_edges {gc g : GC} {src dst : Nat}
    (h : gc_add_reference gc src dst = some g) (x : Nat) (es : List Nat)
    (hes : gc.edges x = some es) : ∃ more, g.edges x = some (es ++ more) := by
  cases ho : gc.obj src with
  | none => simp [gc_add_reference, ho] at h
  | some o =>
    have hspec := gc_add_reference_spec dst ho
    by_cases hcond : o.strongRefs.length + 1 ≤ o.strongCapacity ∨ gc.malloc.1 = true
    · obtain ⟨g', o1, hg', ho1, hrefs, _, hother⟩ := hspec.1 hcond
      rw [h] at hg'
      cases hg'
      by_cases hx : x = src
      · subst hx
        refine ⟨[dst], ?_⟩
        have : es = o.strongRefs := by
          simp only [GC.edges, ho, Option.map_some', Option.some.injEq] at hes
          exact hes.symm
        simp [GC.edges, ho1, hrefs, this]
      · refine ⟨[], ?_⟩
        simp only [GC.edges, hother x hx, List.append_nil]
        exact hes
    · have hcond' : ¬ o.strongRefs.length + 1 ≤ o.strongCapacity ∧ gc.malloc.1 = false := by
        constructor
        · exact fun h1 => hcond (Or.inl h1)
        · cases hm : gc.malloc.1
          · rfl
          · exact absurd (Or.inr hm) hcond
      rw [hspec.2 hcond'] at h
      cases h
      refine ⟨[], ?_⟩
      rw [List.append_nil, edges_of_objs (malloc_objs gc)]
      exact hes

/-- C24, where the code departs from it.  `shared_table_delete` leaves the edges of the
container exactly as they were, and `shared_table_set` only ever appends to them: no edge of
a container is ever dropped.  After `set(t, 1, "a")`, `set(t, 2, "b")`, `set(t, 3, "c")` and
`delete(t, 1)` the container stores the records 6, 7, 4, 5 and still has edges to the records
2 and 3; after `set(t, 1, "a")` and an overwriting `set(t, 1, v)` with the record 5 it stores
the records 2 and 5 and still has an edge to the old value record 3. -/
theorem container_edges_never_dropped :
    (∀ gc gc1 tbl key, shared_table_delete gc tbl key = some gc1 →
      gc1.edges tbl = gc.edges tbl) ∧
    (∀ gc gc1 tbl key val r es, shared_table_set gc tbl key val = some (gc1, r) →
      gc.edges tbl = some es → ∃ more, gc1.edges tbl = some (es ++ more)) ∧
    (walk_gc4.edges 1 = some [2, 3, 4, 5, 6, 7] ∧ walk_tbl4.entries = [(6, 7), (4, 5)]) ∧
    (overwrite_gc.edges 1 = some [2, 3, 5] ∧
      (getTable overwrite_gc 1).map (fun t => t.entries) = some [(2, 5)]) := by
  refine ⟨?_, ?_, by decide, by decide⟩
  · intro gc gc1 tbl key h
    unfold shared_table_delete at h
    cases ht : getTable gc tbl with
    | none => simp [ht] at h
    | some t =>
      simp only [ht] at h
      cases hf : find_key_index gc t key with
      | none => simp [hf] at h
      | some res =>
        cases res with
        | none =>
          simp only [hf, Option.some.injEq] at h
          rw [h]
        | some idx =>
          simp only [hf] at h
          cases he : t.entries[idx]? with
          | none => simp [he] at h
          | some e =>
            cases hl : t.entries.getLast? with
            | none => simp [he, hl] at h
            | some last =>
              simp only [he, hl, Option.some.injEq] at h
              rw [← h, setTable_edges, gc_release_edges, gc_release_edges]
  · intro gc gc1 tbl key val r es h hes
    unfold shared_table_set at h
    cases ht : getTable gc tbl with
    | none => simp [ht] at h
    | some t =>
      simp only [ht] at h
      cases hf : find_key_index gc t (getStored gc key) with
      | none => simp [hf] at h
      | some res =>
        cases res with
        | some idx =>
          simp only [hf] at h
          cases he : t.entries[idx]? with
          | none => simp [he] at h
          | some e =>
            simp only [he] at h
            cases ha : gc_add_reference (setTable (gc_release gc e.2) tbl
                { t with entries := t.entries.set idx (e.1, val) }) tbl val with
            | none => simp [ha] at h
            | some g3 =>
              simp only [ha, Option.some.injEq, Prod.mk.injEq] at h
              rw [← h.1]
              apply gc_add_reference_edges ha
              rw [setTable_edges, gc_release_edges]
              exact hes
        | none =>
          simp only [hf] at h
          cases hc : ensure_capacity gc t (t.entries.length + 1) with
          | mk g1 t1o =>
            have hobjs := (ensure_capacity_spec hc).1
            cases t1o with
            | keys_freed => simp [hc] at h
            | unchanged =>
              simp only [hc, Option.some.injEq, Prod.mk.injEq] at h
              rw [← h.1]
              exact ⟨[], by rw [List.append_nil, edges_of_objs hobjs]; exact hes⟩
            | ok t1 =>
              simp only [hc] at h
              cases ha : gc_add_reference (setTable g1 tbl
                  { t1 with entries := t1.entries ++ [(key, val)] }) tbl key with
              | none => simp [ha] at h
              | some g3 =>
                simp only [ha] at h
                cases hb : gc_add_reference g3 tbl val with
                | none => simp [hb] at h
                | some g4 =>
                  simp only [hb, Option.some.injEq, Prod.mk.injEq] at h
                  rw [← h.1]
                  have h0 : (setTable g1 tbl
                      { t1 with entries := t1.entries ++ [(key, val)] }).edges tbl = some es := by
                    rw [setTable_edges, edges_of_objs hobjs]; exact hes
                  obtain ⟨m1, hm1⟩ := gc_add_reference_edges ha tbl es h0
                  obtain ⟨m2, hm2⟩ := gc_add_reference_edges hb tbl _ hm1
                  exact ⟨m1 ++ m2, by rw [hm2, List.append_assoc]⟩

/-! ## The frame of a write: C30 -/

theorem stored_compare_eq_trans {a b c : StoredObject} (hb : b ≠ .number .nan)
    (h1 : stored_compare a b = 0) (h2 : stored_compare b c = 0) : stored_compare a c = 0 := by
  have e1 := stored_compare_trans a b c hb (by omega) (by omega)
  have h1' := stored_compare_zero_symm h1
  have h2' := stored_compare_zero_symm h2
  have e2 := stored_compare_trans c b a hb (by omega) (by omega)
  have e3 := stored_compare_neg a c
  omega

/-- With pairwise different keys and a lookup key that is not NaN, the lookup returns the
value of the one entry whose key compares equal. -/
theorem get_of_match {gc : GC} {tbl : Nat} {t : SharedTable} {x s : StoredObject}
    {e : Nat × Nat} (ht : getTable gc tbl = some t) (hd : KeysDistinct gc t.entries)
    (hx : x ≠ .number .nan) (he : e ∈ t.entries) (hs : getStored gc e.1 = some s)
    (hc : stored_compare s x = 0) : shared_table_get gc tbl (some x) = some (some e.2) := by
  obtain ⟨r, hr⟩ := find_key_from_total (x := x) (t.entries.map Prod.fst) 0
    (fun k hk => by
      obtain ⟨e', he', rfl⟩ := List.mem_map.1 hk
      exact hd.1 e' he')
  cases r with
  | none =>
    obtain ⟨s', x', hs', hx', hne⟩ := find_key_from_missing _ _ hr e.1 (List.mem_map_of_mem _ he)
    cases hx'
    rw [hs] at hs'
    cases hs'
    exact absurd hc hne
  | some i =>
    obtain ⟨_, _, k, s', x', hk, hs', hx', hc'⟩ := find_key_from_found _ _ _ hr
    cases hx'
    rw [Nat.sub_zero, List.getElem?_map] at hk
    cases he' : t.entries[i]? with
    | none => rw [he'] at hk; cases hk
    | some e' =>
      rw [he'] at hk
      simp only [Option.map_some', Option.some.injEq] at hk
      have hmem' : e' ∈ t.entries := List.getElem?_mem he'
      have hee : e' = e := by
        by_contra hne
        have hdiff : DiffKeys gc e'.1 e.1 :=
          List.Pairwise.forall (fun _ _ h => diffKeys_symm h) hd.2 hmem' he hne
        have hs'' : getStored gc e'.1 = some s' := by rw [hk]; exact hs'
        exact hdiff s' s hs'' hs
          (stored_compare_eq_trans hx hc' (stored_compare_zero_symm hc))
      subst hee
      simp [shared_table_get, ht, find_key_index, hr, he']

theorem get_of_no_match {gc : GC} {tbl : Nat} {t : SharedTable} {x : StoredObject}
    (ht : getTable gc tbl = some t) (hd : KeysDistinct gc t.entries)
    (hno : ∀ e ∈ t.entries, ∀ s, getStored gc e.1 = some s → stored_compare s x ≠ 0) :
    shared_table_get gc tbl (some x) = some none := by
  obtain ⟨r, hr⟩ := find_key_from_total (x := x) (t.entries.map Prod.fst) 0
    (fun k hk => by
      obtain ⟨e', he', rfl⟩ := List.mem_map.1 hk
      exact hd.1 e' he')
  cases r with
  | none => simp [shared_table_get, ht, find_key_index, hr]
  | some i =>
    obtain ⟨_, _, k, s', x', hk, hs', hx', hc'⟩ := find_key_from_found _ _ _ hr
    cases hx'
    rw [Nat.sub_zero, List.getElem?_map] at hk
    cases he' : t.entries[i]? with
    | none => rw [he'] at hk; cases hk
    | some e' =>
      rw [he'] at hk
      simp only [Option.map_some', Option.some.injEq] at hk
      have hs'' : getStored gc e'.1 = some s' := by rw [hk]; exact hs'
      exact absurd hc' (hno e' (List.getElem?_mem he') s' hs'')

/-- The lookup of a key that is not NaN depends only on which entries are stored, not on
their order. -/
theorem get_congr_of_mem {gc gc1 : GC} {tbl : Nat} {t t1 : SharedTable} {x : StoredObject}
    (ht : getTable gc tbl = some t) (hd : KeysDistinct gc t.entries)
    (ht1 : getTable gc1 tbl = some t1) (hd1 : KeysDistinct gc1 t1.entries)
    (hst : ∀ a, getStored gc1 a = getStored gc a) (hx : x ≠ .number .nan)
    (hfwd : ∀ e ∈ t.entries, ∀ s, getStored gc e.1 = some s → stored_compare s x = 0 →
      e ∈ t1.entries)
    (hbwd : ∀ e ∈ t1.entries, ∀ s, getStored gc e.1 = some s → stored_compare s x = 0 →
      e ∈ t.entries) :
    shared_table_get gc1 tbl (some x) = shared_table_get gc tbl (some x) := by
  by_cases hex : ∃ e ∈ t.entries, ∃ s, getStored gc e.1 = some s ∧ stored_compare s x = 0
  · obtain ⟨e, he, s, hs, hc⟩ := hex
    rw [get_of_match ht hd hx he hs hc,
      get_of_match ht1 hd1 hx (hfwd e he s hs hc) ((hst e.1).trans hs) hc]
  · have hno : ∀ e ∈ t.entries, ∀ s, getStored gc e.1 = some s → stored_compare s x ≠ 0 :=
      fun e he s hs hc => hex ⟨e, he, s, hs, hc⟩
    rw [get_of_no_match ht hd hno, get_of_no_match ht1 hd1]
    intro e he s hs hc
    rw [hst] at hs
    exact hno e (hbwd e he s hs hc) s hs hc

theorem mem_set_of_ne {α : Type} {l : List α} {idx : Nat} {d v e : α} (he : e ∈ l)
    (hd : l[idx]? = some d) (hne : e ≠ d) : e ∈ l.set idx v := by
  obtain ⟨j, hj⟩ := List.mem_iff_getElem?.1 he
  apply List.mem_iff_getElem?.2
  refine ⟨j, ?_⟩
  rw [List.getElem?_set]
  have hji : ¬ idx = j := by
    intro e1
    rw [e1, hj] at hd
    exact hne (Option.some.inj hd)
  simp [hji, hj]

theorem mem_swap_remove_of_ne {α : Type} {l : List α} {idx : Nat} {d last e : α}
    (he : e ∈ l) (hd : l[idx]? = some d) (hne : e ≠ d) (hlast : l.getLast? = some last) :
    e ∈ (l.set idx last).dropLast := by
  have hlast' : l[l.length - 1]? = some last := by
    rw [← List.getLast?_eq_getElem?]; exact hlast
  have hidx : idx < l.length := by
    by_contra hge
    rw [List.getElem?_eq_none (by omega)] at hd; cases hd
  obtain ⟨j, hj⟩ := List.mem_iff_getElem?.1 he
  have hjl : j < l.length := by
    by_contra hge
    rw [List.getElem?_eq_none (by omega)] at hj; cases hj
  have hji : ¬ idx = j := by
    intro e1
    rw [e1, hj] at hd
    exact hne (Option.some.inj hd)
  apply List.mem_iff_getElem?.2
  by_cases hjlast : j = l.length - 1
  · refine ⟨idx, ?_⟩
    rw [List.getElem?_dropLast, List.length_set, List.getElem?_set]
    have h1 : idx < l.length - 1 := by omega
    have : last = e := by
      rw [hjlast] at hj
      exact Option.some.inj (hlast'.symm.trans hj)
    simp [h1, hidx, this]
  · refine ⟨j, ?_⟩
    rw [List.getElem?_dropLast, List.length_set, List.getElem?_set]
    have h1 : j < l.length - 1 := by omega
    simp [h1, hji, hj]

/-- C30, where the code departs from it.  For a container built from empty by set and delete
in which no stored key is NaN, and keys `k`, `k1` that do not compare equal with `k1` not
NaN, `shared_table_get` with `k1` returns the same record before and after a
`shared_table_set` with `k` and before and after a `shared_table_delete` with `k`.  With NaN
it does not: in the container with the keys 5, 1.0 and 2.0 the lookup of NaN returns the value
record 5 of the key 1.0 before `delete(t, 5)` and the value record 7 of the key 2.0 after it,
although the Integer 5 and NaN do not compare equal. -/
theorem write_frame_broken_by_nan :
    (∀ (gc : GC) (tbl : Nat) (t : SharedTable) (k k1 : StoredObject),
      Built tbl gc → getTable gc tbl = some t →
      (∀ e ∈ t.entries, getStored gc e.1 ≠ some (.number .nan)) →
      k1 ≠ .number .nan → stored_compare k k1 ≠ 0 →
      (∀ key val gc1 r, getStored gc key = some k →
        shared_table_set gc tbl key val = some (gc1, r) →
        shared_table_get gc1 tbl (some k1) = shared_table_get gc tbl (some k1)) ∧
      (∀ gc1, shared_table_delete gc tbl (some k) = some gc1 →
        shared_table_get gc1 tbl (some k1) = shared_table_get gc tbl (some k1))) ∧
    ((getTable frame_gc 1).map (fun t => t.entries.map (fun e => getStored frame_gc e.1))
        = some [some (.integer 5), some (.number (.fin 1 0)), some (.number (.fin 2 0))] ∧
      stored_compare (.integer 5) (.number .nan) ≠ 0 ∧
      shared_table_get frame_gc 1 (some (.number .nan)) = some (some 5) ∧
      (shared_table_delete frame_gc 1 (some (.integer 5))).map
        (fun g => shared_table_get g 1 (some (.number .nan))) = some (some (some 7))) := by
  refine ⟨?_, by decide, by decide, by decide, by decide⟩
  intro gc tbl t k k1 hb ht hnan hk1 hne
  obtain ⟨t0, ht0, hd⟩ := built_keysDistinct hb
  rw [ht] at ht0
  cases ht0
  -- an entry whose key compares equal to `k` does not match `k1`
  have hsep : ∀ e ∈ t.entries, ∀ s, getStored gc e.1 = some s → stored_compare s k = 0 →
      stored_compare s k1 ≠ 0 := by
    intro e he s hs hsk hsk1
    have hsn : s ≠ .number .nan := fun e1 => hnan e he (by rw [hs, e1])
    exact hne (stored_compare_eq_trans hsn (stored_compare_zero_symm hsk) hsk1)
  constructor
  · intro key val gc1 r hkey hset
    have hb1 : Built tbl gc1 := Built.set gc gc1 key val r hb (by rw [hkey]; rfl) hset
    obtain ⟨t1, ht1, hd1⟩ := built_keysDistinct hb1
    obtain ⟨t0, ht0, hst, hcase⟩ := shared_table_set_spec hset
    rw [ht] at ht0
    cases ht0
    rw [hkey] at hcase
    apply get_congr_of_mem ht hd ht1 hd1 hst hk1
    · intro e he s hs hc
      rcases hcase with ⟨idx, oldk, oldv, hf, hidx, _, ht1'⟩ | ⟨_, _, c, ht1'⟩ | ⟨_, _, ht1'⟩
      · rw [ht1] at ht1'
        cases ht1'
        have hold : e ≠ (oldk, oldv) := by
          intro e1
          obtain ⟨_, _, k0, s0, x0, hk0, hs0, hx0, hc0⟩ := find_key_from_found _ _ _ hf
          cases hx0
          rw [Nat.sub_zero, List.getElem?_map, hidx] at hk0
          simp only [Option.map_some', Option.some.injEq] at hk0
          have hs0' : getStored gc e.1 = some s0 := by
            rw [e1]; simp only; rw [hk0]; exact hs0
          have hss : s0 = s := Option.some.inj (hs0'.symm.trans hs)
          rw [← hss] at hc
          exact hsep e he s0 hs0' hc0 hc
        exact mem_set_of_ne he hidx hold
      · rw [ht1] at ht1'
        cases ht1'
        exact List.mem_append_left _ he
      · rw [ht1] at ht1'
        cases ht1'
        exact he
    · intro e he s hs hc
      rcases hcase with ⟨idx, oldk, oldv, hf, hidx, _, ht1'⟩ | ⟨_, _, c, ht1'⟩ | ⟨_, _, ht1'⟩
      · rw [ht1] at ht1'
        cases ht1'
        rcases List.mem_or_eq_of_mem_set he with h | h
        · exact h
        · exfalso
          obtain ⟨_, _, k0, s0, x0, hk0, hs0, hx0, hc0⟩ := find_key_from_found _ _ _ hf
          cases hx0
          rw [Nat.sub_zero, List.getElem?_map, hidx] at hk0
          simp only [Option.map_some', Option.some.injEq] at hk0
          have hs0' : getStored gc oldk = some s0 := by
            rw [hk0]; exact hs0
          have hs' : getStored gc oldk = some s := by
            rw [h] at hs; exact hs
          have hss : s0 = s := Option.some.inj (hs0'.symm.trans hs')
          rw [← hss] at hc
          exact hsep (oldk, oldv) (List.getElem?_mem hidx) s0 hs0' hc0 hc
      · rw [ht1] at ht1'
        cases ht1'
        rcases List.mem_append.1 he with h | h
        · exact h
        · exfalso
          simp only [List.mem_singleton] at h
          rw [h] at hs
          simp only at hs
          rw [hkey] at hs
          cases hs
          exact hne hc
      · rw [ht1] at ht1'
        cases ht1'
        exact he
  · intro gc1 hdel
    have hb1 : Built tbl gc1 := Built.delete gc gc1 k hb hdel
    obtain ⟨t1, ht1, hd1⟩ := built_keysDistinct hb1
    obtain ⟨t0, ht0, hst, hcase⟩ := shared_table_delete_spec hdel
    rw [ht] at ht0
    cases ht0
    rcases hcase with ⟨_, hgc⟩ | ⟨idx, last, hf, hidx, hlast, ht1'⟩
    · rw [hgc]
    · rw [ht1] at ht1'
      cases ht1'
      apply get_congr_of_mem ht hd ht1 hd1 hst hk1
      · intro e he s hs hc
        obtain ⟨_, _, k0, s0, x0, hk0, hs0, hx0, hc0⟩ := find_key_from_found _ _ _ hf
        cases hx0
        rw [Nat.sub_zero, List.getElem?_map] at hk0
        cases hd0 : t.entries[idx]? with
        | none => rw [hd0] at hk0; cases hk0
        | some d =>
          rw [hd0] at hk0
          simp only [Option.map_some', Option.some.injEq] at hk0
          have hne' : e ≠ d := by
            intro e1
            have hs0' : getStored gc d.1 = some s0 := by rw [hk0]; exact hs0
            have hs' : getStored gc d.1 = some s := by rw [← e1]; exact hs
            have hss : s0 = s := Option.some.inj (hs0'.symm.trans hs')
            rw [← hss] at hc
            exact hsep d (List.getElem?_mem hd0) s0 hs0' hc0 hc
          exact mem_swap_remove_of_ne he hd0 hne' hlast
      · intro e he s _ _
        exact mem_swap_remove t.entries idx last hlast he

/-! ## The marshaler on the stack: C25, C26 -/

theorem gc_create_obj {gc gc1 : GC} {sobj : Nat} (hw : WellFormed gc)
    (h : gc_create gc = some (gc1, some sobj)) :
    gc1.obj sobj = some new_object ∧ WellFormed gc1 := by
  have key : ∀ g : GC, WellFormed g → alloc_object g = (gc1, some sobj) →
      gc1.obj sobj = some new_object ∧ WellFormed gc1 := by
    intro g hg ha
    have hwf := alloc_object_wellFormed hg
    rcases alloc_object_spec g with ⟨h2, _⟩ | ⟨h2, ho, _⟩
    · rw [ha] at h2; cases h2
    · rw [ha] at h2 ho hwf
      have hs : sobj = g.brk := Option.some.inj h2
      refine ⟨?_, hwf⟩
      apply lookup_of_mem_nodup gc1.objs _ _ hwf.nodup
      rw [ho, hs]; simp
  unfold gc_create at h
  by_cases ht : gc_trigger gc = true
  · obtain ⟨g1, h1, hw1, _⟩ := gc_collect_wellFormed hw
    simp only [ht, if_true, h1] at h
    exact key g1 hw1 (Option.some.inj h)
  · simp only [ht] at h
    exact key gc hw (Option.some.inj h)

theorem getStored_setStored {gc : GC} {a : Nat} {o : GCObject} (s : StoredObject)
    (ho : gc.obj a = some o) : getStored (setStored gc a s) a = some s := by
  unfold getStored setStored
  rw [obj_with_updObj gc a _ o ho]

theorem stored_push_scalar (L : LuaState) (gc : GC) (sobj : Nat) (o : GCObject)
    (s : StoredObject) (ho : gc.obj sobj = some o) :
    stored_push_impl (gc.objs.length + 1) L (setStored gc sobj s) (some sobj) =
      match s with
      | .nil => some (.value L (setStored gc sobj s) .nil)
      | .boolean b => some (.value L (setStored gc sobj s) (.boolean b))
      | .number d => some (.value L (setStored gc sobj s) (.number d))
      | .integer n => some (.value L (setStored gc sobj s) (.integer n))
      | .string str => some (.value L (setStored gc sobj s) (.string str))
      | .lightuserdata p => some (.value L (setStored gc sobj s) (.lightuserdata p))
      | .cfunction p => some (.value L (setStored gc sobj s) (.cfunction p))
      | _ => stored_push_impl (gc.objs.length + 1) L (setStored gc sobj s) (some sobj) := by
  cases s <;> first | rfl | (rw [stored_push_impl, getStored_setStored _ ho])

theorem setStored_length (gc : GC) (a : Nat) (s : StoredObject) :
    (setStored gc a s).objs.length = gc.objs.length := by
  simp [setStored, updObj]

theorem stored_create_scalar (L : LuaState) (gc gc1 : GC) (sobj : Nat) (x : LuaValue)
    (hw : WellFormed gc) (hc : gc_create gc = some (gc1, some sobj))
    (hx : Scalar x = true) (hs : x.isString = true → gc1.malloc.1 = true) :
    ∃ m, stored_create L gc [x] 1 = some m ∧ m.result = .obj sobj ∧ m.stack = [x] ∧
      stored_push L m.gc (some sobj) = some (.value L m.gc x) := by
  obtain ⟨ho, _⟩ := gc_create_obj hw hc
  have ho2 := obj_with_updObj gc1 sobj (fun o => { o with dtor := .stored_dtor }) _ ho
  have hsl : stack_get [x] 1 = some (some x) := by simp [stack_get]
  unfold stored_create
  rw [stored_create_impl]
  simp only [hsl, hc]
  cases x <;> simp only [Scalar, Bool.false_eq_true] at hx
  case string str =>
    have hm : gc1.malloc.1 = true := hs rfl
    cases hoom : gc1.oom with
    | nil =>
      simp only [GC.malloc, hoom, Bool.not_true, Bool.false_eq_true, if_false]
      refine ⟨_, rfl, rfl, rfl, ?_⟩
      unfold stored_push
      rw [setStored_length]
      exact stored_push_scalar L _ sobj _ (.string str) ho2
    | cons b rest =>
      have hb : b = true := by simpa [GC.malloc, hoom] using hm
      subst hb
      simp only [GC.malloc, hoom, Bool.not_true, Bool.false_eq_true, if_false]
      refine ⟨_, rfl, rfl, rfl, ?_⟩
      unfold stored_push
      rw [setStored_length]
      exact stored_push_scalar L _ sobj _ (.string str)
        (obj_with_updObj _ sobj (fun o => { o with dtor := .stored_dtor }) _ ho)
  all_goals
    refine ⟨_, rfl, rfl, rfl, ?_⟩
    unfold stored_push
    rw [setStored_length]
    exact stored_push_scalar L _ sobj _ _ ho2

/-- A table that is reached through the relative index `-1` and is not on the visited list
is never marshaled: `lua_pushnil` makes `-1` name the nil, so `lua_next(L, idx)` is applied to
a value that is not a table.  A call that has a result has failed on an allocation before
that point. -/
theorem nested_table_not_marshaled (L : LuaState) (fuel : Nat) (gc : GC) (st : List LuaValue)
    (vis : List (LuaValue × Nat)) (ref : Nat) (m : Marshaled)
    (hst : stack_get st (-1) = some (some (.table ref)))
    (hv : find_visited vis (.table ref) = none)
    (h : stored_create_impl L fuel gc st (-1) (some vis) = some m) : m.result = .null := by
  have hnext : lua_next L (.nil :: st) (-1) = none := by
    simp [lua_next, stack_get]
  cases fuel with
  | zero => simp [stored_create_impl] at h
  | succ fuel =>
    rw [stored_create_impl] at h
    simp only [hst] at h
    cases hc : gc_create gc with
    | none => simp [hc] at h
    | some r =>
      obtain ⟨gc1, a⟩ := r
      cases a with
      | none =>
        simp only [hc, Option.some.injEq] at h
        rw [← h]
      | some sobj =>
        simp only [hc, hv, marshal_fail, next_fuel, table_loop, hnext] at h
        split at h
        · simp only [Option.some.injEq] at h; rw [← h]
        · split at h
          · simp only [Option.some.injEq] at h; rw [← h]
          · simp at h

/-- The re-encounter of a table: when the table at `idx` is on the visited list, the call
returns the record listed for it and leaves the stack and the visited list as they are (the
record that `gc_create` has just returned is left behind). -/
theorem visited_table_resolves (L : LuaState) (fuel : Nat) (gc gc1 : GC) (sobj : Nat)
    (st : List LuaValue) (idx : Int) (vis : List (LuaValue × Nat)) (ref r : Nat)
    (hst : stack_get st idx = some (some (.table ref)))
    (hv : find_visited vis (.table ref) = some r)
    (hc : gc_create gc = some (gc1, some sobj)) :
    ∃ m, stored_create_impl L (fuel + 1) gc st idx (some vis) = some m ∧
      m.result = .obj r ∧ m.stack = st ∧ m.visited = some vis := by
  rw [stored_create_impl]
  simp only [hst, hc, hv]
  exact ⟨_, rfl, rfl, rfl, rfl⟩

theorem nested_no_result (fuel : Nat) :
    stored_create_impl L_nested fuel gc_instance [.table 1] 1 (some []) = none := by
  rcases fuel with _ | _ | n
  · rfl
  · decide
  · rfl

theorem cycle_no_result (fuel : Nat) :
    stored_create_impl L_cycle fuel gc_instance [.table 1] 1 (some []) = none := by
  rcases fuel with _ | _ | n
  · rfl
  · decide
  · rfl

/-- C25 fails on the code for tables that contain tables.  For a value that carries no other
value the round trip holds whenever the allocations succeed: `stored_create` returns a
record, leaves the stack alone, and `stored_push` of that record pushes the value itself
(checked also on the string `"\0a"`).  A table of such values at an absolute index is
copied pair by pair (checked on `{ [1] = "a", k = true }`, which comes back as a new table
with the same pairs).  A table inside a table is reached with the index `-1`; after
`lua_pushnil` that index names the nil, and `lua_next(L, idx)` is applied to it: whenever
such a call has a result at all, the result is NULL, and for `{ [1] = {} }` the call
`stored_create` has no result with any bound on the recursion depth. -/
theorem round_trip_fails_on_nested_table :
    (∀ (L : LuaState) (gc gc1 : GC) (sobj : Nat) (x : LuaValue),
      WellFormed gc → gc_create gc = some (gc1, some sobj) → Scalar x = true →
      (x.isString = true → gc1.malloc.1 = true) →
      ∃ m, stored_create L gc [x] 1 = some m ∧ m.result = .obj sobj ∧ m.stack = [x] ∧
        stored_push L m.gc (some sobj) = some (.value L m.gc x)) ∧
    (round_trip L0 gc_instance (.string [0, 97])).bind Pushed.shown
      = some (.string [0, 97], none) ∧
    ((stored_create L_flat gc_instance [.table 1] 1).map (fun m => (m.result, m.stack))
        = some (.obj 1, [.table 1]) ∧
      (round_trip L_flat gc_instance (.table 1)).bind Pushed.shown
        = some (.table 2, L_flat.tables.lookup 1)) ∧
    (∀ (L : LuaState) (fuel : Nat) (gc : GC) (st : List LuaValue)
        (vis : List (LuaValue × Nat)) (ref : Nat) (m : Marshaled),
      stack_get st (-1) = some (some (.table ref)) → find_visited vis (.table ref) = none →
      stored_create_impl L fuel gc st (-1) (some vis) = some m → m.result = .null) ∧
    (∀ fuel, stored_create_impl L_nested fuel gc_instance [.table 1] 1 (some []) = none) ∧
    stored_create L_nested gc_instance [.table 1] 1 = none ∧
    round_trip L_nested gc_instance (.table 1) = none := by
  refine ⟨stored_create_scalar, ?_, ⟨?_, ?_⟩, nested_table_not_marshaled, nested_no_result,
    ?_, ?_⟩ <;> decide

/-- C26 fails on the code for a cycle that runs through a second table.  A table that is on
the visited list resolves to the record listed for it, with the stack and the list left as
they are, wherever it is met: so `t.self = t` and `t[t] = 1` are marshaled into one record
whose copy points back to that record.  A table that is not on the list and is met inside
another one is reached with the index `-1`, which names the nil after `lua_pushnil`: for
`t.x = u; u.y = t` the call `stored_create` has no result with any bound on the recursion
depth. -/
theorem cycle_through_second_table_has_no_result :
    (∀ (L : LuaState) (fuel : Nat) (gc gc1 : GC) (sobj : Nat) (st : List LuaValue)
        (idx : Int) (vis : List (LuaValue × Nat)) (ref r : Nat),
      stack_get st idx = some (some (.table ref)) → find_visited vis (.table ref) = some r →
      gc_create gc = some (gc1, some sobj) →
      ∃ m, stored_create_impl L (fuel + 1) gc st idx (some vis) = some m ∧
        m.result = .obj r ∧ m.stack = st ∧ m.visited = some vis) ∧
    ((stored_create L_self gc_instance [.table 1] 1).map (fun m => (m.result, m.stack))
        = some (.obj 1, [.table 1]) ∧
      (stored_create L_self gc_instance [.table 1] 1).bind (fun m => copy_of m.gc 1)
        = some [(3, 1)] ∧
      (stored_create L_self gc_instance [.table 1] 1).bind (fun m => getStored m.gc 3)
        = some (.string [115, 101, 108, 102])) ∧
    ((stored_create L_self_key gc_instance [.table 1] 1).map (fun m => (m.result, m.stack))
        = some (.obj 1, [.table 1]) ∧
      (stored_create L_self_key gc_instance [.table 1] 1).bind (fun m => copy_of m.gc 1)
        = some [(1, 4)] ∧
      (stored_create L_self_key gc_instance [.table 1] 1).bind (fun m => getStored m.gc 4)
        = some (.integer 1)) ∧
    (∀ fuel, stored_create_impl L_cycle fuel gc_instance [.table 1] 1 (some []) = none) ∧
    stored_create L_cycle gc_instance [.table 1] 1 = none := by
  refine ⟨visited_table_resolves, ⟨?_, ?_, ?_⟩, ⟨?_, ?_, ?_⟩, cycle_no_result, ?_⟩ <;> decide

/-! ## The key array of a container: C31, and C11 after a failed growth -/

theorem grow_cap_ge (needed : Nat) :
    ∀ fuel newcap, needed < newcap * 2 ^ fuel → needed ≤ grow_cap needed fuel newcap := by
  intro fuel
  induction fuel with
  | zero =>
    intro newcap h
    simp only [pow_zero, Nat.mul_one] at h
    simp only [grow_cap]
    omega
  | succ fuel ih =>
    intro newcap h
    simp only [grow_cap]
    by_cases hlt : newcap < needed
    · simp only [hlt, if_true]
      apply ih
      rw [pow_succ] at h
      calc needed < newcap * (2 ^ fuel * 2) := h
        _ = newcap * 2 * 2 ^ fuel := by ring
    · simp only [hlt, if_false]
      omega

/-- A successful `ensure_capacity` leaves room for `n` entries and does not touch them. -/
theorem ensure_capacity_cap {gc gc1 : GC} {t t1 : SharedTable} {n : Nat}
    (h : ensure_capacity gc t n = (gc1, .ok t1)) :
    n ≤ t1.cap ∧ t1.entries = t.entries ∧ t1.metatable = t.metatable := by
  unfold ensure_capacity at h
  by_cases hn : n ≤ t.cap
  · simp only [hn, if_true, Prod.mk.injEq, Ensured.ok.injEq] at h
    obtain ⟨_, h2⟩ := h
    subst h2
    exact ⟨hn, rfl, rfl⟩
  · simp only [hn, if_false] at h
    cases hok1 : gc.malloc.1 with
    | false => simp [hok1] at h
    | true =>
      simp only [hok1, Bool.not_true, Bool.false_eq_true, if_false] at h
      cases hok2 : gc.malloc.2.malloc.1 with
      | false =>
        simp only [hok2, Bool.not_false, if_true] at h
        by_cases hcap : t.cap = 0
        · simp [hcap] at h
        · simp [hcap] at h
      | true =>
        simp only [hok2, Bool.not_true, Bool.false_eq_true, if_false, Prod.mk.injEq,
          Ensured.ok.injEq] at h
        obtain ⟨_, h2⟩ := h
        subst h2
        refine ⟨?_, rfl, rfl⟩
        apply grow_cap_ge
        have h1 : 1 ≤ (if t.cap ≠ 0 then t.cap * 2 else 4) := by
          split <;> omega
        have h2 : n < 2 ^ n := Nat.lt_two_pow n
        calc n < 2 ^ n := h2
          _ = 1 * 2 ^ n := (Nat.one_mul _).symm
          _ ≤ (if t.cap ≠ 0 then t.cap * 2 else 4) * 2 ^ n := Nat.mul_le_mul_right _ h1

/-- A call of `shared_table_set` with a result keeps `size <= cap`. -/
theorem shared_table_set_cap {gc gc1 : GC} {tbl key val : Nat} {r : Bool} {t : SharedTable}
    (h : shared_table_set gc tbl key val = some (gc1, r)) (ht : getTable gc tbl = some t)
    (hle : t.entries.length ≤ t.cap) :
    ∃ t1, getTable gc1 tbl = some t1 ∧ t1.entries.length ≤ t1.cap := by
  obtain ⟨t0, ht0, _, hcase⟩ := shared_table_set_spec h
  rw [ht] at ht0
  cases ht0
  rcases hcase with ⟨idx, oldk, oldv, _, _, _, ht1⟩ | ⟨hf, _, c, ht1⟩ | ⟨_, _, ht1⟩
  · exact ⟨_, ht1, by simpa using hle⟩
  · refine ⟨_, ht1, ?_⟩
    unfold shared_table_set at h
    simp only [ht, hf] at h
    cases hec : ensure_capacity gc t (t.entries.length + 1) with
    | mk g res =>
      cases res with
      | keys_freed => simp [hec] at h
      | unchanged =>
        simp only [hec, Option.some.injEq, Prod.mk.injEq] at h
        obtain ⟨h1, _⟩ := h
        subst h1
        obtain ⟨hobjs, _⟩ := ensure_capacity_spec hec
        rw [getTable_of_objs hobjs, ht] at ht1
        have := congrArg (fun o => o.map (fun x => x.entries.length)) ht1
        simp at this
      | ok t1 =>
        obtain ⟨hcap, hent, hmt⟩ := ensure_capacity_cap hec
        obtain ⟨hobjs, _⟩ := ensure_capacity_spec hec
        have htg : getTable g tbl = some t := by rw [getTable_of_objs hobjs]; exact ht
        simp only [hec] at h
        cases ha1 : gc_add_reference (setTable g tbl
            { t1 with entries := t1.entries ++ [(key, val)] }) tbl key with
        | none => simp [ha1] at h
        | some gc3 =>
          simp only [ha1] at h
          cases ha2 : gc_add_reference gc3 tbl val with
          | none => simp [ha2] at h
          | some gc4 =>
            simp only [ha2, Option.some.injEq, Prod.mk.injEq] at h
            obtain ⟨h1, _⟩ := h
            subst h1
            have hres : getTable gc4 tbl
                = some { t1 with entries := t1.entries ++ [(key, val)] } := by
              rw [gc_add_reference_getTable ha2, gc_add_reference_getTable ha1]
              exact setTable_getTable _ htg
            rw [hres] at ht1
            have hc : c = t1.cap := by
              have := congrArg (fun o => o.map (fun x => x.cap)) ht1
              simpa using this.symm
            show (t.entries ++ [(key, val)]).length ≤ c
            rw [hc]
            simpa using hcap
  · exact ⟨t, ht1, hle⟩

/-- In a container built from empty by set and delete, `size <= cap`. -/
theorem built_size_le_cap {tbl : Nat} {gc : GC} (hb : Built tbl gc) :
    ∃ t, getTable gc tbl = some t ∧ t.entries.length ≤ t.cap := by
  induction hb with
  | empty gc t ht he => exact ⟨t, ht, by rw [he]; exact Nat.zero_le _⟩
  | set gc gc1 key val r _ _ hset ih =>
    obtain ⟨t, ht, hle⟩ := ih
    exact shared_table_set_cap hset ht hle
  | delete gc gc1 key _ hdel ih =>
    obtain ⟨t, ht, hle⟩ := ih
    obtain ⟨t0, ht0, _, hcase⟩ := shared_table_delete_spec hdel
    rw [ht] at ht0
    cases ht0
    rcases hcase with ⟨_, hgc⟩ | ⟨idx, last, _, _, _, ht1⟩
    · subst hgc; exact ⟨t, ht, hle⟩
    · refine ⟨_, ht1, ?_⟩
      show ((t.entries.set idx last).dropLast).length ≤ t.cap
      simp only [List.length_dropLast, List.length_set]
      omega
  | frame gc gc1 _ hsame _ ih =>
    obtain ⟨t, ht, hle⟩ := ih
    exact ⟨t, hsame.trans ht, hle⟩

/-- The key array of a container of `Built`, that is, one built from empty by calls of
`shared_table_set` and `shared_table_delete` each of which left the key array in place:
every key slot points to a value record, no two key slots hold keys that compare equal under
`stored_compare` (in either order), the key slots and the value slots are `size` each, and
`size <= cap`. -/
theorem built_key_invariant (tbl : Nat) (gc : GC) (hb : Built tbl gc) :
    ∃ t, getTable gc tbl = some t ∧
      (∀ e ∈ t.entries, (getStored gc e.1).isSome) ∧
      (∀ (i j ki kj : Nat) (x y : StoredObject), i ≠ j →
        (t.entries.map Prod.fst)[i]? = some ki → (t.entries.map Prod.fst)[j]? = some kj →
        getStored gc ki = some x → getStored gc kj = some y → stored_compare x y ≠ 0) ∧
      (t.entries.map Prod.fst).length = t.entries.length ∧
      (t.entries.map Prod.snd).length = t.entries.length ∧
      t.entries.length ≤ t.cap := by
  obtain ⟨t, ht, hd⟩ := built_keysDistinct hb
  obtain ⟨t1, ht1, hle⟩ := built_size_le_cap hb
  rw [ht] at ht1
  cases ht1
  refine ⟨t, ht, hd.1, ?_, by simp, by simp, hle⟩
  have hp : (t.entries.map Prod.fst).Pairwise (DiffKeys gc) := List.pairwise_map.2 hd.2
  intro i j ki kj x y hij hi hj hx hy
  rcases Nat.lt_or_gt_of_ne hij with h | h
  · exact pairwise_getElem? hp h hi hj x y hx hy
  · exact diffKeys_symm (pairwise_getElem? hp h hj hi) x y hx hy

theorem wide_gc1_built : Built 1 wide_gc1 :=
  Built.set walk_gc3 wide_gc1 3 2 true
    (Built.set walk_gc2 walk_gc3 6 7 true
      (Built.set walk_gc1 walk_gc2 4 5 true
        (Built.set walk_gc0 walk_gc1 2 3 true
          (Built.empty walk_gc0 { entries := [], cap := 0, metatable := none }
            (by decide) rfl)
          (by decide) (by decide))
        (by decide) (by decide))
      (by decide) (by decide))
    (by decide) (by decide)

theorem wide_gc_built : Built 1 wide_gc :=
  Built.set wide_gc1 wide_gc 5 4 true wide_gc1_built (by decide) (by decide)

theorem wide_gc1_oom_built : Built 1 wide_gc1_oom :=
  Built.frame wide_gc1 wide_gc1_oom wide_gc1_built rfl (fun _ _ h => h)

theorem built_key_invariant_example :
    Built 1 wide_gc ∧
      (getTable wide_gc 1).map (fun t => (t.entries, t.cap))
        = some ([(2, 3), (4, 5), (6, 7), (3, 2), (5, 4)], 8) ∧
      ∃ t, getTable wide_gc 1 = some t ∧
        (∀ e ∈ t.entries, (getStored wide_gc e.1).isSome) ∧
        (∀ (i j ki kj : Nat) (x y : StoredObject), i ≠ j →
          (t.entries.map Prod.fst)[i]? = some ki → (t.entries.map Prod.fst)[j]? = some kj →
          getStored wide_gc ki = some x → getStored wide_gc kj = some y →
          stored_compare x y ≠ 0) ∧
        (t.entries.map Prod.fst).length = t.entries.length ∧
        (t.entries.map Prod.snd).length = t.entries.length ∧
        t.entries.length ≤ t.cap :=
  ⟨wide_gc_built, by decide, built_key_invariant 1 wide_gc wide_gc_built⟩

/-- When `ensure_capacity` leaves the key array in freed memory: exactly when the arrays have
to grow, there is a key array already, the `realloc` of the keys succeeds and the `realloc`
of the values fails. -/
theorem ensure_capacity_keys_freed (gc : GC) (t : SharedTable) (n : Nat) :
    (ensure_capacity gc t n).2 = .keys_freed ↔
      (t.cap < n ∧ t.cap ≠ 0 ∧ gc.malloc.1 = true ∧ gc.malloc.2.malloc.1 = false) := by
  unfold ensure_capacity
  by_cases hn : n ≤ t.cap
  · simp only [hn, if_true]
    constructor
    · intro h; cases h
    · rintro ⟨h, _⟩; omega
  · simp only [hn, if_false]
    cases hok1 : gc.malloc.1 with
    | false => simp
    | true =>
      simp only [Bool.not_true, Bool.false_eq_true, if_false]
      cases hok2 : gc.malloc.2.malloc.1 with
      | false =>
        simp only [Bool.not_false, if_true]
        by_cases hcap : t.cap = 0
        · simp [hcap]
        · simp [hcap]; omega
      | true => simp

/-- C31, where the code departs from it.  The container 1 of `wide_gc1_oom` has been built
from empty by four calls of `shared_table_set` and is full (`size = cap = 4`).  One more
`shared_table_set` with a key that is not stored has to grow both arrays; the `realloc` of
the keys succeeds, the `realloc` of the values fails, and `ensure_capacity` frees the new
key block and returns 0 while `entries.keys` still holds the old address: the container is
left with `size = 4` key slots in freed memory, so there are no stored keys to compare any
more.  When it is the first `realloc` that fails, the same call returns 0 with the container
as it was.  `ensure_capacity` leaves the keys freed exactly when the arrays have to grow from
a non-zero capacity and the second `realloc` fails after the first succeeded; in every
container built by calls that left the key array in place the claim holds: every key slot
points to a value record, no two key slots hold keys that compare equal, key slots and value
slots are `size` each, and `size <= cap`. -/
theorem key_array_after_failed_growth :
    (Built 1 wide_gc1_oom ∧
      (getTable wide_gc1_oom 1).map (fun t => (t.entries.length, t.cap)) = some (4, 4) ∧
      wide_gc1_oom.oom = [true, false] ∧ (getStored wide_gc1_oom 5).isSome = true ∧
      shared_table_get wide_gc1_oom 1 (getStored wide_gc1_oom 5) = some none) ∧
    ((getTable wide_gc1_oom 1).map
        (fun t => (ensure_capacity wide_gc1_oom t (t.entries.length + 1)).2)
        = some .keys_freed ∧
      shared_table_set wide_gc1_oom 1 5 4 = none) ∧
    ((getTable wide_gc1_fail 1).map
        (fun t => (ensure_capacity wide_gc1_fail t (t.entries.length + 1)).2)
        = some .unchanged ∧
      (shared_table_set wide_gc1_fail 1 5 4).map (fun r => (getTable r.1 1, r.2))
        = some (getTable wide_gc1 1, false)) ∧
    (∀ (gc : GC) (t : SharedTable) (n : Nat),
      (ensure_capacity gc t n).2 = .keys_freed ↔
        (t.cap < n ∧ t.cap ≠ 0 ∧ gc.malloc.1 = true ∧ gc.malloc.2.malloc.1 = false)) ∧
    (∀ (tbl : Nat) (gc : GC), Built tbl gc →
      ∃ t, getTable gc tbl = some t ∧
        (∀ e ∈ t.entries, (getStored gc e.1).isSome) ∧
        (∀ (i j ki kj : Nat) (x y : StoredObject), i ≠ j →
          (t.entries.map Prod.fst)[i]? = some ki → (t.entries.map Prod.fst)[j]? = some kj →
          getStored gc ki = some x → getStored gc kj = some y → stored_compare x y ≠ 0) ∧
        (t.entries.map Prod.fst).length = t.entries.length ∧
        (t.entries.map Prod.snd).length = t.entries.length ∧
        t.entries.length ≤ t.cap) :=
  ⟨⟨wide_gc1_oom_built, by decide, by decide, by decide, by decide⟩,
    ⟨by decide, by decide⟩, ⟨by decide, by decide⟩,
    ensure_capacity_keys_freed, built_key_invariant⟩

/-- C11, where the code departs from it.  The container 1 of `wide_gc1_oom` has been built
from empty by four calls of `shared_table_set`; it is full, and the iteration from the NULL
key returns its four pairs and then the pair of NULLs.  One more `shared_table_set` with a
key that is not stored makes `ensure_capacity` free the key array (the second `realloc`
fails after the first succeeded) and return 0; `entries.keys` still holds the old address
and `size` is 4, so the first call of `shared_table_next` reads `entries.keys[0]` from freed
memory: the iteration has no result.  When it is the first `realloc` that fails, the same
call returns 0 as well and the iteration afterwards still returns the four pairs.  Over
every container built by calls that left the key array in place the claim holds:
`shared_table_next` returns the stored pairs slot by slot, each once, then the pair of NULLs
at call number `size + 1`, and the pair of NULLs for a key that is not stored. -/
theorem iteration_after_failed_growth :
    (Built 1 wide_gc1_oom ∧
      next_walk wide_gc1_oom 1 5 none = some [(2, 3), (4, 5), (6, 7), (3, 2)] ∧
      shared_table_size wide_gc1_oom 1 = some 4 ∧
      (getStored wide_gc1_oom 5).isSome = true ∧
      shared_table_get wide_gc1_oom 1 (getStored wide_gc1_oom 5) = some none) ∧
    ((getTable wide_gc1_oom 1).map
        (fun t => (ensure_capacity wide_gc1_oom t (t.entries.length + 1)).2)
        = some .keys_freed ∧
      (shared_table_set wide_gc1_oom 1 5 4).bind (fun r => next_walk r.1 1 5 none) = none) ∧
    ((shared_table_set wide_gc1_fail 1 5 4).map Prod.snd = some false ∧
      (shared_table_set wide_gc1_fail 1 5 4).bind (fun r => next_walk r.1 1 5 none)
        = some [(2, 3), (4, 5), (6, 7), (3, 2)]) ∧
    (∀ (gc : GC) (tbl : Nat) (t : SharedTable), Built tbl gc → getTable gc tbl = some t →
      next_walk gc tbl (t.entries.length + 1) none = some t.entries ∧
        shared_table_size gc tbl = some t.entries.length ∧
        (t.entries.map Prod.fst).Nodup ∧
        (∀ x, shared_table_get gc tbl (some x) = some none →
          shared_table_next gc tbl (some (some x)) = some none)) :=
  ⟨⟨wide_gc1_oom_built, by decide, by decide, by decide, by decide⟩,
    ⟨by decide, by decide⟩, ⟨by decide, by decide⟩,
    built_iteration_complete⟩

/-! ## The worklist of `gc_collect`: C32 -/

theorem propagate_grey_fst (cap : Nat) :
    ∀ (fuel i : Nat) (objs : List (Nat × GCObject)) (grey : List Nat),
      propagate cap fuel i objs grey = (propagate_grey cap fuel i objs grey).map Prod.fst := by
  intro fuel
  induction fuel with
  | zero =>
    intro i objs grey
    unfold propagate propagate_grey
    cases grey[i]? <;> rfl
  | succ fuel ih =>
    intro i objs grey
    unfold propagate propagate_grey
    cases grey[i]? with
    | none => rfl
    | some cur =>
      simp only
      cases objs.lookup cur with
      | none => rfl
      | some o =>
        simp only
        cases scan_refs cap o.strongRefs objs grey with
        | none => rfl
        | some p =>
          obtain ⟨objs1, grey1⟩ := p
          exact ih _ _ _

theorem propagate_grey_inv (gc : GC) (cap : Nat) (hcap : gc.objs.length ≤ cap)
    (hcl : EdgesClosed gc) :
    ∀ (fuel i : Nat) (objs : List (Nat × GCObject)) (grey : List Nat),
      MarkInv gc objs grey i → cap ≤ fuel + i →
      ∃ objs' grey', propagate_grey cap fuel i objs grey = some (objs', grey') ∧
        MarkInv gc objs' grey' grey'.length ∧ grey <+: grey' := by
  intro fuel
  induction fuel with
  | zero =>
    intro i objs grey inv hf
    have hlen : grey.length ≤ cap := by
      have h1 := nodup_length_le inv.nodup inv.grey_sub
      simp only [GC.ids, List.length_map] at h1
      omega
    have hil : i = grey.length := by have := inv.le; omega
    refine ⟨objs, grey, ?_, hil ▸ inv, List.prefix_refl _⟩
    have hnone : grey[i]? = none := List.getElem?_eq_none (by omega)
    unfold propagate_grey
    simp only [hnone]
  | succ fuel ih =>
    intro i objs grey inv hf
    cases hcur : grey[i]? with
    | none =>
      have hil : i = grey.length := by
        have h1 := List.getElem?_eq_none_iff.1 hcur
        have := inv.le; omega
      refine ⟨objs, grey, ?_, hil ▸ inv, List.prefix_refl _⟩
      unfold propagate_grey
      simp only [hcur]
    | some cur =>
      have hi : i < grey.length := by
        by_contra hge
        have : grey[i]? = none := List.getElem?_eq_none (by omega)
        rw [this] at hcur; cases hcur
      have hcurmem : cur ∈ grey := List.getElem?_mem hcur
      obtain ⟨o, ho⟩ := lookup_isSome_of_mem_ids objs cur
        (by rw [inv.ids_eq]; exact inv.grey_sub cur hcurmem)
      obtain ⟨o0, ho0, hu⟩ := inv.lookup_orig cur o ho
      have hrefs : o0.strongRefs = o.strongRefs := (unmark_eq_strongRefs hu).1
      have hedges : ∀ r ∈ o.strongRefs, Edge gc cur r := by
        intro r hr
        exact ⟨o0, ho0, hrefs ▸ hr⟩
      obtain ⟨objs1, grey1, hs, inv1, hpre, hall⟩ :=
        scan_refs_inv gc cap hcap hcl i cur o.strongRefs objs grey inv hi hcur hedges
      have hi1 : i < grey1.length := Nat.lt_of_lt_of_le hi hpre.length_le
      have hcur1 : grey1[i]? = some cur := by
        obtain ⟨t, ht⟩ := hpre
        rw [← ht, List.getElem?_append_left hi]; exact hcur
      have hall' : ∀ b, Edge gc cur b → b ∈ grey1 := by
        rintro b ⟨o', ho', hb⟩
        rw [ho0] at ho'
        cases ho'
        exact hall b (hrefs ▸ hb)
      have inv2 := inv1.blacken hi1 hcur1 hall'
      obtain ⟨objs', grey', hp, inv', hpre'⟩ := ih (i + 1) _ grey1 inv2 (by omega)
      refine ⟨objs', grey', ?_, inv', hpre.trans hpre'⟩
      unfold propagate_grey
      simp only [hcur, ho, hs]
      exact hp

/-- C32: the worklist stays in bounds.  In every collector state in which the list has no
duplicates, `count` is its length and every edge target is in the list, both marking loops
of `gc_collect` run to their end without a write past the `count` slots of `grey`: the
worklist left by the first loop is extended by the second, no address occurs twice in the
final worklist, every entry is an object of the list, and the number of entries is at most
`count`; so `gc_collect` has a result.  Nothing is asked of the edges beyond their targets
being in the list: they may repeat, loop and form cycles. -/
theorem grey_worklist_in_bounds (gc : GC) (hnd : gc.ids.Nodup)
    (hc : gc.count = gc.objs.length) (hcl : EdgesClosed gc) :
    ∃ objs1 grey0 objs2 grey,
      mark_roots gc.count gc.malloc.2.objs [] = some (objs1, grey0) ∧
      propagate_grey gc.count gc.count 0 objs1 grey0 = some (objs2, grey) ∧
      propagate gc.count gc.count 0 objs1 grey0 = some objs2 ∧
      grey_worklist gc = some grey ∧
      grey0 <+: grey ∧ grey.Nodup ∧ (∀ a ∈ grey, a ∈ gc.ids) ∧ grey.length ≤ gc.count ∧
      ∃ gc1, gc_collect gc = some gc1 := by
  have hlen : ([] : List Nat).length + (rootIds gc.objs).length ≤ gc.count := by
    have := (rootIds_sublist gc.objs).length_le
    simp only [List.length_map] at this
    simp only [List.length_nil]; omega
  have h1 := mark_roots_eq gc.count gc.objs [] hlen
  simp only [List.nil_append] at h1
  rw [← malloc_objs gc] at h1
  obtain ⟨objs2, grey, hp, inv, hpre⟩ :=
    propagate_grey_inv gc gc.count (by omega) hcl gc.count 0 _ _ (mark_init gc hnd) (by omega)
  rw [← malloc_objs gc] at hp
  have hlenle : grey.length ≤ gc.count := by
    have h2 := nodup_length_le inv.nodup inv.grey_sub
    simp only [GC.ids, List.length_map] at h2
    omega
  obtain ⟨gc1, hg, _⟩ := gc_collect_total gc hnd hc hcl
  refine ⟨_, _, objs2, grey, h1, hp, ?_, ?_, ?_, inv.nodup, inv.grey_sub, hlenle, gc1, hg⟩
  · rw [propagate_grey_fst, hp]; rfl
  · unfold grey_worklist
    rw [h1]
    simp only [hp, Option.map_some']
  · rw [malloc_objs gc]; exact hpre

theorem grey_worklist_in_bounds_witness :
    (tangle_gc.ids.Nodup ∧ tangle_gc.count = tangle_gc.objs.length ∧ EdgesClosed tangle_gc) ∧
      grey_worklist tangle_gc = some [1, 3, 2] ∧
      ∃ objs1 grey0 objs2 grey,
        mark_roots tangle_gc.count tangle_gc.malloc.2.objs [] = some (objs1, grey0) ∧
        propagate_grey tangle_gc.count tangle_gc.count 0 objs1 grey0 = some (objs2, grey) ∧
        propagate tangle_gc.count tangle_gc.count 0 objs1 grey0 = some objs2 ∧
        grey_worklist tangle_gc = some grey ∧
        grey0 <+: grey ∧ grey.Nodup ∧ (∀ a ∈ grey, a ∈ tangle_gc.ids) ∧
        grey.length ≤ tangle_gc.count ∧
        ∃ gc1, gc_collect tangle_gc = some gc1 :=
  ⟨by decide, by decide,
    grey_worklist_in_bounds tangle_gc (by decide) (by decide) (by decide)⟩

/-! ## The zero baseline: C33 -/

end XShare
